import Mathlib

/-!
# multilang-gen: the generation pipeline of `cmd/gen.go` and the scaffold of `cmd/init.go`

A shallow embedding of the two commands of the static multilingual page
generator.

* Go strings are `String`; `strings.ReplaceAll` and `filepath.Ext` are written
  out on the character list.
* A Go `map[string]V` is an association list with pairwise distinct keys
  (`GoMap`); a `for ... range` over a map may visit the entries in any order,
  so every loop over a map takes the visiting order from a `MapRange`, which
  only promises a permutation of the entries.
* The file system is an explicit state (`FS`) threaded through the code: the
  files with their content, the directories, and the paths on which the system
  refuses a call.
* What the standard library and `html/template` decide (path joining, JSON
  decoding and encoding, template parsing and execution) is a parameter
  (`Lib`), so every theorem holds for all behaviours of these collaborators.
* For the round trip of the language data, `json.Unmarshal` into a
  `map[string]interface{}` and `json.Marshal` of it are written out after the
  documentation of `encoding/json` (`jsonUnmarshal`, `jsonMarshal`), on texts
  that are valid Unicode; `float64` with its decimal text stays a parameter
  (`JsonCodec`), of which only the laws that `strconv` documents are used
  (`JsonCodec.Lawful`).
* Log output (`logrus`, `fmt.Println`) is not modelled.
-/

namespace MultilangGen

deriving instance DecidableEq for Except

/-! ## Go maps -/

/-- A Go `map[string]V`: entries with pairwise distinct keys, every operation
below keeps the keys distinct. -/
abbrev GoMap (ν : Type) := List (String × ν)

namespace GoMap

/-- The Go literal `make(map[string]V)`. -/
def empty {ν : Type} : GoMap ν := []

/-- The two-valued lookup `v, ok := m[k]`. -/
def lookup {ν : Type} (m : GoMap ν) (k : String) : Option ν :=
  (m.find? (fun e => e.1 == k)).map Prod.snd

/-- The assignment `m[k] = v`: overwrite the entry of `k`, or add one. -/
def set {ν : Type} : GoMap ν → String → ν → GoMap ν
  | [], k, v => [(k, v)]
  | e :: m, k, v => if e.1 = k then (k, v) :: m else e :: set m k v

/-- The builtin `delete(m, k)`. -/
def delete {ν : Type} (m : GoMap ν) (k : String) : GoMap ν :=
  m.filter (fun e => e.1 ≠ k)

/-- The builtin `len(m)`. -/
def len {ν : Type} (m : GoMap ν) : Nat := m.length

/-- The keys of the map. -/
def keys {ν : Type} (m : GoMap ν) : List String := m.map Prod.fst

/-- The single-valued lookup `m[k]` on a `map[string]bool`: the zero value
`false` for an absent key. -/
def test (m : GoMap Bool) (k : String) : Bool := (m.lookup k).getD false

end GoMap

/-- The order in which the `n`-th `for ... range` over a map visits its
entries: unspecified by Go, some permutation of the entries. -/
structure MapRange (α : Type) where
  visit : Nat → List α → List α
  perm : ∀ n l, (visit n l).Perm l

/-- The range that visits the entries in insertion order. -/
def MapRange.inOrder (α : Type) : MapRange α := ⟨fun _ l => l, fun _ l => List.Perm.refl l⟩

/-- The range that visits the entries in reverse insertion order. -/
def MapRange.reversed (α : Type) : MapRange α :=
  ⟨fun _ l => l.reverse, fun _ l => List.reverse_perm l⟩

/-! ## Strings -/

/-- The placeholder of the output pattern. -/
def langToken : String := "\x7blang\x7d"

/-- The scan of `strings.ReplaceAll` for a non-empty `old`: `skip` counts the
characters of a match that are still to be dropped. -/
def replaceAllAux (old new : List Char) : Nat → List Char → List Char
  | _, [] => []
  | skip + 1, _ :: s => replaceAllAux old new skip s
  | 0, c :: s =>
    if old.isPrefixOf (c :: s) then new ++ replaceAllAux old new (old.length - 1) s
    else c :: replaceAllAux old new 0 s

/-- The library function `strings.ReplaceAll(s, old, new)` for a non-empty
`old` (its only use is with the token `{lang}`): the non-overlapping matches
of `old` are replaced from left to right. -/
def replaceAll (s old new : String) : String :=
  ⟨replaceAllAux old.data new.data 0 s.data⟩

/-- The expression `strings.ReplaceAll(outputPattern, "{lang}", code)`. -/
def outputName (outputPattern code : String) : String :=
  replaceAll outputPattern langToken code

/-- The loop of `filepath.Ext` on the reversed path: `acc` holds the characters
already passed, in path order. -/
def extAux : List Char → List Char → List Char
  | [], _ => []
  | c :: r, acc =>
    if c = '/' then []
    else if c = '.' then c :: acc
    else extAux r (c :: acc)

/-- The library function `filepath.Ext(path)`: the suffix beginning at the last
dot of the last element of the path, empty when there is no dot. -/
def filepathExt (path : String) : String := ⟨extAux path.data.reverse []⟩

/-! ## Data model -/

/-- The struct `Language`. -/
structure Language where
  Code : String
  Name : String
  DisplayName : String
  File : String
  URL : String
  Current : Bool
  deriving DecidableEq, Repr

/-- The struct `Manifest`. -/
structure Manifest where
  BaseURL : String
  SiteName : String
  Author : String
  Description : String
  Version : String
  deriving DecidableEq, Repr

/-- The anonymous struct `templateData` handed to the template, with the
decoded language data `map[string]interface{}` of type `D`. -/
structure TemplateData (D : Type) where
  Lang : Language
  LangLinks : List Language
  I18N : D
  I18NJson : String
  Base : Manifest

/-- The string-valued JSON literals that `runInit` encodes. -/
inductive JsonLit where
  | str (s : String)
  | obj (fields : List (String × String))
  | arr (items : List (List (String × String)))

/-! ## The file system -/

/-- The state of the file system: the regular files with their content, the
directories, and the paths on which the system refuses to open, create or
make anything. -/
structure FS where
  files : GoMap String
  dirs : List String
  denied : List String
  deriving DecidableEq, Repr

namespace FS

/-- The test `_, err := os.Stat(p); os.IsNotExist(err)`. -/
def notExist (fs : FS) (p : String) : Bool :=
  (fs.files.lookup p).isNone && !(fs.dirs.contains p)

/-- The call `os.ReadFile(p)`: the content, or `none` for an error. -/
def readFile (fs : FS) (p : String) : Option String :=
  if fs.denied.contains p then none else fs.files.lookup p

/-- The call `os.MkdirAll(p, 0o755)`: `none` for an error. -/
def mkdirAll (fs : FS) (p : String) : Option FS :=
  if fs.denied.contains p || (fs.files.lookup p).isSome then none
  else if fs.dirs.contains p then some fs
  else some { fs with dirs := fs.dirs ++ [p] }

/-- The call `os.Create(p)`: the file exists and is empty afterwards; `none`
for an error. -/
def create (fs : FS) (p : String) : Option FS :=
  if fs.denied.contains p || fs.dirs.contains p then none
  else some { fs with files := fs.files.set p "" }

/-- Writing `out` through the handle returned by `os.Create(p)`. -/
def write (fs : FS) (p out : String) : FS :=
  { fs with files := fs.files.set p out }

/-- The call `os.WriteFile(p, data, 0o644)`: `none` for an error. -/
def writeFile (fs : FS) (p data : String) : Option FS :=
  (fs.create p).map (fun fs1 => fs1.write p data)

end FS

/-! ## The collaborators -/

/-- What the libraries decide: `T` is a parsed template, `D` a decoded
`map[string]interface{}`. -/
structure Lib (T D : Type) where
  /-- The function `filepath.Join` on two elements. -/
  join : String → String → String
  /-- The function `filepath.Base`. -/
  base : String → String
  /-- The call `template.New(name).Parse(text)`. -/
  parse : String → String → Except String T
  /-- The call `tmpl.Execute(w, data)`: the bytes written to `w`, and the error
  if there is one. -/
  execute : T → TemplateData D → String × Option String
  /-- The call `json.Unmarshal(content, &manifest)`. -/
  unmarshalManifest : String → Except String Manifest
  /-- The call `json.Unmarshal(content, &languages)`. -/
  unmarshalLanguages : String → Except String (List Language)
  /-- The call `json.Unmarshal(content, &result)` into a map. -/
  unmarshalData : String → Except String D
  /-- The call `json.Marshal(langData)`. -/
  marshal : D → Except String String
  /-- The call `json.MarshalIndent(v, "", "    ")`, its error dropped as in
  `runInit`. -/
  marshalIndent : JsonLit → String
  /-- The range over `langCodeSet`. -/
  rangeCodes : MapRange (String × Bool)
  /-- The ranges over `langLinks`, one per generated language. -/
  rangeLinks : MapRange (String × Language)

/-! ## Errors -/

/-- The errors of `parseLanguageFile`. -/
inductive DataError where
  /-- The error of `os.ReadFile`, returned as it is. -/
  | read (path : String)
  /-- The error "解析 JSON 文件失败". -/
  | parseJSON (msg : String)
  /-- The error "不支持的文件格式 %s，仅支持 .json 格式". -/
  | unsupportedFormat (ext : String)
  deriving DecidableEq, Repr

/-- The errors of `generateLanguageFileFromIndex`. -/
inductive FileError where
  /-- The error "加载语言数据失败". -/
  | loadData (e : DataError)
  /-- The error "序列化语言数据失败". -/
  | marshal (msg : String)
  /-- The error "创建输出文件失败". -/
  | create (path : String)
  /-- The error "模板渲染失败". -/
  | render (msg : String)
  deriving DecidableEq, Repr

/-- The errors of `loadManifest`, `loadLanguageIndex` and `parseTemplate`. -/
inductive LoadError where
  /-- The file could not be read. -/
  | read (path : String)
  /-- The content could not be decoded or parsed. -/
  | parse (msg : String)
  deriving DecidableEq, Repr

/-- The errors of `runGen`. -/
inductive GenError where
  /-- The error "项目目录不存在". -/
  | projectDirMissing (dir : String)
  /-- The error "模板文件不存在". -/
  | templateMissing (path : String)
  /-- The error "语言索引文件不存在". -/
  | indexMissing (path : String)
  /-- The error "创建输出目录失败". -/
  | mkdirOutput (path : String)
  /-- The error "读取语言索引失败". -/
  | loadIndex (e : LoadError)
  /-- The error "在索引文件中未找到任何语言配置". -/
  | emptyIndex
  /-- The error "未找到以下语言代码的配置: %v". -/
  | codesNotFound (notFound : List String)
  /-- The error "指定的语言代码都未找到对应的配置". -/
  | noneFound
  /-- The error "解析模板文件失败". -/
  | parseTemplate (e : LoadError)
  /-- The error "生成语言文件 %s 失败". -/
  | generate (code : String) (e : FileError)
  deriving DecidableEq, Repr

/-- The errors of `runInit`. -/
inductive InitError where
  /-- The error "创建目标目录失败". -/
  | mkdirTarget (path : String)
  /-- The error "创建语言目录失败". -/
  | mkdirLangs (path : String)
  /-- The error "导出 manifest.json 失败". -/
  | writeManifest (path : String)
  /-- The error "导出语言索引失败". -/
  | writeIndex (path : String)
  /-- The error "导出中文语言包失败". -/
  | writeZh (path : String)
  /-- The error "导出英文语言包失败". -/
  | writeEn (path : String)
  deriving DecidableEq, Repr

/-! ## `cmd/gen.go` -/

/-- The ghost record of one run next to the file system: the paths that
`os.Create` opened and the contexts handed to `Execute`, oldest first. -/
structure Run (D : Type) where
  fs : FS
  created : List String
  rendered : List (TemplateData D)

/-- The default record of `runGen` for a manifest that cannot be loaded. -/
def defaultManifest : Manifest :=
  { BaseURL := "", SiteName := "Website", Author := "", Description := "", Version := "1.0.0" }

/-- The function `loadManifest`. -/
def loadManifest {T D : Type} (lib : Lib T D) (fs : FS) (manifestPath : String) :
    Except LoadError Manifest :=
  match fs.readFile manifestPath with
  | none => .error (.read manifestPath)
  | some content =>
    match lib.unmarshalManifest content with
    | .error msg => .error (.parse msg)
    | .ok manifest => .ok manifest

/-- The function `loadLanguageIndex`. -/
def loadLanguageIndex {T D : Type} (lib : Lib T D) (fs : FS) (langDir : String) :
    Except LoadError (List Language) :=
  let indexPath := lib.join langDir "index.json"
  match fs.readFile indexPath with
  | none => .error (.read indexPath)
  | some content =>
    match lib.unmarshalLanguages content with
    | .error msg => .error (.parse msg)
    | .ok languages => .ok languages

/-- The function `parseLanguageFile`: the file is read first, the extension is
looked at afterwards. -/
def parseLanguageFile {T D : Type} (lib : Lib T D) (fs : FS) (filePath ext : String) :
    Except DataError D :=
  match fs.readFile filePath with
  | none => .error (.read filePath)
  | some content =>
    if ext = ".json" then
      match lib.unmarshalData content with
      | .error msg => .error (.parseJSON msg)
      | .ok result => .ok result
    else .error (.unsupportedFormat ext)

/-- The function `loadLanguageDataFromFile`. -/
def loadLanguageDataFromFile {T D : Type} (lib : Lib T D) (fs : FS) (langDir filename : String) :
    Except DataError D :=
  let filePath := lib.join langDir filename
  let ext := filepathExt filename
  parseLanguageFile lib fs filePath ext

/-- The function `parseTemplate`. -/
def parseTemplate {T D : Type} (lib : Lib T D) (fs : FS) (templatePath : String) :
    Except LoadError T :=
  match fs.readFile templatePath with
  | none => .error (.read templatePath)
  | some templateContent =>
    match lib.parse (lib.base templatePath) templateContent with
    | .error msg => .error (.parse msg)
    | .ok tmpl => .ok tmpl

/-- The function `generateLanguageLinksFromIndex`. -/
def generateLanguageLinksFromIndex (languages : List Language) : GoMap Language :=
  languages.foldl (fun links lang => links.set lang.Code lang) GoMap.empty

/-- The body of the loop over `langLinks` in `generateLanguageFileFromIndex`. -/
def stampLink (outputPattern : String) (currentLang lang : Language) : Language :=
  { lang with
    URL := outputName outputPattern lang.Code
    Current := (lang.Code == currentLang.Code) }

/-- The function `generateLanguageFileFromIndex`; the range over `langLinks` is
the one numbered by the contexts rendered before. -/
def generateLanguageFileFromIndex {T D : Type} (lib : Lib T D) (outputPattern : String)
    (tmpl : T) (currentLang : Language) (langLinks : GoMap Language)
    (langDir outputDir : String) (manifest : Manifest) (st : Run D) :
    Run D × Except FileError Unit :=
  match loadLanguageDataFromFile lib st.fs langDir currentLang.File with
  | .error e => (st, .error (.loadData e))
  | .ok langData =>
    let currentLang : Language :=
      { currentLang with URL := outputName outputPattern currentLang.Code, Current := true }
    let allLangLinks : List Language :=
      (lib.rangeLinks.visit st.rendered.length langLinks).map
        (fun e => stampLink outputPattern currentLang e.2)
    match lib.marshal langData with
    | .error msg => (st, .error (.marshal msg))
    | .ok i18nJson =>
      let templateData : TemplateData D :=
        { Lang := currentLang, LangLinks := allLangLinks, I18N := langData,
          I18NJson := i18nJson, Base := manifest }
      let outputFile := outputName outputPattern currentLang.Code
      let outputPath := lib.join outputDir outputFile
      match st.fs.create outputPath with
      | none => (st, .error (.create outputPath))
      | some fs1 =>
        let res := lib.execute tmpl templateData
        let st1 : Run D :=
          { fs := fs1.write outputPath res.1
            created := st.created ++ [outputPath]
            rendered := st.rendered ++ [templateData] }
        match res.2 with
        | some msg => (st1, .error (.render msg))
        | none => (st1, .ok ())

/-- The first loop of the language filter of `runGen`: the set of the
requested codes. -/
def makeCodeSet (langCodes : List String) : GoMap Bool :=
  langCodes.foldl (fun langCodeSet code => langCodeSet.set code true) GoMap.empty

/-- The second loop of the language filter of `runGen`, on the pair
`(filteredLanguages, langCodeSet)`. -/
def filterLoop : List Language → List Language × GoMap Bool → List Language × GoMap Bool
  | [], acc => acc
  | lang :: rest, (filteredLanguages, langCodeSet) =>
    if langCodeSet.test lang.Code then
      filterLoop rest (filteredLanguages ++ [lang], langCodeSet.delete lang.Code)
    else filterLoop rest (filteredLanguages, langCodeSet)

/-- The language filter of `runGen`, the branch `len(langCodes) > 0`. -/
def filterLanguages (rangeCodes : MapRange (String × Bool)) (languages : List Language)
    (langCodes : List String) : Except GenError (List Language) :=
  let langCodeSet := makeCodeSet langCodes
  let (filteredLanguages, langCodeSet) := filterLoop languages ([], langCodeSet)
  if langCodeSet.len > 0 then
    let notFound := (rangeCodes.visit 0 langCodeSet).map Prod.fst
    .error (.codesNotFound notFound)
  else if filteredLanguages.length = 0 then .error .noneFound
  else .ok filteredLanguages

/-- The selection of the languages in `runGen`: filtered when codes are
requested, the whole index otherwise. -/
def selectLanguages (rangeCodes : MapRange (String × Bool)) (languages : List Language)
    (langCodes : List String) : Except GenError (List Language) :=
  if langCodes.length > 0 then filterLanguages rangeCodes languages langCodes
  else .ok languages

/-- The last loop of `runGen`: one file per language, stopping at the first
error. -/
def generateAll {T D : Type} (lib : Lib T D) (outputPattern : String) (tmpl : T)
    (langLinks : GoMap Language) (langDir outputDir : String) (manifest : Manifest) :
    List Language → Run D → Run D × Except GenError Unit
  | [], st => (st, .ok ())
  | lang :: rest, st =>
    match generateLanguageFileFromIndex lib outputPattern tmpl lang langLinks langDir outputDir
        manifest st with
    | (st1, .error e) => (st1, .error (.generate lang.Code e))
    | (st1, .ok ()) =>
      generateAll lib outputPattern tmpl langLinks langDir outputDir manifest rest st1

/-- The directory of the project: the first argument, or the current one. -/
def projectDirOf (args : List String) : String :=
  match args with
  | [] => "."
  | dir :: _ => dir

/-- The function `runGen`, with the package variables `outputPattern` and
`langCodes` and the file system as arguments. -/
def runGen {T D : Type} (lib : Lib T D) (outputPattern : String) (langCodes : List String)
    (args : List String) (fs : FS) : Run D × Except GenError Unit :=
  let st0 : Run D := { fs := fs, created := [], rendered := [] }
  let projectDir := projectDirOf args
  if fs.notExist projectDir then (st0, .error (.projectDirMissing projectDir)) else
  let templatePath := lib.join projectDir "index.tmpl"
  let langDir := lib.join projectDir "langs"
  let outputDir := lib.join projectDir "outputs"
  let manifestPath := lib.join projectDir "manifest.json"
  if fs.notExist templatePath then (st0, .error (.templateMissing templatePath)) else
  if fs.notExist (lib.join langDir "index.json") then
    (st0, .error (.indexMissing (lib.join langDir "index.json"))) else
  match fs.mkdirAll outputDir with
  | none => (st0, .error (.mkdirOutput outputDir))
  | some fs1 =>
    let st1 : Run D := { fs := fs1, created := [], rendered := [] }
    let manifest : Manifest :=
      match loadManifest lib fs1 manifestPath with
      | .error _ => defaultManifest
      | .ok manifest => manifest
    match loadLanguageIndex lib fs1 langDir with
    | .error e => (st1, .error (.loadIndex e))
    | .ok languages =>
      if languages.length = 0 then (st1, .error .emptyIndex) else
      match selectLanguages lib.rangeCodes languages langCodes with
      | .error e => (st1, .error e)
      | .ok languages =>
        match parseTemplate lib fs1 templatePath with
        | .error e => (st1, .error (.parseTemplate e))
        | .ok tmpl =>
          let langLinks := generateLanguageLinksFromIndex languages
          generateAll lib outputPattern tmpl langLinks langDir outputDir manifest languages st1

/-! ## `cmd/init.go` -/

/-- The literal `manifest` of `runInit`. -/
def initManifest : JsonLit :=
  .obj [("baseURL", "https://example.com"), ("siteName", "My Website"),
    ("author", "Website Author"), ("description", "A multilingual website"),
    ("version", "1.0.0")]

/-- The literal `languageIndex` of `runInit`. -/
def initLanguageIndex : JsonLit :=
  .arr [[("code", "zh"), ("name", "中文"), ("displayName", "中文"), ("file", "zh-CN.json")],
    [("code", "en"), ("name", "English"), ("displayName", "English"), ("file", "en-US.json")]]

/-- The literal `zhData` of `runInit`. -/
def initZhData : JsonLit :=
  .obj [("title", "我的网站"), ("subtitle", "基于模板的多语言网站"),
    ("description", "这是一个多语言网站示例"), ("welcome", "欢迎使用"),
    ("language_switcher", "语言切换"), ("switch_to", "切换到"), ("site_info", "站点信息"),
    ("site_name", "站点名称"), ("version", "版本"), ("base_url", "基础URL"),
    ("author", "作者"), ("current_language", "当前语言"), ("language_code", "语言代码"),
    ("language_name", "语言名称"), ("footer_text", "页脚文本")]

/-- The literal `enData` of `runInit`. -/
def initEnData : JsonLit :=
  .obj [("title", "My Website"), ("subtitle", "Template-based multilingual website"),
    ("description", "This is a multilingual website example"), ("welcome", "Welcome"),
    ("language_switcher", "Language Switcher"), ("switch_to", "Switch to"),
    ("site_info", "Site Information"), ("site_name", "Site Name"), ("version", "Version"),
    ("base_url", "Base URL"), ("author", "Author"), ("current_language", "Current Language"),
    ("language_code", "Language Code"), ("language_name", "Language Name"),
    ("footer_text", "Footer Text")]

/-- The files the documentation of the `init` command (`initCmd.Long`) lists,
relative to the target directory. -/
def initDocumentedFiles : List (List String) :=
  [["index.tmpl"], ["manifest.json"], ["langs", "index.json"], ["langs", "zh-CN.json"],
    ["langs", "en-US.json"]]

/-- The function `runInit`: the file system afterwards, the paths written by
`os.WriteFile` (oldest first), and the result. -/
def runInit {T D : Type} (lib : Lib T D) (args : List String) (fs : FS) :
    FS × List String × Except InitError Unit :=
  let targetDir := projectDirOf args
  match fs.mkdirAll targetDir with
  | none => (fs, [], .error (.mkdirTarget targetDir))
  | some fs1 =>
    let langsDir := lib.join targetDir "langs"
    match fs1.mkdirAll langsDir with
    | none => (fs1, [], .error (.mkdirLangs langsDir))
    | some fs2 =>
      let manifestData := lib.marshalIndent initManifest
      let manifestPath := lib.join targetDir "manifest.json"
      match fs2.writeFile manifestPath manifestData with
      | none => (fs2, [], .error (.writeManifest manifestPath))
      | some fs3 =>
        let indexData := lib.marshalIndent initLanguageIndex
        let indexPath := lib.join langsDir "index.json"
        match fs3.writeFile indexPath indexData with
        | none => (fs3, [manifestPath], .error (.writeIndex indexPath))
        | some fs4 =>
          let zhJSON := lib.marshalIndent initZhData
          let zhPath := lib.join langsDir "zh-CN.json"
          match fs4.writeFile zhPath zhJSON with
          | none => (fs4, [manifestPath, indexPath], .error (.writeZh zhPath))
          | some fs5 =>
            let enJSON := lib.marshalIndent initEnData
            let enPath := lib.join langsDir "en-US.json"
            match fs5.writeFile enPath enJSON with
            | none => (fs5, [manifestPath, indexPath, zhPath], .error (.writeEn enPath))
            | some fs6 => (fs6, [manifestPath, indexPath, zhPath, enPath], .ok ())

/-! ## Concrete collaborators, for evaluating the code on examples -/

/-- The last element of a path without trailing separator. -/
def baseName (path : String) : String :=
  ⟨(path.data.reverse.takeWhile (fun c => c ≠ '/')).reverse⟩

/-- A library for examples: templates and language data are kept as their
text, every index file decodes to `languages`, `manifest` is what the manifest
file decodes to, a template whose text is `failOn` cannot be executed, paths
are joined with one separator (as `filepath.Join` does for clean relative
elements), and maps are visited in insertion order. -/
def demoLib (languages : List Language) (manifest : Except String Manifest)
    (failOn : String) : Lib String String :=
  { join := fun a b => a ++ "/" ++ b
    base := baseName
    parse := fun _ text => .ok text
    execute := fun tmpl data =>
      if tmpl = failOn then ("", some "execute") else (tmpl ++ ":" ++ data.Lang.Code, none)
    unmarshalManifest := fun _ => manifest
    unmarshalLanguages := fun _ => .ok languages
    unmarshalData := fun content => .ok content
    marshal := fun d => .ok d
    marshalIndent := fun _ => "json"
    rangeCodes := MapRange.inOrder _
    rangeLinks := MapRange.inOrder _ }

/-- A language descriptor as decoded from the index: no URL, not current. -/
def mkLang (code file : String) : Language :=
  { Code := code, Name := code, DisplayName := code, File := file, URL := "", Current := false }

/-- The empty file system with the directory `proj`. -/
def emptyProject : FS := { files := [], dirs := ["proj"], denied := [] }

/-- A project `proj` with a template, an index and the data files `zh.json`
and `en.json`, without manifest. -/
def demoProject : FS :=
  { files := [("proj/index.tmpl", "T"), ("proj/langs/index.json", "I"),
      ("proj/langs/zh.json", "Z"), ("proj/langs/en.json", "E")]
    dirs := ["proj", "proj/langs"]
    denied := [] }

/-- The index `[zh, en]` of the example project. -/
def demoLanguages : List Language := [mkLang "zh" "zh.json", mkLang "en" "en.json"]

/-- The start of a run on the example project. -/
def demoRun : Run String := { fs := demoProject, created := [], rendered := [] }

/-- The context of the language `en` of the example project under the pattern
`{lang}.html`. -/
def demoContextEn : TemplateData String :=
  { Lang := { mkLang "en" "en.json" with URL := "en.html", Current := true }
    LangLinks := [{ mkLang "zh" "zh.json" with URL := "zh.html" },
      { mkLang "en" "en.json" with URL := "en.html", Current := true }]
    I18N := "E"
    I18NJson := "E"
    Base := defaultManifest }

/-- A project `proj` whose second language keeps its data in `fr.yaml`. -/
def yamlProject : FS :=
  { files := [("proj/index.tmpl", "T"), ("proj/langs/index.json", "I"),
      ("proj/langs/zh.json", "Z"), ("proj/langs/fr.yaml", "F")]
    dirs := ["proj", "proj/langs"]
    denied := [] }

/-- The index `[zh, fr]` of the project with a YAML data file. -/
def yamlLanguages : List Language := [mkLang "zh" "zh.json", mkLang "fr" "fr.yaml"]

/-- Whether the error of `generateLanguageFileFromIndex` is the rendering
error, the only one raised after the output file was created. -/
def FileError.afterCreate : FileError → Bool
  | .render _ => true
  | _ => false

/-- The number of matches of `old` that the scan of `strings.ReplaceAll`
replaces. -/
def matchCount (old : List Char) : Nat → List Char → Nat
  | _, [] => 0
  | skip + 1, _ :: s => matchCount old skip s
  | 0, c :: s =>
    if old.isPrefixOf (c :: s) then matchCount old (old.length - 1) s + 1
    else matchCount old 0 s

/-- The number of characters that the scan of `strings.ReplaceAll` copies. -/
def keptCount (old : List Char) : Nat → List Char → Nat
  | _, [] => 0
  | skip + 1, _ :: s => keptCount old skip s
  | 0, c :: s =>
    if old.isPrefixOf (c :: s) then keptCount old (old.length - 1) s
    else keptCount old 0 s + 1


/-! ## `encoding/json` on `map[string]interface{}`

The decoder and the encoder of `encoding/json` as its documentation describes
them, for the one Go type that `parseLanguageFile` decodes into. A text is a
list of Unicode characters. The limit that the decoder puts on the depth of
nesting is left out: it only refuses texts, and the text of a value is as deep
as the value. -/

mutual
/-- The values that `json.Unmarshal` stores in an `interface{}`: `nil`, `bool`,
`float64` (of type `N`), `string`, `[]interface{}` and
`map[string]interface{}`; a map is kept as its entries in increasing order of
the keys, the order in which `json.Marshal` writes them. -/
inductive JVal (N : Type) where
  | null
  | bool (b : Bool)
  | num (x : N)
  | str (s : String)
  | arr (items : JItems N)
  | obj (fields : JFields N)
/-- The elements of a `[]interface{}`. -/
inductive JItems (N : Type) where
  | nil
  | cons (v : JVal N) (rest : JItems N)
/-- The entries of a `map[string]interface{}`. -/
inductive JFields (N : Type) where
  | nil
  | cons (k : String) (v : JVal N) (rest : JFields N)
end

/-- The characters of a JSON number literal. -/
def isNumberChar (c : Char) : Bool :=
  c.isDigit || c = '-' || c = '+' || c = '.' || c = 'e' || c = 'E'

/-- What `strconv` and the Go version decide for `encoding/json`: `N` stands
for `float64`; `format` is the text the encoder writes for a float (the
shortest decimal text that `strconv.ParseFloat` reads back to the same value,
as `strconv.FormatFloat` with precision `-1` promises, a JSON number literal);
`parse` is the decoder on a number literal (`none` when the text is no JSON
number or is out of the range of `float64`); `finite` tells a float that is
neither NaN nor infinite, the only floats the encoder accepts and the only
ones the decoder yields; `shortEscapes` is whether the encoder writes the
backspace and the form feed as `\b` and `\f` (Go 1.22 and later) or as
`\u0008` and `\u000c`. -/
structure JsonCodec (N : Type) where
  format : N → List Char
  parse : List Char → Option N
  finite : N → Bool
  shortEscapes : Bool

/-- What `strconv` promises of the floats: the decoder yields finite floats
only; the text of a finite float reads back to the same float; this text is a
number literal, which starts with a digit or the sign `-` and is made of the
characters of numbers. -/
structure JsonCodec.Lawful {N : Type} (codec : JsonCodec N) : Prop where
  parse_finite : ∀ s x, codec.parse s = some x → codec.finite x = true
  parse_format : ∀ x, codec.finite x = true → codec.parse (codec.format x) = some x
  format_head : ∀ x, codec.finite x = true →
    ∃ c t, codec.format x = c :: t ∧ (c = '-' ∨ c.isDigit = true)
  format_chars : ∀ x, codec.finite x = true → ∀ c ∈ codec.format x, isNumberChar c = true

/-- The hexadecimal digit of a number below sixteen, in lower case. -/
def hexDigit (n : Nat) : Char :=
  if n < 10 then Char.ofNat (48 + n) else Char.ofNat (87 + n)

/-- The escape `\u00XX` of a character below U+0100. -/
def escapeByte (c : Char) : List Char :=
  ['\\', 'u', '0', '0', hexDigit (c.toNat / 16), hexDigit (c.toNat % 16)]

/-- The text the encoder writes for one character of a string, with the HTML
escaping that `json.Marshal` applies. -/
def renderChar (shortEscapes : Bool) (c : Char) : List Char :=
  if c = '"' then ['\\', '"']
  else if c = '\\' then ['\\', '\\']
  else if c = '\n' then ['\\', 'n']
  else if c = '\r' then ['\\', 'r']
  else if c = '\t' then ['\\', 't']
  else if c = Char.ofNat 8 ∧ shortEscapes = true then ['\\', 'b']
  else if c = Char.ofNat 12 ∧ shortEscapes = true then ['\\', 'f']
  else if c.toNat < 32 then escapeByte c
  else if c = '<' ∨ c = '>' ∨ c = '&' then escapeByte c
  else if c = Char.ofNat 0x2028 then ['\\', 'u', '2', '0', '2', '8']
  else if c = Char.ofNat 0x2029 then ['\\', 'u', '2', '0', '2', '9']
  else [c]

/-- The text the encoder writes for a string, quotes included. -/
def renderString (shortEscapes : Bool) (s : String) : List Char :=
  '"' :: (s.data.flatMap (renderChar shortEscapes)) ++ ['"']

mutual
/-- The compact text that `json.Marshal` writes for a value. -/
def JVal.render {N : Type} (codec : JsonCodec N) : JVal N → List Char
  | .null => ['n', 'u', 'l', 'l']
  | .bool true => ['t', 'r', 'u', 'e']
  | .bool false => ['f', 'a', 'l', 's', 'e']
  | .num x => codec.format x
  | .str s => renderString codec.shortEscapes s
  | .arr items => '[' :: items.render codec true
  | .obj fields => '{' :: fields.render codec true
/-- The elements of an array up to the closing bracket; `first` tells that no
element was written yet. -/
def JItems.render {N : Type} (codec : JsonCodec N) : JItems N → Bool → List Char
  | .nil, _ => [']']
  | .cons v rest, true => v.render codec ++ rest.render codec false
  | .cons v rest, false => ',' :: (v.render codec ++ rest.render codec false)
/-- The entries of a map up to the closing brace; `first` tells that no entry
was written yet. -/
def JFields.render {N : Type} (codec : JsonCodec N) : JFields N → Bool → List Char
  | .nil, _ => ['}']
  | .cons k v rest, true =>
    renderString codec.shortEscapes k ++ ':' :: (v.render codec ++ rest.render codec false)
  | .cons k v rest, false =>
    ',' :: (renderString codec.shortEscapes k ++ ':' :: (v.render codec ++ rest.render codec false))
end

mutual
/-- Whether every float of the value is finite: the values that `json.Marshal`
accepts. -/
def JVal.finite {N : Type} (codec : JsonCodec N) : JVal N → Bool
  | .num x => codec.finite x
  | .arr items => items.finite codec
  | .obj fields => fields.finite codec
  | _ => true
/-- Whether every float of the elements is finite. -/
def JItems.finite {N : Type} (codec : JsonCodec N) : JItems N → Bool
  | .nil => true
  | .cons v rest => v.finite codec && rest.finite codec
/-- Whether every float of the entries is finite. -/
def JFields.finite {N : Type} (codec : JsonCodec N) : JFields N → Bool
  | .nil => true
  | .cons _ v rest => v.finite codec && rest.finite codec
end

/-- The function `json.Marshal` on a decoded value: the error is the one for
an unsupported float. -/
def jsonMarshal {N : Type} (codec : JsonCodec N) (v : JVal N) : Except String String :=
  if v.finite codec then .ok ⟨v.render codec⟩ else .error "json: unsupported value"

/-- The keys of the entries. -/
def JFields.keys {N : Type} : JFields N → List String
  | .nil => []
  | .cons k _ rest => k :: rest.keys

/-- The order of `strings.Compare` on the keys of a map, in which
`json.Marshal` sorts them: the order of the bytes of the UTF-8 encodings, which
is the order of the code points, character by character. -/
def keyLt : List Char → List Char → Bool
  | [], [] => false
  | [], _ :: _ => true
  | _ :: _, [] => false
  | a :: s, b :: t => if a.toNat < b.toNat then true else if a = b then keyLt s t else false

/-- The key `a` is before the key `b`. -/
def KeyLt (a b : String) : Prop := keyLt a.data b.data = true

/-- The assignment `m[k] = v` on the entries in increasing order of the keys. -/
def JFields.insert {N : Type} (k : String) (v : JVal N) : JFields N → JFields N
  | .nil => .cons k v .nil
  | .cons k1 v1 rest =>
    if keyLt k.data k1.data then .cons k v (.cons k1 v1 rest)
    else if k = k1 then .cons k v rest
    else .cons k1 v1 (rest.insert k v)

/-- The map that holds `acc` after the entries `raw` were assigned to it in
their order in the text: of two entries with one key the later one stays. -/
def JFields.build {N : Type} : JFields N → JFields N → JFields N
  | acc, .nil => acc
  | acc, .cons k v rest => JFields.build (acc.insert k v) rest

/-- The white space of JSON. -/
def isSpace (c : Char) : Bool := c = ' ' || c = '\t' || c = '\r' || c = '\n'

/-- The text after its leading white space. -/
def skipSpace (s : List Char) : List Char := s.dropWhile isSpace

/-- The value of a hexadecimal digit. -/
def hexVal (c : Char) : Option Nat :=
  if 48 ≤ c.toNat ∧ c.toNat ≤ 57 then some (c.toNat - 48)
  else if 97 ≤ c.toNat ∧ c.toNat ≤ 102 then some (c.toNat - 87)
  else if 65 ≤ c.toNat ∧ c.toNat ≤ 70 then some (c.toNat - 55)
  else none

/-- The number written by four hexadecimal digits. -/
def hex4 (a b c d : Char) : Option Nat :=
  match hexVal a, hexVal b, hexVal c, hexVal d with
  | some x, some y, some z, some w => some (((x * 16 + y) * 16 + z) * 16 + w)
  | _, _, _, _ => none

/-- A character put in front of a decoded string. -/
def consChar (c : Char) (r : Option (List Char × List Char)) : Option (List Char × List Char) :=
  r.map (fun p => (c :: p.1, p.2))

/-- The character U+FFFD in front of a decoded string when the escape of a high
half of a surrogate pair is pending without its low half. -/
def flushPending (pending : Option Nat) (r : Option (List Char × List Char)) :
    Option (List Char × List Char) :=
  match pending with
  | some _ => consChar (Char.ofNat 0xfffd) r
  | none => r

/-- The decoder on a string after its opening quote: the characters of the
string and the text after the closing quote. A control character is refused;
`pending` is the high half of a surrogate pair whose escape `\uXXXX` was just
read: followed by the escape of a low half it gives the character of the
pair, and half a pair alone gives U+FFFD. -/
def parseStringBody : Option Nat → List Char → Option (List Char × List Char)
  | _, [] => none
  | pending, c :: t =>
    if c = '"' then flushPending pending (some ([], t))
    else if c = '\\' then
      match t with
      | [] => none
      | e :: t1 =>
        if e = '"' then flushPending pending (consChar '"' (parseStringBody none t1))
        else if e = '\\' then flushPending pending (consChar '\\' (parseStringBody none t1))
        else if e = '/' then flushPending pending (consChar '/' (parseStringBody none t1))
        else if e = 'b' then
          flushPending pending (consChar (Char.ofNat 8) (parseStringBody none t1))
        else if e = 'f' then
          flushPending pending (consChar (Char.ofNat 12) (parseStringBody none t1))
        else if e = 'n' then flushPending pending (consChar '\n' (parseStringBody none t1))
        else if e = 'r' then flushPending pending (consChar '\r' (parseStringBody none t1))
        else if e = 't' then flushPending pending (consChar '\t' (parseStringBody none t1))
        else if e = 'u' then
          match t1 with
          | a :: b :: c1 :: d :: t2 =>
            match hex4 a b c1 d with
            | none => none
            | some n =>
              if 0xdc00 ≤ n ∧ n < 0xe000 then
                match pending with
                | some hi =>
                  consChar (Char.ofNat (0x10000 + (hi - 0xd800) * 0x400 + (n - 0xdc00)))
                    (parseStringBody none t2)
                | none => consChar (Char.ofNat 0xfffd) (parseStringBody none t2)
              else if 0xd800 ≤ n ∧ n < 0xdc00 then
                flushPending pending (parseStringBody (some n) t2)
              else flushPending pending (consChar (Char.ofNat n) (parseStringBody none t2))
          | _ => none
        else none
    else if c.toNat < 32 then none
    else flushPending pending (consChar c (parseStringBody none t))

mutual
/-- The decoder on one value: the value and the text after it; `fuel` bounds
the depth of the calls, the length of the text is enough. -/
def parseValue {N : Type} (codec : JsonCodec N) :
    Nat → List Char → Option (JVal N × List Char)
  | 0, _ => none
  | fuel + 1, s =>
    match s with
    | [] => none
    | c :: t =>
      if c = 'n' then
        match t with
        | 'u' :: 'l' :: 'l' :: r => some (.null, r)
        | _ => none
      else if c = 't' then
        match t with
        | 'r' :: 'u' :: 'e' :: r => some (.bool true, r)
        | _ => none
      else if c = 'f' then
        match t with
        | 'a' :: 'l' :: 's' :: 'e' :: r => some (.bool false, r)
        | _ => none
      else if c = '"' then
        match parseStringBody none t with
        | some (chars, r) => some (.str ⟨chars⟩, r)
        | none => none
      else if c = '[' then
        match parseItems codec fuel true t with
        | some (items, r) => some (.arr items, r)
        | none => none
      else if c = '{' then
        match parseFields codec fuel true t with
        | some (raw, r) => some (.obj (JFields.build .nil raw), r)
        | none => none
      else if c = '-' || c.isDigit then
        match codec.parse ((c :: t).takeWhile isNumberChar) with
        | some x => some (.num x, (c :: t).dropWhile isNumberChar)
        | none => none
      else none
/-- The decoder on the elements of an array up to the closing bracket. -/
def parseItems {N : Type} (codec : JsonCodec N) :
    Nat → Bool → List Char → Option (JItems N × List Char)
  | 0, _, _ => none
  | fuel + 1, first, s =>
    match skipSpace s with
    | [] => none
    | c :: t =>
      if c = ']' then some (.nil, t)
      else
        match (if first then some (c :: t)
               else if c = ',' then some (skipSpace t) else none) with
        | some s1 =>
          match parseValue codec fuel s1 with
          | some (v, r) =>
            match parseItems codec fuel false r with
            | some (rest, r1) => some (.cons v rest, r1)
            | none => none
          | none => none
        | none => none
/-- The decoder on the entries of an object up to the closing brace, in their
order in the text. -/
def parseFields {N : Type} (codec : JsonCodec N) :
    Nat → Bool → List Char → Option (JFields N × List Char)
  | 0, _, _ => none
  | fuel + 1, first, s =>
    match skipSpace s with
    | [] => none
    | c :: t =>
      if c = '}' then some (.nil, t)
      else
        match (if first then some (c :: t)
               else if c = ',' then some (skipSpace t) else none) with
        | some ('"' :: t1) =>
          match parseStringBody none t1 with
          | some (key, r) =>
            match skipSpace r with
            | ':' :: r1 =>
              match parseValue codec fuel (skipSpace r1) with
              | some (v, r2) =>
                match parseFields codec fuel false r2 with
                | some (rest, r3) => some (.cons ⟨key⟩ v rest, r3)
                | none => none
              | none => none
            | _ => none
          | none => none
        | _ => none
end

/-- The call `json.Unmarshal(content, &result)` on a `map[string]interface{}`:
the text is one JSON value between white space, an object, or `null`, which
leaves the map `nil`. -/
def jsonUnmarshal {N : Type} (codec : JsonCodec N) (content : String) :
    Except String (JVal N) :=
  match parseValue codec (content.length + 1) (skipSpace content.data) with
  | none => .error "invalid JSON"
  | some (v, rest) =>
    if skipSpace rest = [] then
      match v with
      | .null => .ok .null
      | .obj fields => .ok (.obj fields)
      | _ => .error "json: cannot unmarshal into Go value of type map[string]interface {}"
    else .error "invalid character after top-level value"

/-- The entries `xs` followed by the entries `ys`. -/
def JFields.append {N : Type} : JFields N → JFields N → JFields N
  | .nil, ys => ys
  | .cons k v rest, ys => .cons k v (rest.append ys)

mutual
/-- Whether every map of the value holds its entries in strictly increasing
order of the keys: the form in which a Go map, which has no order and no
repeated key, is kept here. -/
def JVal.Canonical {N : Type} : JVal N → Prop
  | .arr items => items.Canonical
  | .obj fields => fields.keys.Pairwise KeyLt ∧ fields.Canonical
  | _ => True
/-- Whether every map of the elements is in canonical form. -/
def JItems.Canonical {N : Type} : JItems N → Prop
  | .nil => True
  | .cons v rest => v.Canonical ∧ rest.Canonical
/-- Whether every map of the values of the entries is in canonical form. -/
def JFields.Canonical {N : Type} : JFields N → Prop
  | .nil => True
  | .cons _ v rest => v.Canonical ∧ rest.Canonical
end

/-- The first characters of the texts of values. -/
def ValueStart (c : Char) : Prop :=
  c = 'n' ∨ c = 't' ∨ c = 'f' ∨ c = '"' ∨ c = '[' ∨ c = '{' ∨ c = '-' ∨ c.isDigit = true

/-- The decimal digit of a number below ten. -/
def decimalDigit (d : Nat) : Char := Char.ofNat (48 + d)

/-- The decimal digits of `n` in front of `acc`; `fuel` above `n` is enough. -/
def decimalDigits : Nat → Nat → List Char → List Char
  | 0, _, acc => acc
  | fuel + 1, n, acc =>
    if n < 10 then decimalDigit n :: acc
    else decimalDigits fuel (n / 10) (decimalDigit (n % 10) :: acc)

/-- The number written by decimal digits after the number `a`. -/
def decimalValue (a : Nat) (s : List Char) : Nat :=
  s.foldl (fun a c => 10 * a + (c.toNat - 48)) a

/-- The text of a natural number. -/
def formatNatural (n : Nat) : List Char := decimalDigits (n + 1) n []

/-- The natural number written by a JSON number literal without sign, fraction
and exponent: digits, the first one not `0` unless it is the only one. -/
def parseNatural (s : List Char) : Option Nat :=
  match s with
  | [] => none
  | c :: t =>
    if (c :: t).all Char.isDigit && (c != '0' || t.isEmpty) then some (decimalValue 0 (c :: t))
    else none

/-- The codec of the natural numbers written in decimal: every number is
finite, the encoder writes the decimal digits and the decoder reads a JSON
number literal made of digits only. -/
def naturalCodec : JsonCodec Nat :=
  { format := formatNatural, parse := parseNatural, finite := fun _ => true,
    shortEscapes := true }

/-- The library `lib` with `json.Unmarshal` and `json.Marshal` on a
`map[string]interface{}` as written out above. -/
def Lib.withJson {T N : Type} (lib : Lib T (JVal N)) (codec : JsonCodec N) :
    Lib T (JVal N) :=
  { lib with unmarshalData := jsonUnmarshal codec, marshal := jsonMarshal codec }

/-- A library for examples whose language data are decoded values with the
decimal natural numbers as floats; the rest is as in `demoLib`. -/
def demoJsonLib (languages : List Language) : Lib String (JVal Nat) :=
  { join := fun a b => a ++ "/" ++ b
    base := baseName
    parse := fun _ text => .ok text
    execute := fun tmpl data => (tmpl ++ ":" ++ data.I18NJson, none)
    unmarshalManifest := fun _ => .error "absent"
    unmarshalLanguages := fun _ => .ok languages
    unmarshalData := jsonUnmarshal naturalCodec
    marshal := jsonMarshal naturalCodec
    marshalIndent := fun _ => "json"
    rangeCodes := MapRange.inOrder _
    rangeLinks := MapRange.inOrder _ }

/-- A project `proj` whose language file `en.json` writes the key `t` twice,
its keys out of order and white space between the tokens. -/
def jsonProject : FS :=
  { files := [("proj/index.tmpl", "T"), ("proj/langs/index.json", "I"),
      ("proj/langs/en.json",
        "\x7b \"t\": \"A<b\", \"n\": [1, 20, true, null], \"t\": \"Hi\\n\" \x7d")]
    dirs := ["proj", "proj/langs"]
    denied := [] }

/-- The mapping that the language file of the example decodes to. -/
def jsonDemoData : JVal Nat :=
  .obj (.cons "n" (.arr (.cons (.num 1) (.cons (.num 20) (.cons (.bool true)
    (.cons .null .nil))))) (.cons "t" (.str "Hi\n") .nil))

/-- The context of the language `en` of the JSON example under the pattern
`{lang}.html`. -/
def jsonDemoContext : TemplateData (JVal Nat) :=
  { Lang := { mkLang "en" "en.json" with URL := "en.html", Current := true }
    LangLinks := [{ mkLang "en" "en.json" with URL := "en.html", Current := true }]
    I18N := jsonDemoData
    I18NJson := "\x7b\"n\":[1,20,true,null],\"t\":\"Hi\\n\"\x7d"
    Base := defaultManifest }

/-! ## Facts about Go maps -/

theorem GoMap.mem_set {ν : Type} (m : GoMap ν) (k : String) (v : ν) (e : String × ν) :
    e ∈ m.set k v → e = (k, v) ∨ e ∈ m := by
  induction m with
  | nil => simp [GoMap.set]
  | cons a m ih =>
    simp only [GoMap.set]
    split
    · intro h
      rcases List.mem_cons.1 h with h | h
      · exact Or.inl h
      · exact Or.inr (List.mem_cons_of_mem _ h)
    · intro h
      rcases List.mem_cons.1 h with h | h
      · exact Or.inr (h ▸ List.mem_cons_self _ _)
      · rcases ih h with h | h
        · exact Or.inl h
        · exact Or.inr (List.mem_cons_of_mem _ h)

theorem GoMap.keys_set {ν : Type} (m : GoMap ν) (k : String) (v : ν) (k1 : String) :
    k1 ∈ (m.set k v).keys ↔ k1 = k ∨ k1 ∈ m.keys := by
  induction m with
  | nil => simp [GoMap.set, GoMap.keys]
  | cons a m ih =>
    simp only [GoMap.set]
    split
    · rename_i h
      simp [GoMap.keys, h]
    · simp only [GoMap.keys, List.map_cons, List.mem_cons] at ih ⊢
      rw [ih]
      tauto

theorem GoMap.nodup_keys_set {ν : Type} (m : GoMap ν) (k : String) (v : ν)
    (h : m.keys.Nodup) : (m.set k v).keys.Nodup := by
  induction m with
  | nil => simp [GoMap.set, GoMap.keys]
  | cons a m ih =>
    simp only [GoMap.keys, List.map_cons, List.nodup_cons] at h
    simp only [GoMap.set]
    split
    · rename_i hk
      simp only [GoMap.keys, List.map_cons, List.nodup_cons]
      exact ⟨hk ▸ h.1, h.2⟩
    · rename_i hk
      simp only [GoMap.keys, List.map_cons, List.nodup_cons]
      refine ⟨?_, ih h.2⟩
      intro hmem
      rcases (GoMap.keys_set m k v a.1).1 hmem with h1 | h1
      · exact hk h1
      · exact h.1 h1

/-- On a set of codes (every value `true`), `m[k]` tells whether `k` is a key. -/
theorem GoMap.test_iff (m : GoMap Bool) (hm : ∀ e ∈ m, e.2 = true) (k : String) :
    m.test k = true ↔ k ∈ m.keys := by
  induction m with
  | nil => simp [GoMap.test, GoMap.lookup, GoMap.keys]
  | cons a m ih =>
    have ha : a.2 = true := hm a (List.mem_cons_self _ _)
    have ih1 := ih (fun e he => hm e (List.mem_cons_of_mem _ he))
    by_cases hk : a.1 = k
    · simp [GoMap.test, GoMap.lookup, GoMap.keys, List.find?, hk, ha]
    · have hk1 : (a.1 == k) = false := by simpa using hk
      have hk2 : ¬ k = a.1 := fun h => hk h.symm
      simp only [GoMap.test, GoMap.lookup, List.find?, hk1, GoMap.keys, List.map_cons,
        List.mem_cons, hk2, false_or] at ih1 ⊢
      exact ih1

theorem makeCodeSet_aux (codes : List String) (m : GoMap Bool) :
    (∀ e ∈ m, e.2 = true) → m.keys.Nodup →
    (∀ e ∈ codes.foldl (fun s code => s.set code true) m, e.2 = true) ∧
    (codes.foldl (fun s code => s.set code true) m).keys.Nodup ∧
    ∀ k, k ∈ (codes.foldl (fun s code => s.set code true) m).keys ↔ k ∈ m.keys ∨ k ∈ codes := by
  induction codes generalizing m with
  | nil => intro h1 h2; exact ⟨h1, h2, by simp⟩
  | cons c cs ih =>
    intro h1 h2
    have h3 : ∀ e ∈ m.set c true, e.2 = true := by
      intro e he
      rcases GoMap.mem_set m c true e he with h | h
      · rw [h]
      · exact h1 e h
    obtain ⟨i1, i2, i3⟩ := ih (m.set c true) h3 (GoMap.nodup_keys_set m c true h2)
    refine ⟨i1, i2, ?_⟩
    intro k
    rw [List.foldl_cons, i3 k, GoMap.keys_set]
    simp only [List.mem_cons]
    tauto

theorem makeCodeSet_true (codes : List String) : ∀ e ∈ makeCodeSet codes, e.2 = true :=
  (makeCodeSet_aux codes [] (by simp) (by simp [GoMap.keys])).1

theorem makeCodeSet_nodup (codes : List String) : (makeCodeSet codes).keys.Nodup :=
  (makeCodeSet_aux codes [] (by simp) (by simp [GoMap.keys])).2.1

theorem makeCodeSet_keys (codes : List String) (k : String) :
    k ∈ (makeCodeSet codes).keys ↔ k ∈ codes := by
  have h := (makeCodeSet_aux codes [] (by simp) (by simp [GoMap.keys])).2.2 k
  simpa [GoMap.keys] using h


/-! ## The language filter -/

theorem GoMap.delete_true (m : GoMap Bool) (hm : ∀ e ∈ m, e.2 = true) (k : String) :
    ∀ e ∈ m.delete k, e.2 = true :=
  fun e he => hm e (List.mem_of_mem_filter he)

/-- The codes left in the set after the loop: the ones no language carries. -/
theorem filterLoop_snd (languages : List Language) (f : List Language) (s : GoMap Bool)
    (hs : ∀ e ∈ s, e.2 = true) :
    (filterLoop languages (f, s)).2
      = s.filter (fun e => decide (e.1 ∉ languages.map Language.Code)) := by
  induction languages generalizing f s with
  | nil => simp [filterLoop]
  | cons lang rest ih =>
    simp only [filterLoop]
    split
    · rw [ih _ _ (GoMap.delete_true s hs lang.Code)]
      simp only [GoMap.delete, List.filter_filter]
      apply List.filter_congr
      intro e _
      simp only [List.map_cons, List.mem_cons, not_or, Bool.decide_and, ne_eq, Bool.and_comm]
    · rename_i ht
      rw [ih _ _ hs]
      apply List.filter_congr
      intro e he
      have hne : e.1 ≠ lang.Code := by
        intro h
        apply ht
        rw [GoMap.test_iff s hs]
        exact h ▸ List.mem_map_of_mem Prod.fst he
      simp [hne]

/-- The selected languages after the loop, for an index without repeated
code: the languages whose code is in the set, in the order of the index. -/
theorem filterLoop_fst (languages : List Language) (f : List Language) (s : GoMap Bool)
    (hs : ∀ e ∈ s, e.2 = true) (hnd : (languages.map Language.Code).Nodup) :
    (filterLoop languages (f, s)).1
      = f ++ languages.filter (fun l => decide (l.Code ∈ s.keys)) := by
  induction languages generalizing f s with
  | nil => simp [filterLoop]
  | cons lang rest ih =>
    simp only [List.map_cons, List.nodup_cons] at hnd
    simp only [filterLoop]
    split
    · rename_i ht
      have hin : lang.Code ∈ s.keys := (GoMap.test_iff s hs _).1 ht
      rw [ih _ _ (GoMap.delete_true s hs lang.Code) hnd.2]
      simp only [List.filter_cons, hin, decide_True, if_true, List.append_assoc,
        List.singleton_append]
      congr 2
      apply List.filter_congr
      intro l hl
      have hne : l.Code ≠ lang.Code := by
        intro h
        exact hnd.1 (h ▸ List.mem_map_of_mem Language.Code hl)
      simp [GoMap.delete, GoMap.keys, hne]
    · rename_i ht
      have hin : lang.Code ∉ s.keys := fun h => ht ((GoMap.test_iff s hs _).2 h)
      rw [ih _ _ hs hnd.2]
      simp [List.filter_cons, hin]

/-- The loop only appends to the selection. -/
theorem filterLoop_append (languages : List Language) (f : List Language) (s : GoMap Bool) :
    ∃ x, (filterLoop languages (f, s)).1 = f ++ x := by
  induction languages generalizing f s with
  | nil => exact ⟨[], by simp [filterLoop]⟩
  | cons lang rest ih =>
    simp only [filterLoop]
    split
    · obtain ⟨x, hx⟩ := ih (f ++ [lang]) (s.delete lang.Code)
      exact ⟨lang :: x, by rw [hx]; simp⟩
    · exact ih f s

/-- Whenever the loop takes a code out of the set, it has selected a language. -/
theorem filterLoop_changed (languages : List Language) (f : List Language) (s : GoMap Bool) :
    (filterLoop languages (f, s)).2 = s ∨ (filterLoop languages (f, s)).1 ≠ [] := by
  induction languages generalizing f s with
  | nil => left; simp [filterLoop]
  | cons lang rest ih =>
    simp only [filterLoop]
    split
    · right
      obtain ⟨x, hx⟩ := filterLoop_append rest (f ++ [lang]) (s.delete lang.Code)
      rw [hx]
      simp
    · exact ih f s

theorem makeCodeSet_ne_nil (codes : List String) (h : codes ≠ []) : makeCodeSet codes ≠ [] := by
  cases codes with
  | nil => exact absurd rfl h
  | cons c cs =>
    intro hnil
    have h1 : c ∈ (makeCodeSet (c :: cs)).keys := (makeCodeSet_keys _ _).2 (List.mem_cons_self _ _)
    rw [hnil] at h1
    simp [GoMap.keys] at h1


theorem filterLanguages_eq (rangeCodes : MapRange (String × Bool)) (languages : List Language)
    (langCodes : List String) :
    filterLanguages rangeCodes languages langCodes =
      if (filterLoop languages ([], makeCodeSet langCodes)).2.len > 0 then
        .error (.codesNotFound ((rangeCodes.visit 0
          (filterLoop languages ([], makeCodeSet langCodes)).2).map Prod.fst))
      else if (filterLoop languages ([], makeCodeSet langCodes)).1.length = 0 then
        .error .noneFound
      else .ok (filterLoop languages ([], makeCodeSet langCodes)).1 := rfl

/-- The codes left over by the filter are the requested codes that no language
of the index carries. -/
theorem leftover_mem (languages : List Language) (langCodes : List String) (c : String) :
    c ∈ GoMap.keys (filterLoop languages ([], makeCodeSet langCodes)).2 ↔
      c ∈ langCodes ∧ c ∉ languages.map Language.Code := by
  rw [filterLoop_snd languages [] _ (makeCodeSet_true langCodes)]
  constructor
  · intro h
    obtain ⟨e, he, rfl⟩ := List.mem_map.1 h
    have h1 := List.mem_filter.1 he
    refine ⟨(makeCodeSet_keys langCodes e.1).1 (List.mem_map_of_mem Prod.fst h1.1), ?_⟩
    simpa using h1.2
  · rintro ⟨h1, h2⟩
    obtain ⟨e, he, rfl⟩ := List.mem_map.1 ((makeCodeSet_keys langCodes c).2 h1)
    exact List.mem_map_of_mem Prod.fst (List.mem_filter.2 ⟨he, by simpa using h2⟩)

theorem leftover_nodup (languages : List Language) (langCodes : List String) :
    (GoMap.keys (filterLoop languages ([], makeCodeSet langCodes)).2).Nodup := by
  rw [filterLoop_snd languages [] _ (makeCodeSet_true langCodes)]
  exact ((List.filter_sublist _).map Prod.fst).nodup (makeCodeSet_nodup langCodes)


/-- The filter on requested codes that all occur in an index without repeated
code. -/
theorem filterLanguages_subset (rangeCodes : MapRange (String × Bool))
    (languages : List Language) (langCodes : List String)
    (hnd : (languages.map Language.Code).Nodup) (hne : langCodes ≠ [])
    (hsub : ∀ c ∈ langCodes, c ∈ languages.map Language.Code) :
    filterLanguages rangeCodes languages langCodes
      = .ok (languages.filter (fun l => decide (l.Code ∈ langCodes))) := by
  have hkeys : GoMap.keys (filterLoop languages ([], makeCodeSet langCodes)).2 = [] := by
    apply List.eq_nil_iff_forall_not_mem.2
    intro c hc
    have h := (leftover_mem languages langCodes c).1 hc
    exact h.2 (hsub c h.1)
  have hnil : (filterLoop languages ([], makeCodeSet langCodes)).2 = [] := by
    simpa [GoMap.keys] using hkeys
  have hfst : (filterLoop languages ([], makeCodeSet langCodes)).1 ≠ [] := by
    rcases filterLoop_changed languages [] (makeCodeSet langCodes) with h | h
    · exact absurd (h.symm.trans hnil) (makeCodeSet_ne_nil langCodes hne)
    · exact h
  rw [filterLanguages_eq, hnil]
  have hlen : ¬ (filterLoop languages ([], makeCodeSet langCodes)).1.length = 0 := by
    simpa using hfst
  simp only [GoMap.len, List.length_nil, gt_iff_lt, lt_self_iff_false, if_false, hlen]
  rw [filterLoop_fst languages [] _ (makeCodeSet_true langCodes) hnd]
  simp only [List.nil_append]
  congr 1
  apply List.filter_congr
  intro l _
  simp [makeCodeSet_keys]


/-- C1: for an index with pairwise distinct codes and a non-empty list of
requested codes that all occur in the index, the language filter of `runGen`
succeeds with exactly the languages of the index whose code is requested, in
the order of the index; any other request with the same set of codes (a
reordering, a duplication), under any map iteration order, selects the same. -/
theorem filter_subset_in_index_order (rangeCodes : MapRange (String × Bool))
    (languages : List Language) (langCodes : List String)
    (hnd : (languages.map Language.Code).Nodup) (hne : langCodes ≠ [])
    (hsub : ∀ c ∈ langCodes, c ∈ languages.map Language.Code) :
    selectLanguages rangeCodes languages langCodes
        = .ok (languages.filter (fun l => decide (l.Code ∈ langCodes))) ∧
      ∀ (rangeCodes2 : MapRange (String × Bool)) (langCodes2 : List String),
        (∀ c, c ∈ langCodes2 ↔ c ∈ langCodes) →
        selectLanguages rangeCodes2 languages langCodes2
          = selectLanguages rangeCodes languages langCodes := by
  have hsel : ∀ (rc : MapRange (String × Bool)) (codes : List String), codes ≠ [] →
      selectLanguages rc languages codes = filterLanguages rc languages codes := by
    intro rc codes h
    have hpos : codes.length > 0 := List.length_pos.2 h
    simp [selectLanguages, hpos]
  refine ⟨?_, ?_⟩
  · rw [hsel _ _ hne]
    exact filterLanguages_subset rangeCodes languages langCodes hnd hne hsub
  · intro rc2 codes2 hsame
    have hne2 : codes2 ≠ [] := by
      intro h
      cases langCodes with
      | nil => exact hne rfl
      | cons c cs =>
        have := (hsame c).2 (List.mem_cons_self _ _)
        rw [h] at this
        exact absurd this (List.not_mem_nil _)
    rw [hsel _ _ hne, hsel _ _ hne2,
      filterLanguages_subset rangeCodes languages langCodes hnd hne hsub,
      filterLanguages_subset rc2 languages codes2 hnd hne2
        (fun c hc => hsub c ((hsame c).1 hc))]
    congr 1
    apply List.filter_congr
    intro l _
    simp [hsame]

/-- C1, witness: index `[zh, en, fr]`, requested `[fr, zh]`. -/
theorem filter_subset_in_index_order_witness :
    selectLanguages (MapRange.inOrder _)
        [mkLang "zh" "zh.json", mkLang "en" "en.json", mkLang "fr" "fr.json"] ["fr", "zh"]
      = .ok [mkLang "zh" "zh.json", mkLang "fr" "fr.json"] ∧
    selectLanguages (MapRange.reversed _)
        [mkLang "zh" "zh.json", mkLang "en" "en.json", mkLang "fr" "fr.json"]
        ["zh", "fr", "zh"]
      = selectLanguages (MapRange.inOrder _)
        [mkLang "zh" "zh.json", mkLang "en" "en.json", mkLang "fr" "fr.json"] ["fr", "zh"] := by
  have h := filter_subset_in_index_order (MapRange.inOrder _)
    [mkLang "zh" "zh.json", mkLang "en" "en.json", mkLang "fr" "fr.json"] ["fr", "zh"]
    (by decide) (by decide) (by decide)
  refine ⟨h.1.trans (by decide), h.2 (MapRange.reversed _) ["zh", "fr", "zh"]
    (by intro c; simp only [List.mem_cons, List.mem_singleton, List.not_mem_nil]; tauto)⟩


/-- The two outcomes of the filter on a non-empty request: every leftover code
reported, or the selection returned. -/
theorem filterLanguages_cases (rangeCodes : MapRange (String × Bool))
    (languages : List Language) (langCodes : List String) (hne : langCodes ≠ []) :
    (∃ notFound, filterLanguages rangeCodes languages langCodes = .error (.codesNotFound notFound)
        ∧ notFound ≠ [] ∧ notFound.Nodup
        ∧ ∀ c, c ∈ notFound ↔ (c ∈ langCodes ∧ c ∉ languages.map Language.Code)) ∨
    (∃ selected, filterLanguages rangeCodes languages langCodes = .ok selected
        ∧ ∀ c ∈ langCodes, c ∈ languages.map Language.Code) := by
  rw [filterLanguages_eq]
  by_cases hlen : (filterLoop languages ([], makeCodeSet langCodes)).2.len > 0
  · left
    have hperm := (rangeCodes.perm 0 (filterLoop languages ([], makeCodeSet langCodes)).2).map
      Prod.fst
    refine ⟨_, by rw [if_pos hlen], ?_, ?_, ?_⟩
    · intro h
      have h1 := hperm.length_eq
      rw [h, List.length_map] at h1
      simp only [GoMap.len] at hlen
      simp at h1
      omega
    · exact hperm.nodup_iff.2 (leftover_nodup languages langCodes)
    · intro c
      rw [hperm.mem_iff]
      exact leftover_mem languages langCodes c
  · right
    have hnil : (filterLoop languages ([], makeCodeSet langCodes)).2 = [] := by
      simp only [GoMap.len, gt_iff_lt, not_lt, Nat.le_zero, List.length_eq_zero] at hlen
      exact hlen
    have hfst : (filterLoop languages ([], makeCodeSet langCodes)).1 ≠ [] := by
      rcases filterLoop_changed languages [] (makeCodeSet langCodes) with h | h
      · exact absurd (h.symm.trans hnil) (makeCodeSet_ne_nil langCodes hne)
      · exact h
    have hl : ¬ (filterLoop languages ([], makeCodeSet langCodes)).1.length = 0 := by
      simpa using hfst
    refine ⟨_, by rw [if_neg hlen, if_neg hl], ?_⟩
    intro c hc
    by_contra habs
    have := (leftover_mem languages langCodes c).2 ⟨hc, habs⟩
    rw [hnil] at this
    simp [GoMap.keys] at this

/-- C2: on a non-empty request the language filter of `runGen` fails exactly
when some requested code is carried by no language of the index; the error is
then the one that lists, each once, exactly the requested codes absent from the
index, and never the error "none of the requested codes were found". -/
theorem filter_fails_iff_unmatched (rangeCodes : MapRange (String × Bool))
    (languages : List Language) (langCodes : List String) (hne : langCodes ≠ []) :
    ((∃ e, selectLanguages rangeCodes languages langCodes = .error e) ↔
        ∃ c ∈ langCodes, c ∉ languages.map Language.Code) ∧
    (∀ e, selectLanguages rangeCodes languages langCodes = .error e →
        ∃ notFound, e = .codesNotFound notFound ∧ notFound.Nodup ∧
          ∀ c, c ∈ notFound ↔ (c ∈ langCodes ∧ c ∉ languages.map Language.Code)) ∧
    selectLanguages rangeCodes languages langCodes ≠ .error .noneFound := by
  have hsel : selectLanguages rangeCodes languages langCodes
      = filterLanguages rangeCodes languages langCodes := by
    have hpos : langCodes.length > 0 := List.length_pos.2 hne
    simp [selectLanguages, hpos]
  rw [hsel]
  rcases filterLanguages_cases rangeCodes languages langCodes hne with
    ⟨nf, hnf, hne1, hnd, hmem⟩ | ⟨sel, hsel1, hall⟩
  · rw [hnf]
    refine ⟨⟨fun _ => ?_, fun _ => ⟨_, rfl⟩⟩, ?_, ?_⟩
    · cases nf with
      | nil => exact absurd rfl hne1
      | cons c cs =>
        have h := (hmem c).1 (List.mem_cons_self _ _)
        exact ⟨c, h.1, h.2⟩
    · intro e he
      cases he
      exact ⟨nf, rfl, hnd, hmem⟩
    · intro h
      cases h
  · rw [hsel1]
    refine ⟨⟨fun h => ?_, fun h => ?_⟩, ?_, ?_⟩
    · obtain ⟨e, he⟩ := h
      cases he
    · obtain ⟨c, hc, habs⟩ := h
      exact absurd (hall c hc) habs
    · intro e he
      cases he
    · intro h
      cases h

/-- C2, witness: requested `[zh, xx, yy]` against the index `[zh, en]` names
both `xx` and `yy`. -/
theorem filter_fails_iff_unmatched_witness :
    selectLanguages (MapRange.reversed _) [mkLang "zh" "zh.json", mkLang "en" "en.json"]
        ["zh", "xx", "yy"] = .error (.codesNotFound ["yy", "xx"]) ∧
    ∃ notFound, GenError.codesNotFound ["yy", "xx"] = .codesNotFound notFound ∧ notFound.Nodup ∧
      ∀ c, c ∈ notFound ↔
        (c ∈ ["zh", "xx", "yy"] ∧
          c ∉ [mkLang "zh" "zh.json", mkLang "en" "en.json"].map Language.Code) :=
  ⟨by decide,
    (filter_fails_iff_unmatched (MapRange.reversed _)
      [mkLang "zh" "zh.json", mkLang "en" "en.json"] ["zh", "xx", "yy"] (by decide)).2.1
      (.codesNotFound ["yy", "xx"]) (by decide)⟩


/-! ## The link mapping and the render context -/

theorem GoMap.set_of_not_mem {ν : Type} (m : GoMap ν) (k : String) (v : ν)
    (h : k ∉ m.keys) : m.set k v = m ++ [(k, v)] := by
  induction m with
  | nil => rfl
  | cons a m ih =>
    simp only [GoMap.keys, List.map_cons, List.mem_cons, not_or] at h
    have h1 : ¬ a.1 = k := fun e => h.1 e.symm
    simp only [GoMap.set, h1, if_false, List.cons_append]
    rw [ih h.2]

theorem links_aux (languages : List Language) (m : GoMap Language) :
    m.keys.Nodup → (∀ e ∈ m, e.1 = e.2.Code) →
    (languages.foldl (fun links lang => links.set lang.Code lang) m).keys.Nodup ∧
    (∀ e ∈ languages.foldl (fun links lang => links.set lang.Code lang) m, e.1 = e.2.Code) ∧
    ∀ k, k ∈ (languages.foldl (fun links lang => links.set lang.Code lang) m).keys ↔
      k ∈ m.keys ∨ k ∈ languages.map Language.Code := by
  induction languages generalizing m with
  | nil => intro h1 h2; exact ⟨h1, h2, by simp⟩
  | cons l ls ih =>
    intro h1 h2
    have h3 : ∀ e ∈ m.set l.Code l, e.1 = e.2.Code := by
      intro e he
      rcases GoMap.mem_set m l.Code l e he with h | h
      · rw [h]
      · exact h2 e h
    obtain ⟨i1, i2, i3⟩ := ih (m.set l.Code l) (GoMap.nodup_keys_set m l.Code l h1) h3
    refine ⟨i1, i2, ?_⟩
    intro k
    rw [List.foldl_cons, i3 k, GoMap.keys_set]
    simp only [List.map_cons, List.mem_cons]
    tauto

theorem links_nodup (languages : List Language) :
    (generateLanguageLinksFromIndex languages).keys.Nodup :=
  (links_aux languages [] (by simp [GoMap.keys]) (by simp)).1

theorem links_key (languages : List Language) :
    ∀ e ∈ generateLanguageLinksFromIndex languages, e.1 = e.2.Code :=
  (links_aux languages [] (by simp [GoMap.keys]) (by simp)).2.1

theorem links_keys (languages : List Language) (k : String) :
    k ∈ (generateLanguageLinksFromIndex languages).keys ↔ k ∈ languages.map Language.Code := by
  have h := (links_aux languages [] (by simp [GoMap.keys]) (by simp)).2.2 k
  simpa [GoMap.keys] using h

theorem links_of_nodup_aux (languages : List Language) (m : GoMap Language)
    (h : (m.keys ++ languages.map Language.Code).Nodup) :
    languages.foldl (fun links lang => links.set lang.Code lang) m
      = m ++ languages.map (fun l => (l.Code, l)) := by
  induction languages generalizing m with
  | nil => simp
  | cons l ls ih =>
    have hl : l.Code ∉ m.keys := by
      intro hin
      have := List.nodup_append.1 h
      exact this.2.2 hin (by simp)
    rw [List.foldl_cons, GoMap.set_of_not_mem m l.Code l hl, ih]
    · simp
    · simpa [GoMap.keys, List.append_assoc] using h

/-- For languages with pairwise distinct codes the link mapping holds the
languages themselves, each under its code. -/
theorem links_of_nodup (languages : List Language)
    (h : (languages.map Language.Code).Nodup) :
    generateLanguageLinksFromIndex languages = languages.map (fun l => (l.Code, l)) := by
  have := links_of_nodup_aux languages [] (by simpa [GoMap.keys] using h)
  simpa [generateLanguageLinksFromIndex, GoMap.empty] using this

/-- What one call of `generateLanguageFileFromIndex` adds to the rendered
contexts: nothing, or the context assembled from the loaded data. -/
theorem generate_rendered {T D : Type} (lib : Lib T D) (outputPattern : String) (tmpl : T)
    (currentLang : Language) (langLinks : GoMap Language) (langDir outputDir : String)
    (manifest : Manifest) (st : Run D) :
    (generateLanguageFileFromIndex lib outputPattern tmpl currentLang langLinks langDir
        outputDir manifest st).1.rendered = st.rendered ∨
    ∃ langData i18nJson,
      loadLanguageDataFromFile lib st.fs langDir currentLang.File = .ok langData ∧
      lib.marshal langData = .ok i18nJson ∧
      (generateLanguageFileFromIndex lib outputPattern tmpl currentLang langLinks langDir
        outputDir manifest st).1.rendered = st.rendered ++
        [{ Lang := { currentLang with
                      URL := outputName outputPattern currentLang.Code, Current := true }
           LangLinks := (lib.rangeLinks.visit st.rendered.length langLinks).map
              (fun e => stampLink outputPattern currentLang e.2)
           I18N := langData
           I18NJson := i18nJson
           Base := manifest }] := by
  cases hload : loadLanguageDataFromFile lib st.fs langDir currentLang.File with
  | error e => left; simp only [generateLanguageFileFromIndex, hload]
  | ok langData =>
    cases hm : lib.marshal langData with
    | error msg => left; simp only [generateLanguageFileFromIndex, hload, hm]
    | ok i18nJson =>
      cases hc : st.fs.create (lib.join outputDir (outputName outputPattern currentLang.Code)) with
      | none => left; simp only [generateLanguageFileFromIndex, hload, hm, hc]
      | some fs1 =>
        right
        refine ⟨langData, i18nJson, rfl, hm, ?_⟩
        simp only [generateLanguageFileFromIndex, hload, hm, hc]
        split <;> rfl


theorem stamp_none_current (outputPattern : String) (cur : Language)
    (V : List (String × Language)) (h : cur.Code ∉ V.map (fun e => e.2.Code)) :
    (V.map (fun e => stampLink outputPattern cur e.2)).filter (fun l => l.Current) = [] := by
  induction V with
  | nil => rfl
  | cons a V ih =>
    simp only [List.map_cons, List.mem_cons, not_or] at h
    have h1 : ¬ a.2.Code = cur.Code := fun e => h.1 e.symm
    simp only [List.map_cons, List.filter_cons, stampLink, beq_iff_eq, h1, if_false]
    exact ih h.2

theorem stamp_one_current (outputPattern : String) (cur : Language)
    (V : List (String × Language)) (hnd : (V.map (fun e => e.2.Code)).Nodup)
    (hin : cur.Code ∈ V.map (fun e => e.2.Code)) :
    ∃ l, (V.map (fun e => stampLink outputPattern cur e.2)).filter (fun l => l.Current) = [l]
      ∧ l.Code = cur.Code := by
  induction V with
  | nil => simp at hin
  | cons a V ih =>
    simp only [List.map_cons, List.nodup_cons] at hnd
    by_cases h1 : a.2.Code = cur.Code
    · refine ⟨stampLink outputPattern cur a.2, ?_, h1⟩
      have hrest := stamp_none_current outputPattern cur V (h1 ▸ hnd.1)
      simp only [List.map_cons, List.filter_cons]
      rw [hrest]
      simp [stampLink, h1]
    · have hin1 : cur.Code ∈ V.map (fun e => e.2.Code) := by
        simp only [List.map_cons, List.mem_cons] at hin
        rcases hin with h | h
        · exact absurd h.symm h1
        · exact h
      obtain ⟨l, hl, hc⟩ := ih hnd.2 hin1
      refine ⟨l, ?_, hc⟩
      simp only [List.map_cons, List.filter_cons, stampLink, beq_iff_eq, h1, if_false]
      exact hl

theorem links_codes (languages : List Language) :
    (generateLanguageLinksFromIndex languages).map (fun e => e.2.Code)
      = (generateLanguageLinksFromIndex languages).keys := by
  apply List.map_congr_left
  intro e he
  exact (links_key languages e he).symm

/-- The rendered contexts do not change, or grow by one context: never both. -/
theorem rendered_last {D : Type} (r : List (TemplateData D)) (a b : TemplateData D)
    (h : r ++ [a] = r ++ [b]) : a = b := by
  simpa using h

theorem rendered_grows {D : Type} (r : List (TemplateData D)) (a : TemplateData D) :
    r ≠ r ++ [a] := by
  intro h
  have := congrArg List.length h
  simp at this

/-- C3: the context that `generateLanguageFileFromIndex` builds for a language
`L` of the selected list, with the link mapping built from that list, has
`Lang.Current = true`, and exactly one entry of `LangLinks` is current, and its
code is the code of `L`. -/
theorem render_context_one_current {T D : Type} (lib : Lib T D) (outputPattern : String)
    (tmpl : T) (languages : List Language) (L : Language) (langDir outputDir : String)
    (manifest : Manifest) (st : Run D) (ctx : TemplateData D) (hL : L ∈ languages)
    (hctx : (generateLanguageFileFromIndex lib outputPattern tmpl L
        (generateLanguageLinksFromIndex languages) langDir outputDir manifest st).1.rendered
        = st.rendered ++ [ctx]) :
    ctx.Lang.Current = true ∧
      ∃ l, ctx.LangLinks.filter (fun l => l.Current) = [l] ∧ l.Code = L.Code := by
  rcases generate_rendered lib outputPattern tmpl L (generateLanguageLinksFromIndex languages)
      langDir outputDir manifest st with h | ⟨langData, i18nJson, _, _, h⟩
  · rw [h] at hctx
    exact absurd hctx (rendered_grows _ _)
  · rw [h] at hctx
    have hc := rendered_last _ _ _ hctx
    subst hc
    refine ⟨rfl, ?_⟩
    have hperm := (lib.rangeLinks.perm st.rendered.length
      (generateLanguageLinksFromIndex languages)).map (fun e => e.2.Code)
    rw [links_codes] at hperm
    apply stamp_one_current
    · exact hperm.nodup_iff.2 (links_nodup languages)
    · rw [hperm.mem_iff, links_keys]
      exact List.mem_map_of_mem Language.Code hL


/-- C3, witness: the context of `en` in the example project. -/
theorem render_context_one_current_witness :
    demoContextEn.Lang.Current = true ∧
      ∃ l, demoContextEn.LangLinks.filter (fun l => l.Current) = [l]
        ∧ l.Code = (mkLang "en" "en.json").Code :=
  render_context_one_current (demoLib demoLanguages (.error "absent") "")
    "\x7blang\x7d.html" "T" demoLanguages (mkLang "en" "en.json") "proj/langs" "proj/outputs"
    defaultManifest demoRun demoContextEn (by decide) (by rfl)


/-- C5: for selected languages with pairwise distinct codes, the `LangLinks`
of the context built for a language `L` of the list is, up to order, the
selected list with every URL set to the pattern in which the token `{lang}` is
replaced by the descriptor's code and every `Current` set to whether the code
is the code of `L`; there is one entry per selected language, and `Lang.URL`
is the URL of the entry of `L`. -/
theorem link_set_content {T D : Type} (lib : Lib T D) (outputPattern : String)
    (tmpl : T) (languages : List Language) (L : Language) (langDir outputDir : String)
    (manifest : Manifest) (st : Run D) (ctx : TemplateData D)
    (hnd : (languages.map Language.Code).Nodup) (hL : L ∈ languages)
    (hctx : (generateLanguageFileFromIndex lib outputPattern tmpl L
        (generateLanguageLinksFromIndex languages) langDir outputDir manifest st).1.rendered
        = st.rendered ++ [ctx]) :
    ctx.LangLinks.Perm (languages.map (fun d =>
        { d with URL := replaceAll outputPattern langToken d.Code,
                 Current := decide (d.Code = L.Code) })) ∧
      ctx.LangLinks.length = languages.length ∧
      ctx.Lang.URL = replaceAll outputPattern langToken L.Code ∧
      (∃ l ∈ ctx.LangLinks, l.Code = L.Code) ∧
      ∀ l ∈ ctx.LangLinks, l.Code = L.Code → l.URL = ctx.Lang.URL := by
  rcases generate_rendered lib outputPattern tmpl L (generateLanguageLinksFromIndex languages)
      langDir outputDir manifest st with h | ⟨langData, i18nJson, _, _, h⟩
  · rw [h] at hctx
    exact absurd hctx (rendered_grows _ _)
  · rw [h] at hctx
    have hc := rendered_last _ _ _ hctx
    subst hc
    have hperm : ((lib.rangeLinks.visit st.rendered.length
          (generateLanguageLinksFromIndex languages)).map
          (fun e => stampLink outputPattern L e.2)).Perm
        (languages.map (fun d =>
          { d with URL := replaceAll outputPattern langToken d.Code,
                   Current := decide (d.Code = L.Code) })) := by
      have h1 := (lib.rangeLinks.perm st.rendered.length
        (generateLanguageLinksFromIndex languages)).map (fun e => stampLink outputPattern L e.2)
      have h2 : (generateLanguageLinksFromIndex languages).map
            (fun e => stampLink outputPattern L e.2)
          = languages.map (fun d =>
            { d with URL := replaceAll outputPattern langToken d.Code,
                     Current := decide (d.Code = L.Code) }) := by
        rw [links_of_nodup languages hnd, List.map_map]
        rfl
      exact h2 ▸ h1
    refine ⟨hperm, ?_, rfl, ?_, ?_⟩
    · simpa using hperm.length_eq
    · have hin : ({ L with URL := replaceAll outputPattern langToken L.Code,
                           Current := decide (L.Code = L.Code) } : Language) ∈
          languages.map (fun d =>
            { d with URL := replaceAll outputPattern langToken d.Code,
                     Current := decide (d.Code = L.Code) }) :=
        List.mem_map.2 ⟨L, hL, rfl⟩
      exact ⟨_, hperm.mem_iff.2 hin, rfl⟩
    · intro l hl hcode
      obtain ⟨d, _, rfl⟩ := List.mem_map.1 (hperm.mem_iff.1 hl)
      simp only at hcode
      simp only [outputName, hcode]

/-- C5, witness: the context of `en` in the example project. -/
theorem link_set_content_witness :
    demoContextEn.LangLinks.Perm (demoLanguages.map (fun d =>
        { d with URL := replaceAll "\x7blang\x7d.html" langToken d.Code,
                 Current := decide (d.Code = (mkLang "en" "en.json").Code) })) ∧
      demoContextEn.LangLinks.length = demoLanguages.length ∧
      demoContextEn.Lang.URL
        = replaceAll "\x7blang\x7d.html" langToken (mkLang "en" "en.json").Code ∧
      (∃ l ∈ demoContextEn.LangLinks, l.Code = (mkLang "en" "en.json").Code) ∧
      ∀ l ∈ demoContextEn.LangLinks, l.Code = (mkLang "en" "en.json").Code →
        l.URL = demoContextEn.Lang.URL :=
  link_set_content (demoLib demoLanguages (.error "absent") "")
    "\x7blang\x7d.html" "T" demoLanguages (mkLang "en" "en.json") "proj/langs" "proj/outputs"
    defaultManifest demoRun demoContextEn (by decide) (by decide) (by rfl)


/-! ## The language data loader -/

/-- C7, as the code has it: for a file name whose extension is not `.json`,
`loadLanguageDataFromFile` fails with the unsupported-format error, whatever
the content, provided the file can be read, and with the read error when it
cannot; for a `.json` name it never returns the unsupported-format error. -/
theorem unsupported_format_after_read {T D : Type} (lib : Lib T D) (fs : FS)
    (langDir filename : String) :
    (filepathExt filename ≠ ".json" →
      (∀ content, fs.readFile (lib.join langDir filename) = some content →
        loadLanguageDataFromFile lib fs langDir filename
          = .error (.unsupportedFormat (filepathExt filename))) ∧
      (fs.readFile (lib.join langDir filename) = none →
        loadLanguageDataFromFile lib fs langDir filename
          = .error (.read (lib.join langDir filename)))) ∧
    (filepathExt filename = ".json" →
      ∀ ext, loadLanguageDataFromFile lib fs langDir filename
        ≠ .error (.unsupportedFormat ext)) := by
  refine ⟨fun hext => ⟨fun content hread => ?_, fun hread => ?_⟩, fun hext ext => ?_⟩
  · simp only [loadLanguageDataFromFile, parseLanguageFile, hread, hext, if_false]
  · simp only [loadLanguageDataFromFile, parseLanguageFile, hread]
  · simp only [loadLanguageDataFromFile, parseLanguageFile, hext, if_true]
    cases fs.readFile (lib.join langDir filename) with
    | none => simp
    | some content =>
      simp only
      cases lib.unmarshalData content <;> simp

/-- C7, witness: `fr.yaml` present, `en.yaml` absent, `zh.json` present. -/
theorem unsupported_format_after_read_witness :
    loadLanguageDataFromFile (demoLib yamlLanguages (.error "absent") "") yamlProject
        "proj/langs" "fr.yaml" = .error (.unsupportedFormat ".yaml") ∧
    loadLanguageDataFromFile (demoLib yamlLanguages (.error "absent") "") yamlProject
        "proj/langs" "en.yaml" = .error (.read "proj/langs/en.yaml") ∧
    loadLanguageDataFromFile (demoLib yamlLanguages (.error "absent") "") yamlProject
        "proj/langs" "zh.json" ≠ .error (.unsupportedFormat ".json") :=
  ⟨((unsupported_format_after_read (demoLib yamlLanguages (.error "absent") "") yamlProject
      "proj/langs" "fr.yaml").1 (by decide)).1 "F" (by decide),
    ((unsupported_format_after_read (demoLib yamlLanguages (.error "absent") "") yamlProject
      "proj/langs" "en.yaml").1 (by decide)).2 (by decide),
    (unsupported_format_after_read (demoLib yamlLanguages (.error "absent") "") yamlProject
      "proj/langs" "zh.json").2 (by decide) ".json"⟩

/-- C7 as stated fails: the data file `en.yaml` does not exist, its extension
is not `.json`, and the loader returns the read error, not the
unsupported-format error. -/
theorem unsupported_format_needs_readable_file :
    filepathExt "en.yaml" = ".yaml" ∧
    loadLanguageDataFromFile (demoLib yamlLanguages (.error "absent") "") yamlProject
        "proj/langs" "en.yaml" = .error (.read "proj/langs/en.yaml") ∧
    ¬ ∃ ext, loadLanguageDataFromFile (demoLib yamlLanguages (.error "absent") "") yamlProject
        "proj/langs" "en.yaml" = .error (.unsupportedFormat ext) := by
  refine ⟨by decide, by decide, ?_⟩
  rintro ⟨ext, h⟩
  have h1 : loadLanguageDataFromFile (demoLib yamlLanguages (.error "absent") "") yamlProject
      "proj/langs" "en.yaml" = .error (.read "proj/langs/en.yaml") := by decide
  rw [h1] at h
  cases h


/-! ## The file system and one generated file -/

theorem GoMap.lookup_cons {ν : Type} (a : String × ν) (m : GoMap ν) (k1 : String) :
    GoMap.lookup (a :: m) k1 = if a.1 = k1 then some a.2 else GoMap.lookup m k1 := by
  by_cases h : a.1 = k1
  · simp [GoMap.lookup, List.find?_cons, h]
  · have hb : (a.1 == k1) = false := by simpa using h
    simp [GoMap.lookup, List.find?_cons, h, hb]

theorem GoMap.lookup_set {ν : Type} (m : GoMap ν) (k : String) (v : ν) (k1 : String) :
    (m.set k v).lookup k1 = if k1 = k then some v else m.lookup k1 := by
  induction m with
  | nil =>
    simp only [GoMap.set, GoMap.lookup_cons]
    by_cases h : k1 = k
    · simp [h]
    · have h1 : ¬ k = k1 := fun e => h e.symm
      simp [h, h1, GoMap.lookup]
  | cons a m ih =>
    simp only [GoMap.set]
    by_cases ha : a.1 = k
    · simp only [ha, if_true, GoMap.lookup_cons]
      by_cases h : k1 = k
      · simp [h]
      · have h1 : ¬ k = k1 := fun e => h e.symm
        simp [h, h1]
    · simp only [ha, if_false, GoMap.lookup_cons, ih]
      by_cases h : a.1 = k1
      · have h1 : ¬ k1 = k := fun e => ha (h.trans e)
        simp [h, h1]
      · simp [h]

theorem FS.mkdirAll_same (fs fs1 : FS) (p : String) (h : fs.mkdirAll p = some fs1) :
    fs1.files = fs.files ∧ fs1.denied = fs.denied := by
  unfold FS.mkdirAll at h
  split at h
  · cases h
  · split at h
    · cases h; exact ⟨rfl, rfl⟩
    · cases h; exact ⟨rfl, rfl⟩

theorem FS.readFile_mkdirAll (fs fs1 : FS) (p q : String) (h : fs.mkdirAll p = some fs1) :
    fs1.readFile q = fs.readFile q := by
  obtain ⟨h1, h2⟩ := FS.mkdirAll_same fs fs1 p h
  simp only [FS.readFile, h1, h2]

theorem FS.create_eq (fs fs1 : FS) (p : String) (h : fs.create p = some fs1) :
    fs1 = { fs with files := fs.files.set p "" } := by
  unfold FS.create at h
  split at h
  · cases h
  · cases h; rfl

/-- Creating and writing the file `p` leaves every other file as it was. -/
theorem FS.readFile_write_create (fs fs1 : FS) (p out q : String)
    (h : fs.create p = some fs1) (hq : q ≠ p) :
    (fs1.write p out).readFile q = fs.readFile q := by
  rw [FS.create_eq fs fs1 p h]
  simp only [FS.readFile, FS.write, GoMap.lookup_set, hq, if_false]

/-- The file `p` exists after it was created and written. -/
theorem FS.lookup_write (fs : FS) (p out : String) :
    (fs.write p out).files.lookup p = some out := by
  simp [FS.write, GoMap.lookup_set]

/-- No file disappears when a file is created and written. -/
theorem FS.lookup_write_create (fs fs1 : FS) (p out q : String)
    (h : fs.create p = some fs1) (hq : fs.files.lookup q ≠ none) :
    (fs1.write p out).files.lookup q ≠ none := by
  rw [FS.create_eq fs fs1 p h]
  simp only [FS.write, GoMap.lookup_set]
  split
  · simp
  · exact hq

/-- The outcomes of one call of `generateLanguageFileFromIndex`: an error
before the output file is opened, with the state untouched, or the file created
and written, with or without a rendering error. -/
theorem generate_step {T D : Type} (lib : Lib T D) (outputPattern : String) (tmpl : T)
    (currentLang : Language) (langLinks : GoMap Language) (langDir outputDir : String)
    (manifest : Manifest) (st : Run D) :
    ((generateLanguageFileFromIndex lib outputPattern tmpl currentLang langLinks langDir
          outputDir manifest st).1 = st ∧
      ((∃ e, loadLanguageDataFromFile lib st.fs langDir currentLang.File = .error e ∧
          (generateLanguageFileFromIndex lib outputPattern tmpl currentLang langLinks langDir
            outputDir manifest st).2 = .error (.loadData e)) ∨
        (∃ msg, (generateLanguageFileFromIndex lib outputPattern tmpl currentLang langLinks
            langDir outputDir manifest st).2 = .error (.marshal msg)) ∨
        (generateLanguageFileFromIndex lib outputPattern tmpl currentLang langLinks
            langDir outputDir manifest st).2 = .error (.create
              (lib.join outputDir (replaceAll outputPattern langToken currentLang.Code))))) ∨
    (∃ fs1 ctx out,
      st.fs.create (lib.join outputDir (replaceAll outputPattern langToken currentLang.Code))
        = some fs1 ∧
      ctx.Base = manifest ∧
      (generateLanguageFileFromIndex lib outputPattern tmpl currentLang langLinks langDir
          outputDir manifest st).1 =
        { fs := fs1.write
            (lib.join outputDir (replaceAll outputPattern langToken currentLang.Code)) out
          created := st.created ++
            [lib.join outputDir (replaceAll outputPattern langToken currentLang.Code)]
          rendered := st.rendered ++ [ctx] } ∧
      ((generateLanguageFileFromIndex lib outputPattern tmpl currentLang langLinks langDir
          outputDir manifest st).2 = .ok () ∨
        ∃ msg, (generateLanguageFileFromIndex lib outputPattern tmpl currentLang langLinks
          langDir outputDir manifest st).2 = .error (.render msg))) := by
  cases hload : loadLanguageDataFromFile lib st.fs langDir currentLang.File with
  | error e =>
    left
    have hgen : generateLanguageFileFromIndex lib outputPattern tmpl currentLang langLinks langDir
        outputDir manifest st = (st, .error (.loadData e)) := by
      simp only [generateLanguageFileFromIndex, hload]
    rw [hgen]
    exact ⟨rfl, Or.inl ⟨e, rfl, rfl⟩⟩
  | ok langData =>
    cases hm : lib.marshal langData with
    | error msg =>
      left
      have hgen : generateLanguageFileFromIndex lib outputPattern tmpl currentLang langLinks
          langDir outputDir manifest st = (st, .error (.marshal msg)) := by
        simp only [generateLanguageFileFromIndex, hload, hm]
      rw [hgen]
      exact ⟨rfl, Or.inr (Or.inl ⟨msg, rfl⟩)⟩
    | ok i18nJson =>
      cases hc : st.fs.create (lib.join outputDir (outputName outputPattern currentLang.Code)) with
      | none =>
        left
        have hgen : generateLanguageFileFromIndex lib outputPattern tmpl currentLang langLinks
            langDir outputDir manifest st = (st, .error (.create
              (lib.join outputDir (outputName outputPattern currentLang.Code)))) := by
          simp only [generateLanguageFileFromIndex, hload, hm, hc]
        rw [hgen]
        exact ⟨rfl, Or.inr (Or.inr rfl)⟩
      | some fs1 =>
        right
        refine ⟨fs1,
          { Lang := { currentLang with
                        URL := outputName outputPattern currentLang.Code, Current := true }
            LangLinks := (lib.rangeLinks.visit st.rendered.length langLinks).map
              (fun e => stampLink outputPattern
                { currentLang with
                    URL := outputName outputPattern currentLang.Code, Current := true } e.2)
            I18N := langData
            I18NJson := i18nJson
            Base := manifest },
          (lib.execute tmpl
            { Lang := { currentLang with
                          URL := outputName outputPattern currentLang.Code, Current := true }
              LangLinks := (lib.rangeLinks.visit st.rendered.length langLinks).map
                (fun e => stampLink outputPattern
                  { currentLang with
                      URL := outputName outputPattern currentLang.Code, Current := true } e.2)
              I18N := langData
              I18NJson := i18nJson
              Base := manifest }).1, hc, rfl, ?_⟩
        simp only [generateLanguageFileFromIndex, hload, hm, hc]
        split
        · exact ⟨rfl, Or.inr ⟨_, rfl⟩⟩
        · exact ⟨rfl, Or.inl rfl⟩


/-! ## The loop over the selected languages -/

theorem generateAll_cons_ok {T D : Type} (lib : Lib T D) (outputPattern : String) (tmpl : T)
    (langLinks : GoMap Language) (langDir outputDir : String) (manifest : Manifest)
    (lang : Language) (rest : List Language) (st : Run D)
    (h : (generateLanguageFileFromIndex lib outputPattern tmpl lang langLinks langDir outputDir
      manifest st).2 = .ok ()) :
    generateAll lib outputPattern tmpl langLinks langDir outputDir manifest (lang :: rest) st
      = generateAll lib outputPattern tmpl langLinks langDir outputDir manifest rest
        (generateLanguageFileFromIndex lib outputPattern tmpl lang langLinks langDir outputDir
          manifest st).1 := by
  rw [generateAll]
  split
  · rename_i st1 e heq
    rw [heq] at h
    cases h
  · rename_i st1 heq
    rw [heq]

theorem generateAll_cons_error {T D : Type} (lib : Lib T D) (outputPattern : String) (tmpl : T)
    (langLinks : GoMap Language) (langDir outputDir : String) (manifest : Manifest)
    (lang : Language) (rest : List Language) (st : Run D) (e : FileError)
    (h : (generateLanguageFileFromIndex lib outputPattern tmpl lang langLinks langDir outputDir
      manifest st).2 = .error e) :
    generateAll lib outputPattern tmpl langLinks langDir outputDir manifest (lang :: rest) st
      = ((generateLanguageFileFromIndex lib outputPattern tmpl lang langLinks langDir outputDir
          manifest st).1, .error (.generate lang.Code e)) := by
  rw [generateAll]
  split
  · rename_i st1 e1 heq
    rw [heq] at h
    cases h
    rw [heq]
  · rename_i st1 heq
    rw [heq] at h
    cases h


/-- The files opened by the loop: one per language, in order, when it succeeds;
when it fails at a language `L`, one per language before `L`, and the file of
`L` too when the error is a rendering error. -/
theorem generateAll_trace {T D : Type} (lib : Lib T D) (outputPattern : String) (tmpl : T)
    (langLinks : GoMap Language) (langDir outputDir : String) (manifest : Manifest)
    (langs : List Language) (st : Run D) :
    ((generateAll lib outputPattern tmpl langLinks langDir outputDir manifest langs st).2
        = .ok () ∧
      (generateAll lib outputPattern tmpl langLinks langDir outputDir manifest langs st).1.created
        = st.created ++ langs.map
          (fun l => lib.join outputDir (replaceAll outputPattern langToken l.Code))) ∨
    ∃ pre L post e, langs = pre ++ L :: post ∧
      (generateAll lib outputPattern tmpl langLinks langDir outputDir manifest langs st).2
        = .error (.generate L.Code e) ∧
      (generateAll lib outputPattern tmpl langLinks langDir outputDir manifest langs st).1.created
        = st.created ++ pre.map
            (fun l => lib.join outputDir (replaceAll outputPattern langToken l.Code))
          ++ (if e.afterCreate then
                [lib.join outputDir (replaceAll outputPattern langToken L.Code)] else []) ∧
      ∀ de, e = .loadData de →
        loadLanguageDataFromFile lib
          (generateAll lib outputPattern tmpl langLinks langDir outputDir manifest langs st).1.fs
          langDir L.File = .error de := by
  induction langs generalizing st with
  | nil => left; simp [generateAll]
  | cons L rest ih =>
    rcases generate_step lib outputPattern tmpl L langLinks langDir outputDir manifest st with
      ⟨hst, herr⟩ | ⟨fs1, ctx, out, hc, _, hst, hres⟩
    · right
      rcases herr with ⟨de, hde, he⟩ | ⟨msg, he⟩ | he
      · refine ⟨[], L, rest, .loadData de, rfl, ?_⟩
        rw [generateAll_cons_error _ _ _ _ _ _ _ _ _ _ _ he, hst]
        refine ⟨rfl, by simp [FileError.afterCreate], ?_⟩
        intro de1 h1
        cases h1
        exact hde
      · refine ⟨[], L, rest, .marshal msg, rfl, ?_⟩
        rw [generateAll_cons_error _ _ _ _ _ _ _ _ _ _ _ he, hst]
        exact ⟨rfl, by simp [FileError.afterCreate], fun de h1 => by cases h1⟩
      · refine ⟨[], L, rest,
          .create (lib.join outputDir (replaceAll outputPattern langToken L.Code)), rfl, ?_⟩
        rw [generateAll_cons_error _ _ _ _ _ _ _ _ _ _ _ he, hst]
        exact ⟨rfl, by simp [FileError.afterCreate], fun de h1 => by cases h1⟩
    · rcases hres with hok | ⟨msg, he⟩
      · rw [generateAll_cons_ok _ _ _ _ _ _ _ _ _ _ hok]
        rcases ih (generateLanguageFileFromIndex lib outputPattern tmpl L langLinks langDir
            outputDir manifest st).1 with ⟨h1, h2⟩ | ⟨pre, L1, post, e, h1, h2, h3, h4⟩
        · left
          refine ⟨h1, ?_⟩
          rw [h2, hst]
          simp
        · right
          refine ⟨L :: pre, L1, post, e, by rw [h1]; rfl, h2, ?_, h4⟩
          rw [h3, hst]
          simp
      · right
        refine ⟨[], L, rest, .render msg, rfl, ?_⟩
        rw [generateAll_cons_error _ _ _ _ _ _ _ _ _ _ _ he, hst]
        exact ⟨rfl, by simp [FileError.afterCreate], fun de h1 => by cases h1⟩

/-- Every context rendered by the loop carries the manifest given to it. -/
theorem generateAll_base {T D : Type} (lib : Lib T D) (outputPattern : String) (tmpl : T)
    (langLinks : GoMap Language) (langDir outputDir : String) (manifest : Manifest)
    (langs : List Language) (st : Run D) :
    ∀ ctx ∈ (generateAll lib outputPattern tmpl langLinks langDir outputDir manifest
        langs st).1.rendered, ctx ∈ st.rendered ∨ ctx.Base = manifest := by
  induction langs generalizing st with
  | nil => intro ctx h; left; simpa [generateAll] using h
  | cons L rest ih =>
    rcases generate_step lib outputPattern tmpl L langLinks langDir outputDir manifest st with
      ⟨hst, herr⟩ | ⟨fs1, ctx1, out, hc, hb, hst, hres⟩
    · have hsame : (generateAll lib outputPattern tmpl langLinks langDir outputDir manifest
          (L :: rest) st).1 = st := by
        rcases herr with ⟨de, _, he⟩ | ⟨msg, he⟩ | he <;>
          rw [generateAll_cons_error _ _ _ _ _ _ _ _ _ _ _ he, hst]
      rw [hsame]
      exact fun ctx h => Or.inl h
    · have hnew : ∀ ctx ∈ (generateLanguageFileFromIndex lib outputPattern tmpl L langLinks
          langDir outputDir manifest st).1.rendered, ctx ∈ st.rendered ∨ ctx.Base = manifest := by
        intro ctx h
        rw [hst] at h
        rcases List.mem_append.1 h with h | h
        · exact Or.inl h
        · right
          rw [List.mem_singleton.1 h]
          exact hb
      rcases hres with hok | ⟨msg, he⟩
      · rw [generateAll_cons_ok _ _ _ _ _ _ _ _ _ _ hok]
        intro ctx h
        rcases ih _ ctx h with h1 | h1
        · exact hnew ctx h1
        · exact Or.inr h1
      · rw [generateAll_cons_error _ _ _ _ _ _ _ _ _ _ _ he]
        exact hnew


/-- A property of the run that every generated file keeps is kept by the loop. -/
theorem generateAll_invariant {T D : Type} (lib : Lib T D) (outputPattern : String) (tmpl : T)
    (langLinks : GoMap Language) (langDir outputDir : String) (manifest : Manifest)
    (P : Run D → Prop)
    (hstep : ∀ L st, P st → P (generateLanguageFileFromIndex lib outputPattern tmpl L langLinks
      langDir outputDir manifest st).1)
    (langs : List Language) (st : Run D) (h : P st) :
    P (generateAll lib outputPattern tmpl langLinks langDir outputDir manifest langs st).1 := by
  induction langs generalizing st with
  | nil => simpa [generateAll] using h
  | cons L rest ih =>
    cases hres : (generateLanguageFileFromIndex lib outputPattern tmpl L langLinks langDir
        outputDir manifest st).2 with
    | error e =>
      rw [generateAll_cons_error _ _ _ _ _ _ _ _ _ _ _ hres]
      exact hstep L st h
    | ok u =>
      cases u
      rw [generateAll_cons_ok _ _ _ _ _ _ _ _ _ _ hres]
      exact ih _ (hstep L st h)

/-- The loop removes no file, and every path it opened is a file afterwards. -/
theorem generateAll_files {T D : Type} (lib : Lib T D) (outputPattern : String) (tmpl : T)
    (langLinks : GoMap Language) (langDir outputDir : String) (manifest : Manifest)
    (langs : List Language) (st : Run D) :
    (∀ q, st.fs.files.lookup q ≠ none →
      (generateAll lib outputPattern tmpl langLinks langDir outputDir manifest
        langs st).1.fs.files.lookup q ≠ none) ∧
    ∀ p ∈ (generateAll lib outputPattern tmpl langLinks langDir outputDir manifest
        langs st).1.created,
      p ∈ st.created ∨
      (generateAll lib outputPattern tmpl langLinks langDir outputDir manifest
        langs st).1.fs.files.lookup p ≠ none := by
  apply generateAll_invariant lib outputPattern tmpl langLinks langDir outputDir manifest
    (fun r => (∀ q, st.fs.files.lookup q ≠ none → r.fs.files.lookup q ≠ none) ∧
      ∀ p ∈ r.created, p ∈ st.created ∨ r.fs.files.lookup p ≠ none)
  · intro L s hs
    rcases generate_step lib outputPattern tmpl L langLinks langDir outputDir manifest s with
      ⟨hst, _⟩ | ⟨fs1, ctx1, out, hc, _, hst, _⟩
    · rw [hst]; exact hs
    · rw [hst]
      refine ⟨fun q hq => FS.lookup_write_create _ _ _ _ _ hc (hs.1 q hq), ?_⟩
      intro p hp
      rcases List.mem_append.1 hp with hp | hp
      · rcases hs.2 p hp with h1 | h1
        · exact Or.inl h1
        · exact Or.inr (FS.lookup_write_create _ _ _ _ _ hc h1)
      · right
        rw [List.mem_singleton.1 hp, FS.lookup_write]
        simp
  · exact ⟨fun q hq => hq, fun p hp => Or.inl hp⟩


/-! ## The whole run -/

theorem loadManifest_congr {T D : Type} (lib : Lib T D) (fs fs1 : FS) (p : String)
    (h : fs1.readFile p = fs.readFile p) : loadManifest lib fs1 p = loadManifest lib fs p := by
  simp only [loadManifest, h]

theorem loadLanguageIndex_congr {T D : Type} (lib : Lib T D) (fs fs1 : FS) (langDir : String)
    (h : fs1.readFile (lib.join langDir "index.json") = fs.readFile (lib.join langDir "index.json")) :
    loadLanguageIndex lib fs1 langDir = loadLanguageIndex lib fs langDir := by
  simp only [loadLanguageIndex, h]

theorem parseTemplate_congr {T D : Type} (lib : Lib T D) (fs fs1 : FS) (p : String)
    (h : fs1.readFile p = fs.readFile p) : parseTemplate lib fs1 p = parseTemplate lib fs p := by
  simp only [parseTemplate, h]

theorem loadLanguageData_congr {T D : Type} (lib : Lib T D) (fs fs1 : FS)
    (langDir filename : String)
    (h : fs1.readFile (lib.join langDir filename) = fs.readFile (lib.join langDir filename)) :
    loadLanguageDataFromFile lib fs1 langDir filename
      = loadLanguageDataFromFile lib fs langDir filename := by
  simp only [loadLanguageDataFromFile, parseLanguageFile, h]

/-- The two ways `runGen` ends: before the loop over the languages, with an
error and no file touched, or in the loop, entered with the output directory
made, the index loaded and filtered, the template parsed and the manifest
loaded or defaulted. -/
theorem runGen_cases {T D : Type} (lib : Lib T D) (outputPattern : String)
    (langCodes args : List String) (fs : FS) :
    ((runGen lib outputPattern langCodes args fs).1.created = [] ∧
      (runGen lib outputPattern langCodes args fs).1.rendered = [] ∧
      (runGen lib outputPattern langCodes args fs).1.fs.files = fs.files ∧
      ∃ e, (runGen lib outputPattern langCodes args fs).2 = .error e ∧
        (∀ code fe, e ≠ .generate code fe) ∧
        (e = .emptyIndex →
          loadLanguageIndex lib fs (lib.join (projectDirOf args) "langs") = .ok []) ∧
        (∀ nf, e = .codesNotFound nf → ∃ languages,
          loadLanguageIndex lib fs (lib.join (projectDirOf args) "langs") = .ok languages ∧
          selectLanguages lib.rangeCodes languages langCodes = .error (.codesNotFound nf))) ∨
    ∃ fs1 languages selected tmpl,
      fs.mkdirAll (lib.join (projectDirOf args) "outputs") = some fs1 ∧
      loadLanguageIndex lib fs (lib.join (projectDirOf args) "langs") = .ok languages ∧
      languages ≠ [] ∧
      selectLanguages lib.rangeCodes languages langCodes = .ok selected ∧
      parseTemplate lib fs (lib.join (projectDirOf args) "index.tmpl") = .ok tmpl ∧
      runGen lib outputPattern langCodes args fs =
        generateAll lib outputPattern tmpl (generateLanguageLinksFromIndex selected)
          (lib.join (projectDirOf args) "langs") (lib.join (projectDirOf args) "outputs")
          (match loadManifest lib fs (lib.join (projectDirOf args) "manifest.json") with
            | .error _ => defaultManifest
            | .ok manifest => manifest)
          selected { fs := fs1, created := [], rendered := [] } := by
  by_cases h1 : fs.notExist (projectDirOf args) = true
  · left
    have hr : runGen lib outputPattern langCodes args fs
        = ({ fs := fs, created := [], rendered := [] },
            .error (.projectDirMissing (projectDirOf args))) := by
      simp only [runGen, h1, if_true]
    rw [hr]
    exact ⟨rfl, rfl, rfl, _, rfl, (fun _ _ h => by cases h), (fun h => by cases h),
      (fun _ h => by cases h)⟩
  by_cases h2 : fs.notExist (lib.join (projectDirOf args) "index.tmpl") = true
  · left
    have hr : runGen lib outputPattern langCodes args fs
        = ({ fs := fs, created := [], rendered := [] },
            .error (.templateMissing (lib.join (projectDirOf args) "index.tmpl"))) := by
      simp only [runGen, Bool.false_eq_true, h1, h2, if_true, if_false]
    rw [hr]
    exact ⟨rfl, rfl, rfl, _, rfl, (fun _ _ h => by cases h), (fun h => by cases h),
      (fun _ h => by cases h)⟩
  by_cases h3 : fs.notExist (lib.join (lib.join (projectDirOf args) "langs") "index.json") = true
  · left
    have hr : runGen lib outputPattern langCodes args fs
        = ({ fs := fs, created := [], rendered := [] },
            .error (.indexMissing
              (lib.join (lib.join (projectDirOf args) "langs") "index.json"))) := by
      simp only [runGen, Bool.false_eq_true, h1, h2, h3, if_true, if_false]
    rw [hr]
    exact ⟨rfl, rfl, rfl, _, rfl, (fun _ _ h => by cases h), (fun h => by cases h),
      (fun _ h => by cases h)⟩
  cases h4 : fs.mkdirAll (lib.join (projectDirOf args) "outputs") with
  | none =>
    left
    have hr : runGen lib outputPattern langCodes args fs
        = ({ fs := fs, created := [], rendered := [] },
            .error (.mkdirOutput (lib.join (projectDirOf args) "outputs"))) := by
      simp only [runGen, Bool.false_eq_true, h1, h2, h3, h4, if_false]
    rw [hr]
    exact ⟨rfl, rfl, rfl, _, rfl, (fun _ _ h => by cases h), (fun h => by cases h),
      (fun _ h => by cases h)⟩
  | some fs1 =>
    have hread : ∀ q, fs1.readFile q = fs.readFile q :=
      fun q => FS.readFile_mkdirAll fs fs1 _ q h4
    have hfiles : fs1.files = fs.files := (FS.mkdirAll_same fs fs1 _ h4).1
    have hidx := loadLanguageIndex_congr lib fs fs1 (lib.join (projectDirOf args) "langs")
      (hread _)
    have hman := loadManifest_congr lib fs fs1 (lib.join (projectDirOf args) "manifest.json")
      (hread _)
    have htm := parseTemplate_congr lib fs fs1 (lib.join (projectDirOf args) "index.tmpl")
      (hread _)
    cases h5 : loadLanguageIndex lib fs (lib.join (projectDirOf args) "langs") with
    | error e =>
      left
      have hr : runGen lib outputPattern langCodes args fs
          = ({ fs := fs1, created := [], rendered := [] }, .error (.loadIndex e)) := by
        simp only [runGen, Bool.false_eq_true, h1, h2, h3, h4, if_false, hidx, h5]
      rw [hr]
      exact ⟨rfl, rfl, hfiles, _, rfl, (fun _ _ h => by cases h), (fun h => by cases h),
        (fun _ h => by cases h)⟩
    | ok languages =>
      by_cases h6 : languages.length = 0
      · left
        have hr : runGen lib outputPattern langCodes args fs
            = ({ fs := fs1, created := [], rendered := [] }, .error .emptyIndex) := by
          simp only [runGen, Bool.false_eq_true, h1, h2, h3, h4, if_false, hidx, h5, h6, if_true]
        rw [hr]
        refine ⟨rfl, rfl, hfiles, _, rfl, (fun _ _ h => by cases h), (fun _ => ?_),
          (fun _ h => by cases h)⟩
        rw [List.length_eq_zero.1 h6]
      cases h7 : selectLanguages lib.rangeCodes languages langCodes with
      | error e =>
        left
        have hr : runGen lib outputPattern langCodes args fs
            = ({ fs := fs1, created := [], rendered := [] }, .error e) := by
          simp only [runGen, Bool.false_eq_true, h1, h2, h3, h4, if_false, hidx, h5, h6, h7]
        rw [hr]
        have hne : ∀ code fe, e ≠ .generate code fe := by
          intro code fe he
          rw [he] at h7
          unfold selectLanguages at h7
          split at h7
          · rw [filterLanguages_eq] at h7
            split at h7
            · cases h7
            · split at h7 <;> cases h7
          · cases h7
        have hemp : e ≠ .emptyIndex := by
          intro he
          rw [he] at h7
          unfold selectLanguages at h7
          split at h7
          · rw [filterLanguages_eq] at h7
            split at h7
            · cases h7
            · split at h7 <;> cases h7
          · cases h7
        refine ⟨rfl, rfl, hfiles, e, rfl, hne, fun h => absurd h hemp, ?_⟩
        intro nf he
        exact ⟨languages, rfl, he ▸ h7⟩
      | ok selected =>
        cases h8 : parseTemplate lib fs (lib.join (projectDirOf args) "index.tmpl") with
        | error e =>
          left
          have hr : runGen lib outputPattern langCodes args fs
              = ({ fs := fs1, created := [], rendered := [] }, .error (.parseTemplate e)) := by
            simp only [runGen, Bool.false_eq_true, h1, h2, h3, h4, if_false, hidx, h5, h6, h7, htm, h8]
          rw [hr]
          exact ⟨rfl, rfl, hfiles, _, rfl, (fun _ _ h => by cases h), (fun h => by cases h),
            (fun _ h => by cases h)⟩
        | ok tmpl =>
          right
          refine ⟨fs1, languages, selected, tmpl, rfl, rfl, ?_, h7, rfl, ?_⟩
          · intro h
            exact h6 (by rw [h]; rfl)
          · simp only [runGen, Bool.false_eq_true, h1, h2, h3, h4, if_false, hidx, h5, h6, h7, htm, h8, hman]


/-! ## The substitution of the placeholder -/

theorem replaceAllAux_length (old new : List Char) (s : List Char) (k : Nat) :
    (replaceAllAux old new k s).length = keptCount old k s + matchCount old k s * new.length := by
  induction s generalizing k with
  | nil => cases k <;> simp [replaceAllAux, keptCount, matchCount]
  | cons c t ih =>
    cases k with
    | succ k => simp only [replaceAllAux, keptCount, matchCount, ih]
    | zero =>
      simp only [replaceAllAux, keptCount, matchCount]
      split
      · simp only [List.length_append, ih]
        ring
      · simp only [List.length_cons, ih]
        ring

theorem replaceAllAux_inj_of_length (old c1 c2 : List Char) (hlen : c1.length = c2.length)
    (s : List Char) (k : Nat) (hm : 1 ≤ matchCount old k s)
    (h : replaceAllAux old c1 k s = replaceAllAux old c2 k s) : c1 = c2 := by
  induction s generalizing k with
  | nil => cases k <;> simp [matchCount] at hm
  | cons c t ih =>
    cases k with
    | succ k =>
      simp only [replaceAllAux, matchCount] at h hm
      exact ih k hm h
    | zero =>
      simp only [replaceAllAux, matchCount] at h hm
      split at h
      · exact List.append_inj_left h hlen
      · rename_i hp
        simp only [hp, if_false] at hm
        exact ih 0 hm (List.cons.inj h).2

theorem matchCount_pos (old : List Char) (hold : old ≠ []) (s : List Char)
    (h : old <:+: s) : 1 ≤ matchCount old 0 s := by
  induction s with
  | nil =>
    exact absurd (List.eq_nil_of_infix_nil h) hold
  | cons c t ih =>
    simp only [matchCount]
    split
    · omega
    · rename_i hp
      rcases List.infix_cons_iff.1 h with h1 | h1
      · exact absurd (List.isPrefixOf_iff_prefix.2 h1) hp
      · exact ih h1

/-- A pattern that contains the placeholder gives different file names to
different codes. -/
theorem replaceAll_injective (outputPattern : String)
    (htok : langToken.data <:+: outputPattern.data) (c1 c2 : String)
    (h : replaceAll outputPattern langToken c1 = replaceAll outputPattern langToken c2) :
    c1 = c2 := by
  have hd : replaceAllAux langToken.data c1.data 0 outputPattern.data
      = replaceAllAux langToken.data c2.data 0 outputPattern.data := by
    have := congrArg String.data h
    simpa [replaceAll] using this
  have hm := matchCount_pos langToken.data (by decide) outputPattern.data htok
  have hlen : c1.data.length = c2.data.length := by
    have h1 := congrArg List.length hd
    rw [replaceAllAux_length, replaceAllAux_length] at h1
    have h2 : matchCount langToken.data 0 outputPattern.data * c1.data.length
        = matchCount langToken.data 0 outputPattern.data * c2.data.length := by omega
    exact Nat.eq_of_mul_eq_mul_left hm h2
  have := replaceAllAux_inj_of_length langToken.data c1.data c2.data hlen _ 0 hm hd
  exact String.ext this


/-! ## The artifacts of a run -/

/-- C4, as the code has it: a successful run opens one output file per
selected language, in the order of the selection, at the output directory
joined with the pattern in which `{lang}` is replaced by the code, and each of
these paths is a file afterwards; the number of distinct files is the number
of selected languages whenever these paths are pairwise distinct, which holds
when the selected codes are pairwise distinct, the pattern contains `{lang}`
and joining to the output directory keeps distinct names apart. -/
theorem artifacts_per_language {T D : Type} (lib : Lib T D) (outputPattern : String)
    (langCodes args : List String) (fs : FS)
    (hok : (runGen lib outputPattern langCodes args fs).2 = .ok ()) :
    ∃ languages selected,
      loadLanguageIndex lib fs (lib.join (projectDirOf args) "langs") = .ok languages ∧
      selectLanguages lib.rangeCodes languages langCodes = .ok selected ∧
      (runGen lib outputPattern langCodes args fs).1.created = selected.map (fun l =>
        lib.join (lib.join (projectDirOf args) "outputs")
          (replaceAll outputPattern langToken l.Code)) ∧
      (∀ p ∈ (runGen lib outputPattern langCodes args fs).1.created,
        (runGen lib outputPattern langCodes args fs).1.fs.files.lookup p ≠ none) ∧
      (runGen lib outputPattern langCodes args fs).1.created.dedup.length ≤ selected.length ∧
      ((runGen lib outputPattern langCodes args fs).1.created.Nodup →
        (runGen lib outputPattern langCodes args fs).1.created.dedup.length = selected.length) ∧
      ((selected.map Language.Code).Nodup → langToken.data <:+: outputPattern.data →
        (∀ a b, lib.join (lib.join (projectDirOf args) "outputs") a
            = lib.join (lib.join (projectDirOf args) "outputs") b → a = b) →
        (runGen lib outputPattern langCodes args fs).1.created.Nodup) := by
  rcases runGen_cases lib outputPattern langCodes args fs with
    ⟨_, _, _, e, he, _⟩ | ⟨fs1, languages, selected, tmpl, _, hidx, _, hsel, _, hrun⟩
  · rw [he] at hok
    cases hok
  · refine ⟨languages, selected, hidx, hsel, ?_⟩
    have hcreated : (runGen lib outputPattern langCodes args fs).1.created = selected.map (fun l =>
        lib.join (lib.join (projectDirOf args) "outputs")
          (replaceAll outputPattern langToken l.Code)) := by
      rw [hrun] at hok ⊢
      rcases generateAll_trace lib outputPattern tmpl (generateLanguageLinksFromIndex selected)
          (lib.join (projectDirOf args) "langs") (lib.join (projectDirOf args) "outputs") _
          selected { fs := fs1, created := [], rendered := [] } with
        ⟨_, h2⟩ | ⟨pre, L, post, e, _, h2, _⟩
      · rw [h2]
        simp
      · rw [h2] at hok
        cases hok
    have hlen : (runGen lib outputPattern langCodes args fs).1.created.length
        = selected.length := by
      rw [hcreated, List.length_map]
    refine ⟨hcreated, ?_, ?_, ?_, ?_⟩
    · intro p hp
      rw [hrun] at hp ⊢
      rcases (generateAll_files lib outputPattern tmpl (generateLanguageLinksFromIndex selected)
          (lib.join (projectDirOf args) "langs") (lib.join (projectDirOf args) "outputs") _
          selected { fs := fs1, created := [], rendered := [] }).2 p hp with h | h
      · simp at h
      · exact h
    · rw [← hlen]
      exact (List.dedup_sublist _).length_le
    · intro hnd
      rw [hnd.dedup, hlen]
    · intro hcodes htok hjoin
      rw [hcreated]
      have h1 : (selected.map Language.Code).map (fun c =>
          lib.join (lib.join (projectDirOf args) "outputs")
            (replaceAll outputPattern langToken c)) = selected.map (fun l =>
          lib.join (lib.join (projectDirOf args) "outputs")
            (replaceAll outputPattern langToken l.Code)) := by
        rw [List.map_map]
        rfl
      rw [← h1]
      apply List.Nodup.map _ hcodes
      intro a b hab
      exact replaceAll_injective outputPattern htok a b (hjoin _ _ hab)

/-- C4, witness: the example project under the pattern `{lang}.html`. -/
theorem artifacts_per_language_witness :
    ∃ languages selected,
      loadLanguageIndex (demoLib demoLanguages (.error "absent") "") demoProject
        ((demoLib demoLanguages (.error "absent") "").join (projectDirOf ["proj"]) "langs")
        = .ok languages ∧
      selectLanguages (demoLib demoLanguages (.error "absent") "").rangeCodes languages []
        = .ok selected ∧
      (runGen (demoLib demoLanguages (.error "absent") "") "\x7blang\x7d.html" [] ["proj"]
        demoProject).1.created = selected.map (fun l =>
          (demoLib demoLanguages (.error "absent") "").join
            ((demoLib demoLanguages (.error "absent") "").join (projectDirOf ["proj"]) "outputs")
            (replaceAll "\x7blang\x7d.html" langToken l.Code)) ∧
      (∀ p ∈ (runGen (demoLib demoLanguages (.error "absent") "") "\x7blang\x7d.html" []
          ["proj"] demoProject).1.created,
        (runGen (demoLib demoLanguages (.error "absent") "") "\x7blang\x7d.html" [] ["proj"]
          demoProject).1.fs.files.lookup p ≠ none) ∧
      (runGen (demoLib demoLanguages (.error "absent") "") "\x7blang\x7d.html" [] ["proj"]
        demoProject).1.created.dedup.length ≤ selected.length ∧
      ((runGen (demoLib demoLanguages (.error "absent") "") "\x7blang\x7d.html" [] ["proj"]
          demoProject).1.created.Nodup →
        (runGen (demoLib demoLanguages (.error "absent") "") "\x7blang\x7d.html" [] ["proj"]
          demoProject).1.created.dedup.length = selected.length) ∧
      ((selected.map Language.Code).Nodup →
        langToken.data <:+: ("\x7blang\x7d.html" : String).data →
        (∀ a b, (demoLib demoLanguages (.error "absent") "").join
            ((demoLib demoLanguages (.error "absent") "").join (projectDirOf ["proj"]) "outputs") a
            = (demoLib demoLanguages (.error "absent") "").join
              ((demoLib demoLanguages (.error "absent") "").join (projectDirOf ["proj"])
                "outputs") b → a = b) →
        (runGen (demoLib demoLanguages (.error "absent") "") "\x7blang\x7d.html" [] ["proj"]
          demoProject).1.created.Nodup) :=
  artifacts_per_language (demoLib demoLanguages (.error "absent") "") "\x7blang\x7d.html" []
    ["proj"] demoProject (by decide)

/-- C4 as stated fails: under the pattern `index.html`, without placeholder,
the run on the example project succeeds for its two languages and writes one
file, `proj/outputs/index.html`, which holds the page of the last language. -/
theorem one_artifact_for_two_languages :
    (runGen (demoLib demoLanguages (.error "absent") "") "index.html" [] ["proj"]
      demoProject).2 = .ok () ∧
    selectLanguages (demoLib demoLanguages (.error "absent") "").rangeCodes demoLanguages []
      = .ok demoLanguages ∧
    demoLanguages.length = 2 ∧
    (runGen (demoLib demoLanguages (.error "absent") "") "index.html" [] ["proj"]
      demoProject).1.created = ["proj/outputs/index.html", "proj/outputs/index.html"] ∧
    (runGen (demoLib demoLanguages (.error "absent") "") "index.html" [] ["proj"]
      demoProject).1.created.dedup.length = 1 ∧
    (runGen (demoLib demoLanguages (.error "absent") "") "index.html" [] ["proj"]
      demoProject).1.fs.files
      = demoProject.files ++ [("proj/outputs/index.html", "T:en")] := by
  decide


/-! ## Failures of the configuration -/

theorem unsupportedFormat_inv {T D : Type} (lib : Lib T D) (fs : FS)
    (langDir filename ext : String)
    (h : loadLanguageDataFromFile lib fs langDir filename = .error (.unsupportedFormat ext)) :
    ext = filepathExt filename ∧ ext ≠ ".json" ∧
      ∃ content, fs.readFile (lib.join langDir filename) = some content := by
  simp only [loadLanguageDataFromFile, parseLanguageFile] at h
  cases hr : fs.readFile (lib.join langDir filename) with
  | none =>
    rw [hr] at h
    cases h
  | some content =>
    rw [hr] at h
    simp only at h
    split at h
    · cases hu : lib.unmarshalData content with
      | error msg => rw [hu] at h; cases h
      | ok d => rw [hu] at h; cases h
    · rename_i hne
      cases h
      exact ⟨rfl, hne, content, rfl⟩

/-- C6, as the code has it: a run that fails because the index is empty or
because a requested code is unmatched has opened no output file and left every
file as it was; a run that fails at a selected language `L` whose data file has
an unsupported extension has opened exactly the output files of the languages
selected before `L`, none for `L` and none for a later one. -/
theorem fatal_configuration_outputs {T D : Type} (lib : Lib T D) (outputPattern : String)
    (langCodes args : List String) (fs : FS) :
    (((runGen lib outputPattern langCodes args fs).2 = .error .emptyIndex ∨
        ∃ nf, (runGen lib outputPattern langCodes args fs).2 = .error (.codesNotFound nf)) →
      (runGen lib outputPattern langCodes args fs).1.created = [] ∧
      (runGen lib outputPattern langCodes args fs).1.fs.files = fs.files) ∧
    ∀ code ext, (runGen lib outputPattern langCodes args fs).2
        = .error (.generate code (.loadData (.unsupportedFormat ext))) →
      ∃ languages selected pre L post,
        loadLanguageIndex lib fs (lib.join (projectDirOf args) "langs") = .ok languages ∧
        selectLanguages lib.rangeCodes languages langCodes = .ok selected ∧
        selected = pre ++ L :: post ∧ L.Code = code ∧
        filepathExt L.File = ext ∧ ext ≠ ".json" ∧
        (runGen lib outputPattern langCodes args fs).1.created = pre.map (fun l =>
          lib.join (lib.join (projectDirOf args) "outputs")
            (replaceAll outputPattern langToken l.Code)) := by
  rcases runGen_cases lib outputPattern langCodes args fs with
    ⟨hc, _, hf, e, he, hgen, _⟩ | ⟨fs1, languages, selected, tmpl, _, hidx, _, hsel, _, hrun⟩
  · refine ⟨fun _ => ⟨hc, hf⟩, ?_⟩
    intro code ext h
    rw [he] at h
    cases h
    exact absurd rfl (hgen _ _)
  · rcases generateAll_trace lib outputPattern tmpl (generateLanguageLinksFromIndex selected)
        (lib.join (projectDirOf args) "langs") (lib.join (projectDirOf args) "outputs")
        (match loadManifest lib fs (lib.join (projectDirOf args) "manifest.json") with
          | .error _ => defaultManifest
          | .ok manifest => manifest)
        selected { fs := fs1, created := [], rendered := [] } with
      ⟨h1, _⟩ | ⟨pre, L, post, e, hsplit, h2, h3, h4⟩
    · rw [← hrun] at h1
      refine ⟨?_, ?_⟩
      · rintro (h | ⟨nf, h⟩) <;> rw [h1] at h <;> cases h
      · intro code ext h
        rw [h1] at h
        cases h
    · rw [← hrun] at h2 h3 h4
      refine ⟨?_, ?_⟩
      · rintro (h | ⟨nf, h⟩) <;> rw [h2] at h <;> cases h
      · intro code ext h
        rw [h2] at h
        cases h
        have hinv := unsupportedFormat_inv lib _ _ _ _ (h4 _ rfl)
        refine ⟨languages, selected, pre, L, post, hidx, hsel, hsplit, rfl, hinv.1.symm,
          hinv.2.1, ?_⟩
        rw [h3]
        simp [FileError.afterCreate]

/-- C6, witness: an empty index, an unmatched code, and the project whose
second language keeps its data in `fr.yaml`. -/
theorem fatal_configuration_outputs_witness :
    ((runGen (demoLib [] (.error "absent") "") "\x7blang\x7d.html" [] ["proj"]
        demoProject).1.created = [] ∧
      (runGen (demoLib [] (.error "absent") "") "\x7blang\x7d.html" [] ["proj"]
        demoProject).1.fs.files = demoProject.files) ∧
    ((runGen (demoLib demoLanguages (.error "absent") "") "\x7blang\x7d.html" ["zh", "xx"]
        ["proj"] demoProject).1.created = [] ∧
      (runGen (demoLib demoLanguages (.error "absent") "") "\x7blang\x7d.html" ["zh", "xx"]
        ["proj"] demoProject).1.fs.files = demoProject.files) ∧
    ∃ languages selected pre L post,
      loadLanguageIndex (demoLib yamlLanguages (.error "absent") "") yamlProject
        ((demoLib yamlLanguages (.error "absent") "").join (projectDirOf ["proj"]) "langs")
        = .ok languages ∧
      selectLanguages (demoLib yamlLanguages (.error "absent") "").rangeCodes languages []
        = .ok selected ∧
      selected = pre ++ L :: post ∧ L.Code = "fr" ∧
      filepathExt L.File = ".yaml" ∧ ".yaml" ≠ ".json" ∧
      (runGen (demoLib yamlLanguages (.error "absent") "") "\x7blang\x7d.html" [] ["proj"]
        yamlProject).1.created = pre.map (fun l =>
          (demoLib yamlLanguages (.error "absent") "").join
            ((demoLib yamlLanguages (.error "absent") "").join (projectDirOf ["proj"]) "outputs")
            (replaceAll "\x7blang\x7d.html" langToken l.Code)) :=
  ⟨(fatal_configuration_outputs (demoLib [] (.error "absent") "") "\x7blang\x7d.html" []
      ["proj"] demoProject).1 (Or.inl (by decide)),
    (fatal_configuration_outputs (demoLib demoLanguages (.error "absent") "")
      "\x7blang\x7d.html" ["zh", "xx"] ["proj"] demoProject).1 (Or.inr ⟨["xx"], by decide⟩),
    (fatal_configuration_outputs (demoLib yamlLanguages (.error "absent") "")
      "\x7blang\x7d.html" [] ["proj"] yamlProject).2 "fr" ".yaml" (by decide)⟩

/-- C6 as stated fails: the run on the project whose second language keeps its
data in `fr.yaml` fails with the unsupported-format error for `fr`, after the
artifact of `zh` was written: `proj/outputs/zh.html` did not exist before the
run and holds the page of `zh` after it. -/
theorem unsupported_format_after_first_artifact :
    (runGen (demoLib yamlLanguages (.error "absent") "") "\x7blang\x7d.html" [] ["proj"]
      yamlProject).2 = .error (.generate "fr" (.loadData (.unsupportedFormat ".yaml"))) ∧
    (runGen (demoLib yamlLanguages (.error "absent") "") "\x7blang\x7d.html" [] ["proj"]
      yamlProject).1.created = ["proj/outputs/zh.html"] ∧
    yamlProject.files.lookup "proj/outputs/zh.html" = none ∧
    (runGen (demoLib yamlLanguages (.error "absent") "") "\x7blang\x7d.html" [] ["proj"]
      yamlProject).1.fs.files.lookup "proj/outputs/zh.html" = some "T:zh" := by
  decide


/-! ## A run on a valid project -/

/-- The run enters the loop over the languages once the project directory, the
template and the index exist, the output directory can be made, the index
loads to a non-empty list, the filter succeeds and the template parses. -/
theorem runGen_loop {T D : Type} (lib : Lib T D) (outputPattern : String)
    (langCodes args : List String) (fs fs1 : FS) (languages selected : List Language) (tmpl : T)
    (h1 : fs.notExist (projectDirOf args) = false)
    (h2 : fs.notExist (lib.join (projectDirOf args) "index.tmpl") = false)
    (h3 : fs.notExist (lib.join (lib.join (projectDirOf args) "langs") "index.json") = false)
    (h4 : fs.mkdirAll (lib.join (projectDirOf args) "outputs") = some fs1)
    (h5 : loadLanguageIndex lib fs (lib.join (projectDirOf args) "langs") = .ok languages)
    (h6 : languages ≠ [])
    (h7 : selectLanguages lib.rangeCodes languages langCodes = .ok selected)
    (h8 : parseTemplate lib fs (lib.join (projectDirOf args) "index.tmpl") = .ok tmpl) :
    runGen lib outputPattern langCodes args fs =
      generateAll lib outputPattern tmpl (generateLanguageLinksFromIndex selected)
        (lib.join (projectDirOf args) "langs") (lib.join (projectDirOf args) "outputs")
        (match loadManifest lib fs (lib.join (projectDirOf args) "manifest.json") with
          | .error _ => defaultManifest
          | .ok manifest => manifest)
        selected { fs := fs1, created := [], rendered := [] } := by
  have hread : ∀ q, fs1.readFile q = fs.readFile q :=
    fun q => FS.readFile_mkdirAll fs fs1 _ q h4
  have hidx := loadLanguageIndex_congr lib fs fs1 (lib.join (projectDirOf args) "langs")
    (hread _)
  have hman := loadManifest_congr lib fs fs1 (lib.join (projectDirOf args) "manifest.json")
    (hread _)
  have htm := parseTemplate_congr lib fs fs1 (lib.join (projectDirOf args) "index.tmpl")
    (hread _)
  have hlen : ¬ languages.length = 0 := fun h => h6 (List.length_eq_zero.1 h)
  simp only [runGen, Bool.false_eq_true, h1, h2, h3, h4, if_false, hidx, h5, hlen, h7, htm, h8,
    hman]

theorem FS.create_isSome_congr (fs fs1 : FS) (p : String) (hd : fs1.denied = fs.denied)
    (hdirs : fs1.dirs = fs.dirs) : (fs1.create p).isSome = (fs.create p).isSome := by
  simp only [FS.create, hd, hdirs]
  split <;> rfl

/-- One file is generated without error when its data loads and encodes, its
output file can be created and the template executes. -/
theorem generate_ok {T D : Type} (lib : Lib T D) (outputPattern : String) (tmpl : T)
    (currentLang : Language) (langLinks : GoMap Language) (langDir outputDir : String)
    (manifest : Manifest) (st : Run D) (langData : D) (i18nJson : String) (fs1 : FS)
    (hload : loadLanguageDataFromFile lib st.fs langDir currentLang.File = .ok langData)
    (hm : lib.marshal langData = .ok i18nJson)
    (hc : st.fs.create (lib.join outputDir (replaceAll outputPattern langToken currentLang.Code))
      = some fs1)
    (hex : ∀ ctx : TemplateData D, ctx.Base = manifest → (lib.execute tmpl ctx).2 = none) :
    (generateLanguageFileFromIndex lib outputPattern tmpl currentLang langLinks langDir
        outputDir manifest st).2 = .ok () ∧
    ∃ out ctx, (generateLanguageFileFromIndex lib outputPattern tmpl currentLang langLinks
        langDir outputDir manifest st).1 =
      { fs := fs1.write
          (lib.join outputDir (replaceAll outputPattern langToken currentLang.Code)) out
        created := st.created ++
          [lib.join outputDir (replaceAll outputPattern langToken currentLang.Code)]
        rendered := st.rendered ++ [ctx] } := by
  have hc1 : st.fs.create (lib.join outputDir (outputName outputPattern currentLang.Code))
      = some fs1 := hc
  simp only [generateLanguageFileFromIndex, hload, hm, hc1]
  split
  · rename_i msg heq
    rw [hex _ rfl] at heq
    cases heq
  · exact ⟨rfl, _, _, rfl⟩


/-- The loop succeeds when, for every language, the data file loads and
encodes, the output file can be created, no output file is a data file, and
the template executes. -/
theorem generateAll_ok {T D : Type} (lib : Lib T D) (outputPattern : String) (tmpl : T)
    (langLinks : GoMap Language) (langDir outputDir : String) (manifest : Manifest)
    (langs : List Language) (st : Run D)
    (hdata : ∀ L ∈ langs, ∃ data json,
      loadLanguageDataFromFile lib st.fs langDir L.File = .ok data ∧ lib.marshal data = .ok json)
    (hcreate : ∀ L ∈ langs,
      (st.fs.create (lib.join outputDir (replaceAll outputPattern langToken L.Code))).isSome
        = true)
    (hapart : ∀ L ∈ langs, ∀ L1 ∈ langs,
      lib.join langDir L.File ≠ lib.join outputDir (replaceAll outputPattern langToken L1.Code))
    (hex : ∀ ctx : TemplateData D, ctx.Base = manifest → (lib.execute tmpl ctx).2 = none) :
    (generateAll lib outputPattern tmpl langLinks langDir outputDir manifest langs st).2
      = .ok () ∧
    (generateAll lib outputPattern tmpl langLinks langDir outputDir manifest
      langs st).1.rendered.length = st.rendered.length + langs.length := by
  induction langs generalizing st with
  | nil => simp [generateAll]
  | cons L rest ih =>
    obtain ⟨data, json, hload, hm⟩ := hdata L (List.mem_cons_self _ _)
    obtain ⟨fs1, hc⟩ := Option.isSome_iff_exists.1 (hcreate L (List.mem_cons_self _ _))
    obtain ⟨hok, out, ctx, hst⟩ := generate_ok lib outputPattern tmpl L langLinks langDir
      outputDir manifest st data json fs1 hload hm hc hex
    rw [generateAll_cons_ok _ _ _ _ _ _ _ _ _ _ hok, hst]
    have hfs1 := FS.create_eq st.fs fs1 _ hc
    have key := ih
      { fs := fs1.write (lib.join outputDir (replaceAll outputPattern langToken L.Code)) out
        created := st.created ++ [lib.join outputDir (replaceAll outputPattern langToken L.Code)]
        rendered := st.rendered ++ [ctx] } ?_ ?_ ?_
    · refine ⟨key.1, ?_⟩
      rw [key.2]
      simp only [List.length_append, List.length_cons, List.length_nil]
      omega
    · intro L1 hL1
      obtain ⟨d1, j1, hl1, hm1⟩ := hdata L1 (List.mem_cons_of_mem _ hL1)
      refine ⟨d1, j1, ?_, hm1⟩
      rw [← hl1]
      apply loadLanguageData_congr
      exact FS.readFile_write_create st.fs fs1 _ out _ hc
        (hapart L1 (List.mem_cons_of_mem _ hL1) L (List.mem_cons_self _ _))
    · intro L1 hL1
      rw [← hcreate L1 (List.mem_cons_of_mem _ hL1)]
      apply FS.create_isSome_congr
      · rw [hfs1]; rfl
      · rw [hfs1]; rfl
    · intro L1 hL1 L2 hL2
      exact hapart L1 (List.mem_cons_of_mem _ hL1) L2 (List.mem_cons_of_mem _ hL2)

/-- C8: when `loadManifest` fails, every context rendered by `runGen` carries
the manifest with base URL, author and description empty, site name `Website`
and version `1.0.0`; and the run succeeds, with one context per selected
language, on a project that is valid otherwise: the directory, the template
and the index exist, the output directory can be made, the index loads to a
non-empty list, the filter succeeds, the template parses and executes on
contexts with that manifest, and every selected language has a data
file that loads and encodes and an output file that can be created and is no
data file. -/
theorem manifest_defaulted {T D : Type} (lib : Lib T D) (outputPattern : String)
    (langCodes args : List String) (fs : FS)
    (hman : ∃ e, loadManifest lib fs (lib.join (projectDirOf args) "manifest.json") = .error e) :
    (∀ ctx ∈ (runGen lib outputPattern langCodes args fs).1.rendered,
      ctx.Base = { BaseURL := "", SiteName := "Website", Author := "", Description := "",
                   Version := "1.0.0" }) ∧
    ∀ (fs1 : FS) (languages selected : List Language) (tmpl : T),
      fs.notExist (projectDirOf args) = false →
      fs.notExist (lib.join (projectDirOf args) "index.tmpl") = false →
      fs.notExist (lib.join (lib.join (projectDirOf args) "langs") "index.json") = false →
      fs.mkdirAll (lib.join (projectDirOf args) "outputs") = some fs1 →
      loadLanguageIndex lib fs (lib.join (projectDirOf args) "langs") = .ok languages →
      languages ≠ [] →
      selectLanguages lib.rangeCodes languages langCodes = .ok selected →
      parseTemplate lib fs (lib.join (projectDirOf args) "index.tmpl") = .ok tmpl →
      (∀ L ∈ selected, ∃ data json,
        loadLanguageDataFromFile lib fs (lib.join (projectDirOf args) "langs") L.File = .ok data
          ∧ lib.marshal data = .ok json) →
      (∀ L ∈ selected, (fs1.create (lib.join (lib.join (projectDirOf args) "outputs")
        (replaceAll outputPattern langToken L.Code))).isSome = true) →
      (∀ L ∈ selected, ∀ L1 ∈ selected,
        lib.join (lib.join (projectDirOf args) "langs") L.File
          ≠ lib.join (lib.join (projectDirOf args) "outputs")
            (replaceAll outputPattern langToken L1.Code)) →
      (∀ ctx : TemplateData D,
        ctx.Base = { BaseURL := "", SiteName := "Website", Author := "", Description := "",
                     Version := "1.0.0" } →
        (lib.execute tmpl ctx).2 = none) →
      (runGen lib outputPattern langCodes args fs).2 = .ok () ∧
      (runGen lib outputPattern langCodes args fs).1.rendered.length = selected.length := by
  obtain ⟨e, he⟩ := hman
  refine ⟨?_, ?_⟩
  · rcases runGen_cases lib outputPattern langCodes args fs with
      ⟨_, hr, _⟩ | ⟨fs1, languages, selected, tmpl, _, _, _, _, _, hrun⟩
    · rw [hr]
      intro ctx h
      simp at h
    · rw [hrun, he]
      intro ctx h
      rcases generateAll_base lib outputPattern tmpl _ _ _ _ selected _ ctx h with h1 | h1
      · simp at h1
      · exact h1
  · intro fs1 languages selected tmpl h1 h2 h3 h4 h5 h6 h7 h8 hdata hcreate hapart hex
    rw [runGen_loop lib outputPattern langCodes args fs fs1 languages selected tmpl
      h1 h2 h3 h4 h5 h6 h7 h8, he]
    have key := generateAll_ok lib outputPattern tmpl (generateLanguageLinksFromIndex selected)
      (lib.join (projectDirOf args) "langs") (lib.join (projectDirOf args) "outputs")
      defaultManifest selected { fs := fs1, created := [], rendered := [] } ?_ hcreate hapart hex
    · refine ⟨key.1, ?_⟩
      rw [key.2]
      simp
    · intro L hL
      obtain ⟨d, j, hl, hm⟩ := hdata L hL
      refine ⟨d, j, ?_, hm⟩
      rw [← hl]
      apply loadLanguageData_congr
      exact FS.readFile_mkdirAll fs fs1 _ _ h4


/-- C8, witness: the example project has no manifest, its run succeeds and
both contexts carry the manifest with site name `Website` and version `1.0.0`. -/
theorem manifest_defaulted_witness :
    (∀ ctx ∈ (runGen (demoLib demoLanguages (.error "absent") "") "\x7blang\x7d.html" []
        ["proj"] demoProject).1.rendered,
      ctx.Base = { BaseURL := "", SiteName := "Website", Author := "", Description := "",
                   Version := "1.0.0" }) ∧
    (runGen (demoLib demoLanguages (.error "absent") "") "\x7blang\x7d.html" [] ["proj"]
      demoProject).2 = .ok () ∧
    (runGen (demoLib demoLanguages (.error "absent") "") "\x7blang\x7d.html" [] ["proj"]
      demoProject).1.rendered.length = demoLanguages.length :=
  have h := manifest_defaulted (demoLib demoLanguages (.error "absent") "") "\x7blang\x7d.html"
    [] ["proj"] demoProject ⟨.read "proj/manifest.json", by decide⟩
  ⟨h.1, h.2 { demoProject with dirs := ["proj", "proj/langs", "proj/outputs"] }
    demoLanguages demoLanguages "T"
    (by decide) (by decide) (by decide) (by decide) (by decide) (by decide) (by decide)
    (by decide)
    (by
      intro L hL
      simp only [demoLanguages, List.mem_cons, List.mem_singleton, List.not_mem_nil,
        or_false] at hL
      rcases hL with rfl | rfl
      · exact ⟨"Z", "Z", by decide, rfl⟩
      · exact ⟨"E", "E", by decide, rfl⟩)
    (by decide) (by decide)
    (by
      intro ctx _
      simp [demoLib])⟩


/-! ## The scaffold of `init` -/

/-- A successful `runInit` writes four files: the manifest, the index and the
two language files. -/
theorem runInit_written {T D : Type} (lib : Lib T D) (args : List String) (fs : FS)
    (hok : (runInit lib args fs).2.2 = .ok ()) :
    (runInit lib args fs).2.1 =
      [lib.join (projectDirOf args) "manifest.json",
        lib.join (lib.join (projectDirOf args) "langs") "index.json",
        lib.join (lib.join (projectDirOf args) "langs") "zh-CN.json",
        lib.join (lib.join (projectDirOf args) "langs") "en-US.json"] := by
  unfold runInit at hok ⊢
  simp only at hok ⊢
  split at hok
  · cases hok
  · split at hok
    · cases hok
    · split at hok
      · cases hok
      · split at hok
        · cases hok
        · split at hok
          · cases hok
          · split at hok
            · cases hok
            · rename_i h1 _ _ h2 _ _ h3 _ _ h4 _ _ h5 _ _ h6
              simp only [h1, h2, h3, h4, h5, h6]

/-- C10, the code at the failing input: `init proj` on a file system that holds
the empty directory `proj` succeeds and writes four files; the documented
`index.tmpl` is not among them and does not exist afterwards, so that a
following `gen proj` fails with the error of the missing template. -/
theorem init_scaffold_lacks_template :
    (runInit (demoLib demoLanguages (.error "absent") "") ["proj"] emptyProject).2.2 = .ok () ∧
    (runInit (demoLib demoLanguages (.error "absent") "") ["proj"] emptyProject).2.1
      = ["proj/manifest.json", "proj/langs/index.json", "proj/langs/zh-CN.json",
          "proj/langs/en-US.json"] ∧
    initDocumentedFiles.map
        (fun parts => parts.foldl (demoLib demoLanguages (.error "absent") "").join "proj")
      = ["proj/index.tmpl", "proj/manifest.json", "proj/langs/index.json",
          "proj/langs/zh-CN.json", "proj/langs/en-US.json"] ∧
    "proj/index.tmpl" ∉
      (runInit (demoLib demoLanguages (.error "absent") "") ["proj"] emptyProject).2.1 ∧
    (runInit (demoLib demoLanguages (.error "absent") "") ["proj"] emptyProject).1.notExist
      "proj/index.tmpl" = true ∧
    (runGen (demoLib demoLanguages (.error "absent") "") "\x7blang\x7d.html" [] ["proj"]
      (runInit (demoLib demoLanguages (.error "absent") "") ["proj"] emptyProject).1).2
      = .error (.templateMissing "proj/index.tmpl") := by
  decide


/-! ## The two forms of the language data -/

/-- The text `I18NJson` of a rendered context is what `json.Marshal` returns
for the mapping `I18N` of the same context, and that mapping is what the data
loader returned for the file of the language. -/
theorem context_json_of_data {T D : Type} (lib : Lib T D) (outputPattern : String)
    (tmpl : T) (currentLang : Language) (langLinks : GoMap Language)
    (langDir outputDir : String) (manifest : Manifest) (st : Run D) (ctx : TemplateData D)
    (hctx : (generateLanguageFileFromIndex lib outputPattern tmpl currentLang langLinks langDir
        outputDir manifest st).1.rendered = st.rendered ++ [ctx]) :
    loadLanguageDataFromFile lib st.fs langDir currentLang.File = .ok ctx.I18N ∧
      lib.marshal ctx.I18N = .ok ctx.I18NJson := by
  rcases generate_rendered lib outputPattern tmpl currentLang langLinks langDir outputDir
      manifest st with h | ⟨langData, i18nJson, hload, hm, h⟩
  · rw [h] at hctx
    exact absurd hctx (rendered_grows _ _)
  · rw [h] at hctx
    have hc := rendered_last _ _ _ hctx
    subst hc
    exact ⟨hload, hm⟩

/-! ## Strings of `encoding/json` -/

set_option maxRecDepth 100000 in
theorem hex4_escapeByte : ∀ n, n < 64 →
    hex4 '0' '0' (hexDigit (n / 16)) (hexDigit (n % 16)) = some n := by
  decide

theorem parseStringBody_unicode (a b c d : Char) (t : List Char) :
    parseStringBody none ('\\' :: 'u' :: a :: b :: c :: d :: t) =
      match hex4 a b c d with
      | none => none
      | some n =>
        if 0xdc00 ≤ n ∧ n < 0xe000 then consChar (Char.ofNat 0xfffd) (parseStringBody none t)
        else if 0xd800 ≤ n ∧ n < 0xdc00 then parseStringBody (some n) t
        else consChar (Char.ofNat n) (parseStringBody none t) := by
  rw [parseStringBody.eq_def]
  rfl

theorem parseStringBody_literal (c : Char) (t : List Char) (h1 : c ≠ '"') (h2 : c ≠ '\\')
    (h3 : ¬ c.toNat < 32) :
    parseStringBody none (c :: t) = consChar c (parseStringBody none t) := by
  rw [parseStringBody.eq_def]
  simp only [h1, h2, h3, if_false, flushPending]

theorem parseStringBody_quote (t : List Char) :
    parseStringBody none ('"' :: t) = some ([], t) := by
  rw [parseStringBody.eq_def]
  rfl

theorem parseStringBody_escapeByte (c : Char) (hc : c.toNat < 64) (t : List Char) :
    parseStringBody none (escapeByte c ++ t) = consChar c (parseStringBody none t) := by
  have h := hex4_escapeByte c.toNat hc
  have h1 : ¬ (0xdc00 ≤ c.toNat ∧ c.toNat < 0xe000) := by omega
  have h2 : ¬ (0xd800 ≤ c.toNat ∧ c.toNat < 0xdc00) := by omega
  show parseStringBody none ('\\' :: 'u' :: '0' :: '0' :: hexDigit (c.toNat / 16) ::
    hexDigit (c.toNat % 16) :: t) = _
  rw [parseStringBody_unicode, h]
  simp only [h1, h2, if_false, Char.ofNat_toNat]

theorem parseStringBody_renderChar (se : Bool) (c : Char) (t : List Char) :
    parseStringBody none (renderChar se c ++ t) = consChar c (parseStringBody none t) := by
  unfold renderChar
  by_cases h1 : c = '"'
  · subst h1; rw [if_pos rfl, parseStringBody.eq_def]; rfl
  rw [if_neg h1]
  by_cases h2 : c = '\\'
  · subst h2; rw [if_pos rfl, parseStringBody.eq_def]; rfl
  rw [if_neg h2]
  by_cases h3 : c = '\n'
  · subst h3; rw [if_pos rfl, parseStringBody.eq_def]; rfl
  rw [if_neg h3]
  by_cases h4 : c = '\r'
  · subst h4; rw [if_pos rfl, parseStringBody.eq_def]; rfl
  rw [if_neg h4]
  by_cases h5 : c = '\t'
  · subst h5; rw [if_pos rfl, parseStringBody.eq_def]; rfl
  rw [if_neg h5]
  by_cases h6 : c = Char.ofNat 8 ∧ se = true
  · rw [if_pos h6, h6.1, parseStringBody.eq_def]; rfl
  rw [if_neg h6]
  by_cases h7 : c = Char.ofNat 12 ∧ se = true
  · rw [if_pos h7, h7.1, parseStringBody.eq_def]; rfl
  rw [if_neg h7]
  by_cases h8 : c.toNat < 32
  · rw [if_pos h8]
    exact parseStringBody_escapeByte c (by omega) t
  rw [if_neg h8]
  by_cases h9 : c = '<' ∨ c = '>' ∨ c = '&'
  · rw [if_pos h9]
    apply parseStringBody_escapeByte
    rcases h9 with h | h | h <;> subst h <;> decide
  rw [if_neg h9]
  by_cases h10 : c = Char.ofNat 0x2028
  · subst h10
    rw [if_pos rfl]
    show parseStringBody none ('\\' :: 'u' :: '2' :: '0' :: '2' :: '8' :: t) = _
    rw [parseStringBody_unicode]; rfl
  rw [if_neg h10]
  by_cases h11 : c = Char.ofNat 0x2029
  · subst h11
    rw [if_pos rfl]
    show parseStringBody none ('\\' :: 'u' :: '2' :: '0' :: '2' :: '9' :: t) = _
    rw [parseStringBody_unicode]; rfl
  rw [if_neg h11]
  exact parseStringBody_literal c t h1 h2 h8

theorem parseStringBody_render (se : Bool) (s rest : List Char) :
    parseStringBody none (s.flatMap (renderChar se) ++ '"' :: rest) = some (s, rest) := by
  induction s with
  | nil => exact parseStringBody_quote rest
  | cons c s ih =>
    rw [List.flatMap_cons, List.append_assoc, parseStringBody_renderChar, ih]
    rfl

/-! ## Maps of `encoding/json` -/

theorem keyLt_irrefl : ∀ s : List Char, keyLt s s = false
  | [] => rfl
  | a :: s => by simp [keyLt, keyLt_irrefl s]

theorem keyLt_trans : ∀ a b c : List Char, keyLt a b = true → keyLt b c = true →
    keyLt a c = true
  | [], [], _, h, _ => by simp [keyLt] at h
  | [], _ :: _, [], _, h => by simp [keyLt] at h
  | [], _ :: _, _ :: _, _, _ => rfl
  | _ :: _, [], _, h, _ => by simp [keyLt] at h
  | _ :: _, _ :: _, [], _, h => by simp [keyLt] at h
  | x :: a, y :: b, z :: c, h1, h2 => by
    simp only [keyLt] at h1 h2 ⊢
    by_cases hxy : x.toNat < y.toNat
    · by_cases hyz : y.toNat < z.toNat
      · have : x.toNat < z.toNat := by omega
        simp [this]
      · simp only [hyz, if_false] at h2
        by_cases hyz1 : y = z
        · subst hyz1; simp [hxy]
        · simp [hyz1] at h2
    · simp only [hxy, if_false] at h1
      by_cases hxy1 : x = y
      · subst hxy1
        simp only [if_true] at h1
        by_cases hxz : x.toNat < z.toNat
        · simp [hxz]
        · simp only [hxz, if_false] at h2 ⊢
          by_cases hxz1 : x = z
          · simp only [hxz1, if_true] at h2 ⊢
            exact keyLt_trans a b c h1 h2
          · simp [hxz1] at h2
      · simp [hxy1] at h1

theorem keyLt_total : ∀ a b : List Char, keyLt a b = false → a ≠ b → keyLt b a = true
  | [], [], _, h => absurd rfl h
  | [], _ :: _, h, _ => by simp [keyLt] at h
  | _ :: _, [], _, _ => rfl
  | x :: a, y :: b, h1, h2 => by
    simp only [keyLt] at h1 ⊢
    by_cases hxy : x.toNat < y.toNat
    · simp [hxy] at h1
    · simp only [hxy, if_false] at h1
      by_cases hxy1 : x = y
      · subst hxy1
        simp only [if_true, lt_self_iff_false, if_false] at h1 ⊢
        exact keyLt_total a b h1 (fun e => h2 (by rw [e]))
      · have hne : x.toNat ≠ y.toNat := by
          intro e
          apply hxy1
          rw [← Char.ofNat_toNat x, ← Char.ofNat_toNat y, e]
        have : y.toNat < x.toNat := by omega
        simp [this]

theorem KeyLt.key_trans {a b c : String} (h1 : KeyLt a b) (h2 : KeyLt b c) : KeyLt a c :=
  keyLt_trans _ _ _ h1 h2

theorem KeyLt.key_ne {a b : String} (h : KeyLt a b) : b ≠ a := by
  intro e
  rw [e] at h
  have := keyLt_irrefl a.data
  simp [KeyLt, this] at h

theorem KeyLt.key_asymm {a b : String} (h : KeyLt a b) : ¬ keyLt b.data a.data = true := by
  intro h1
  have := keyLt_trans _ _ _ h h1
  rw [keyLt_irrefl] at this
  cases this

theorem KeyLt.key_total {a b : String} (h : ¬ keyLt a.data b.data = true) (hne : ¬ a = b) :
    KeyLt b a :=
  keyLt_total _ _ (by simpa using h) (fun e => hne (String.ext e))

theorem JFields.append_nil {N : Type} : ∀ xs : JFields N, xs.append .nil = xs
  | .nil => rfl
  | .cons k v rest => by simp only [JFields.append, JFields.append_nil rest]

theorem JFields.append_assoc {N : Type} (ys zs : JFields N) :
    ∀ xs : JFields N, (xs.append ys).append zs = xs.append (ys.append zs)
  | .nil => rfl
  | .cons k v rest => by simp only [JFields.append, JFields.append_assoc ys zs rest]

theorem JFields.keys_append {N : Type} (ys : JFields N) :
    ∀ xs : JFields N, (xs.append ys).keys = xs.keys ++ ys.keys
  | .nil => rfl
  | .cons k v rest => by
    simp only [JFields.append, JFields.keys, JFields.keys_append ys rest, List.cons_append]

theorem JFields.insert_last {N : Type} (k : String) (v : JVal N) :
    ∀ acc : JFields N, (∀ k1 ∈ acc.keys, KeyLt k1 k) →
      acc.insert k v = acc.append (.cons k v .nil)
  | .nil, _ => rfl
  | .cons k1 v1 rest, h => by
    have hk : KeyLt k1 k := h k1 (by simp [JFields.keys])
    have h1 : ¬ keyLt k.data k1.data = true := hk.key_asymm
    have h2 : ¬ k = k1 := hk.key_ne
    simp only [JFields.insert, h1, h2, Bool.false_eq_true, if_false, JFields.append]
    rw [JFields.insert_last k v rest (fun k2 hk2 => h k2 (by simp [JFields.keys, hk2]))]

/-- Entries in strictly increasing order of the keys, assigned one by one to a
map, give the map that holds them in this order. -/
theorem JFields.build_sorted {N : Type} :
    ∀ (fs acc : JFields N), (acc.append fs).keys.Pairwise KeyLt →
      JFields.build acc fs = acc.append fs
  | .nil, acc, _ => by rw [JFields.build, JFields.append_nil]
  | .cons k v rest, acc, h => by
    rw [JFields.build]
    have hlast : ∀ k1 ∈ acc.keys, KeyLt k1 k := by
      intro k1 hk1
      rw [JFields.keys_append, List.pairwise_append] at h
      exact h.2.2 k1 hk1 k (by simp [JFields.keys])
    rw [JFields.insert_last k v acc hlast, JFields.build_sorted rest]
    · rw [JFields.append_assoc]; rfl
    · rw [JFields.append_assoc]; exact h

theorem JFields.mem_keys_insert {N : Type} (k : String) (v : JVal N) (k1 : String) :
    ∀ fs : JFields N, k1 ∈ (fs.insert k v).keys → k1 = k ∨ k1 ∈ fs.keys
  | .nil, h => by simpa [JFields.insert, JFields.keys] using h
  | .cons k2 v2 rest, h => by
    simp only [JFields.insert] at h
    split at h
    · simpa [JFields.keys] using h
    · split at h
      · simp only [JFields.keys, List.mem_cons] at h ⊢
        tauto
      · simp only [JFields.keys, List.mem_cons] at h ⊢
        rcases h with h | h
        · exact Or.inr (Or.inl h)
        · rcases JFields.mem_keys_insert k v k1 rest h with h1 | h1
          · exact Or.inl h1
          · exact Or.inr (Or.inr h1)

theorem JFields.insert_pairwise {N : Type} (k : String) (v : JVal N) :
    ∀ fs : JFields N, fs.keys.Pairwise KeyLt → (fs.insert k v).keys.Pairwise KeyLt
  | .nil, _ => by simp [JFields.insert, JFields.keys]
  | .cons k2 v2 rest, h => by
    simp only [JFields.keys, List.pairwise_cons] at h
    simp only [JFields.insert]
    split
    · rename_i hlt
      simp only [JFields.keys, List.pairwise_cons, List.mem_cons]
      refine ⟨?_, h.1, h.2⟩
      rintro k3 (h3 | h3)
      · rw [h3]; exact hlt
      · exact KeyLt.key_trans hlt (h.1 k3 h3)
    · split
      · rename_i heq
        simp only [JFields.keys, List.pairwise_cons]
        exact ⟨heq ▸ h.1, h.2⟩
      · rename_i hnlt hne
        have hgt : KeyLt k2 k := KeyLt.key_total hnlt hne
        simp only [JFields.keys, List.pairwise_cons]
        refine ⟨?_, JFields.insert_pairwise k v rest h.2⟩
        intro k3 h3
        rcases JFields.mem_keys_insert k v k3 rest h3 with h4 | h4
        · rw [h4]; exact hgt
        · exact h.1 k3 h4

theorem JFields.build_pairwise {N : Type} :
    ∀ (raw acc : JFields N), acc.keys.Pairwise KeyLt →
      (JFields.build acc raw).keys.Pairwise KeyLt
  | .nil, _, h => h
  | .cons k v rest, acc, h => by
    rw [JFields.build]
    exact JFields.build_pairwise rest _ (JFields.insert_pairwise k v acc h)

theorem JFields.insert_canonical {N : Type} (k : String) (v : JVal N) (hv : v.Canonical) :
    ∀ fs : JFields N, fs.Canonical → (fs.insert k v).Canonical
  | .nil, _ => by simp only [JFields.insert, JFields.Canonical]; exact ⟨hv, trivial⟩
  | .cons k2 v2 rest, h => by
    simp only [JFields.Canonical] at h
    simp only [JFields.insert]
    split
    · simp only [JFields.Canonical]; exact ⟨hv, h.1, h.2⟩
    · split
      · simp only [JFields.Canonical]; exact ⟨hv, h.2⟩
      · simp only [JFields.Canonical]; exact ⟨h.1, JFields.insert_canonical k v hv rest h.2⟩

theorem JFields.build_canonical {N : Type} :
    ∀ (raw acc : JFields N), raw.Canonical → acc.Canonical →
      (JFields.build acc raw).Canonical
  | .nil, _, _, h => h
  | .cons k v rest, acc, hraw, h => by
    simp only [JFields.Canonical] at hraw
    rw [JFields.build]
    exact JFields.build_canonical rest _ hraw.2 (JFields.insert_canonical k v hraw.1 acc h)

theorem JFields.insert_finite {N : Type} (codec : JsonCodec N) (k : String) (v : JVal N)
    (hv : v.finite codec = true) :
    ∀ fs : JFields N, fs.finite codec = true → (fs.insert k v).finite codec = true
  | .nil, _ => by simp only [JFields.insert, JFields.finite, hv, Bool.and_self]
  | .cons k2 v2 rest, h => by
    simp only [JFields.finite, Bool.and_eq_true] at h
    simp only [JFields.insert]
    split
    · simp only [JFields.finite, hv, h.1, h.2, Bool.and_self]
    · split
      · simp only [JFields.finite, hv, h.2, Bool.and_self]
      · simp only [JFields.finite, h.1, JFields.insert_finite codec k v hv rest h.2,
          Bool.and_self]

theorem JFields.build_finite {N : Type} (codec : JsonCodec N) :
    ∀ (raw acc : JFields N), raw.finite codec = true → acc.finite codec = true →
      (JFields.build acc raw).finite codec = true
  | .nil, _, _, h => h
  | .cons k v rest, acc, hraw, h => by
    simp only [JFields.finite, Bool.and_eq_true] at hraw
    rw [JFields.build]
    exact JFields.build_finite codec rest _ hraw.2 (JFields.insert_finite codec k v hraw.1 acc h)

/-! ## The decoder on the text of the encoder -/

theorem ValueStart.not_space {c : Char} (h : ValueStart c) : isSpace c = false := by
  rcases h with h | h | h | h | h | h | h | h
  iterate 7 (subst h; decide)
  · simp only [Char.isDigit, Bool.and_eq_true, decide_eq_true_eq] at h
    simp only [isSpace, Bool.or_eq_false_iff, decide_eq_false_iff_not]
    refine ⟨⟨⟨?_, ?_⟩, ?_⟩, ?_⟩ <;> intro e <;> subst e <;> revert h <;> decide

theorem ValueStart.not_close {c : Char} (h : ValueStart c) :
    c ≠ ']' ∧ c ≠ '}' ∧ c ≠ ',' := by
  rcases h with h | h | h | h | h | h | h | h
  iterate 7 (subst h; decide)
  · simp only [Char.isDigit, Bool.and_eq_true, decide_eq_true_eq] at h
    refine ⟨?_, ?_, ?_⟩ <;> intro e <;> subst e <;> revert h <;> decide

theorem skipSpace_cons {c : Char} (t : List Char) (h : isSpace c = false) :
    skipSpace (c :: t) = c :: t := by
  simp [skipSpace, List.dropWhile, h]

theorem renderString_eq (se : Bool) (s : String) (rest : List Char) :
    renderString se s ++ rest = '"' :: (s.data.flatMap (renderChar se) ++ '"' :: rest) := by
  simp [renderString]

theorem JVal.renderValue_head {N : Type} (codec : JsonCodec N) (hc : codec.Lawful) :
    ∀ v : JVal N, v.finite codec = true → ∃ c t, v.render codec = c :: t ∧ ValueStart c
  | .null, _ => ⟨'n', _, rfl, Or.inl rfl⟩
  | .bool true, _ => ⟨'t', _, rfl, Or.inr (Or.inl rfl)⟩
  | .bool false, _ => ⟨'f', _, rfl, Or.inr (Or.inr (Or.inl rfl))⟩
  | .num x, h => by
    obtain ⟨c, t, h1, h2⟩ := hc.format_head x (by simpa [JVal.finite] using h)
    refine ⟨c, t, by simp [JVal.render, h1], ?_⟩
    rcases h2 with h2 | h2
    · exact Or.inr (Or.inr (Or.inr (Or.inr (Or.inr (Or.inr (Or.inl h2))))))
    · exact Or.inr (Or.inr (Or.inr (Or.inr (Or.inr (Or.inr (Or.inr h2))))))
  | .str s, _ =>
    ⟨'"', s.data.flatMap (renderChar codec.shortEscapes) ++ ['"'],
      by rw [JVal.render]; rfl, Or.inr (Or.inr (Or.inr (Or.inl rfl)))⟩
  | .arr items, _ =>
    ⟨'[', items.render codec true, by rw [JVal.render],
      Or.inr (Or.inr (Or.inr (Or.inr (Or.inl rfl))))⟩
  | .obj fields, _ =>
    ⟨'{', fields.render codec true, by rw [JVal.render],
      Or.inr (Or.inr (Or.inr (Or.inr (Or.inr (Or.inl rfl)))))⟩

theorem JItems.renderItems_head {N : Type} (codec : JsonCodec N) :
    ∀ items : JItems N, ∃ t, items.render codec false = ']' :: t ∨ items.render codec false = ',' :: t
  | .nil => ⟨[], Or.inl rfl⟩
  | .cons v rest => ⟨_, Or.inr (by rw [JItems.render])⟩

theorem JFields.renderFields_head {N : Type} (codec : JsonCodec N) :
    ∀ fields : JFields N,
      ∃ t, fields.render codec false = '}' :: t ∨ fields.render codec false = ',' :: t
  | .nil => ⟨[], Or.inl rfl⟩
  | .cons k v rest => ⟨_, Or.inr (by rw [JFields.render])⟩

theorem parseValue_null {N : Type} (codec : JsonCodec N) (fuel : Nat) (r : List Char) :
    parseValue codec (fuel + 1) ('n' :: 'u' :: 'l' :: 'l' :: r) = some (.null, r) := by
  rw [parseValue.eq_def]; rfl

theorem parseValue_true {N : Type} (codec : JsonCodec N) (fuel : Nat) (r : List Char) :
    parseValue codec (fuel + 1) ('t' :: 'r' :: 'u' :: 'e' :: r) = some (.bool true, r) := by
  rw [parseValue.eq_def]; rfl

theorem parseValue_false {N : Type} (codec : JsonCodec N) (fuel : Nat) (r : List Char) :
    parseValue codec (fuel + 1) ('f' :: 'a' :: 'l' :: 's' :: 'e' :: r)
      = some (.bool false, r) := by
  rw [parseValue.eq_def]; rfl

theorem parseValue_string {N : Type} (codec : JsonCodec N) (fuel : Nat) (t : List Char) :
    parseValue codec (fuel + 1) ('"' :: t) =
      match parseStringBody none t with
      | some (chars, r) => some (.str ⟨chars⟩, r)
      | none => none := by
  rw [parseValue.eq_def]; rfl

theorem parseValue_array {N : Type} (codec : JsonCodec N) (fuel : Nat) (t : List Char) :
    parseValue codec (fuel + 1) ('[' :: t) =
      match parseItems codec fuel true t with
      | some (items, r) => some (.arr items, r)
      | none => none := by
  rw [parseValue.eq_def]; rfl

theorem parseValue_object {N : Type} (codec : JsonCodec N) (fuel : Nat) (t : List Char) :
    parseValue codec (fuel + 1) ('{' :: t) =
      match parseFields codec fuel true t with
      | some (raw, r) => some (.obj (JFields.build .nil raw), r)
      | none => none := by
  rw [parseValue.eq_def]; rfl

theorem parseValue_number {N : Type} (codec : JsonCodec N) (fuel : Nat) (c : Char)
    (t : List Char) (h : c = '-' ∨ c.isDigit = true) :
    parseValue codec (fuel + 1) (c :: t) =
      match codec.parse ((c :: t).takeWhile isNumberChar) with
      | some x => some (.num x, (c :: t).dropWhile isNumberChar)
      | none => none := by
  have h1 : c ≠ 'n' ∧ c ≠ 't' ∧ c ≠ 'f' ∧ c ≠ '"' ∧ c ≠ '[' ∧ c ≠ '{' := by
    rcases h with h | h
    · subst h; decide
    · simp only [Char.isDigit, Bool.and_eq_true, decide_eq_true_eq] at h
      refine ⟨?_, ?_, ?_, ?_, ?_, ?_⟩ <;> intro e <;> subst e <;> revert h <;> decide
  have h2 : (c = '-' || c.isDigit) = true := by
    rcases h with h | h
    · simp [h]
    · simp [h]
  rw [parseValue.eq_def]
  simp only [h1.1, h1.2.1, h1.2.2.1, h1.2.2.2.1, h1.2.2.2.2.1, h1.2.2.2.2.2, if_false, h2,
    if_true]

theorem parseItems_close {N : Type} (codec : JsonCodec N) (fuel : Nat) (first : Bool)
    (s t : List Char) (hs : skipSpace s = ']' :: t) :
    parseItems codec (fuel + 1) first s = some (.nil, t) := by
  rw [parseItems.eq_def]
  simp only [hs, if_true]

theorem parseItems_first {N : Type} (codec : JsonCodec N) (fuel : Nat) (s : List Char)
    (c : Char) (t r r1 : List Char) (v : JVal N) (rest : JItems N)
    (hs : skipSpace s = c :: t) (hc : c ≠ ']')
    (hv : parseValue codec fuel (c :: t) = some (v, r))
    (hrest : parseItems codec fuel false r = some (rest, r1)) :
    parseItems codec (fuel + 1) true s = some (.cons v rest, r1) := by
  rw [parseItems.eq_def]
  simp only [hs, hc, if_false, if_true, hv, hrest]

theorem parseItems_next {N : Type} (codec : JsonCodec N) (fuel : Nat) (s : List Char)
    (t r r1 : List Char) (v : JVal N) (rest : JItems N)
    (hs : skipSpace s = ',' :: t)
    (hv : parseValue codec fuel (skipSpace t) = some (v, r))
    (hrest : parseItems codec fuel false r = some (rest, r1)) :
    parseItems codec (fuel + 1) false s = some (.cons v rest, r1) := by
  have hc : ¬ ',' = ']' := by decide
  rw [parseItems.eq_def]
  simp only [hs, hc, if_false, if_true, Bool.false_eq_true, hv, hrest]

theorem parseFields_close {N : Type} (codec : JsonCodec N) (fuel : Nat) (first : Bool)
    (s t : List Char) (hs : skipSpace s = '}' :: t) :
    parseFields codec (fuel + 1) first s = some (.nil, t) := by
  rw [parseFields.eq_def]
  simp only [hs, if_true]

theorem parseFields_first {N : Type} (codec : JsonCodec N) (fuel : Nat) (s : List Char)
    (t r r1 r2 r3 : List Char) (key : List Char) (v : JVal N) (rest : JFields N)
    (hs : skipSpace s = '"' :: t)
    (hk : parseStringBody none t = some (key, r))
    (hcolon : skipSpace r = ':' :: r1)
    (hv : parseValue codec fuel (skipSpace r1) = some (v, r2))
    (hrest : parseFields codec fuel false r2 = some (rest, r3)) :
    parseFields codec (fuel + 1) true s = some (.cons ⟨key⟩ v rest, r3) := by
  have hc : ¬ '"' = '}' := by decide
  rw [parseFields.eq_def]
  simp only [hs, hc, if_false, if_true, hk, hcolon, hv, hrest]

theorem parseFields_next {N : Type} (codec : JsonCodec N) (fuel : Nat) (s : List Char)
    (t0 t r r1 r2 r3 : List Char) (key : List Char) (v : JVal N) (rest : JFields N)
    (hs : skipSpace s = ',' :: t0) (ht : skipSpace t0 = '"' :: t)
    (hk : parseStringBody none t = some (key, r))
    (hcolon : skipSpace r = ':' :: r1)
    (hv : parseValue codec fuel (skipSpace r1) = some (v, r2))
    (hrest : parseFields codec fuel false r2 = some (rest, r3)) :
    parseFields codec (fuel + 1) false s = some (.cons ⟨key⟩ v rest, r3) := by
  have hc : ¬ ',' = '}' := by decide
  rw [parseFields.eq_def]
  simp only [hs, hc, if_false, if_true, Bool.false_eq_true, ht, hk, hcolon, hv, hrest]

theorem takeWhile_number {N : Type} (codec : JsonCodec N) (hc : codec.Lawful) (x : N)
    (hx : codec.finite x = true)
    (rest : List Char) (hrest : ∀ c t, rest = c :: t → isNumberChar c = false) :
    (codec.format x ++ rest).takeWhile isNumberChar = codec.format x ∧
    (codec.format x ++ rest).dropWhile isNumberChar = rest := by
  have hall := hc.format_chars x hx
  generalize codec.format x = l at hall
  induction l with
  | nil =>
    cases rest with
    | nil => simp
    | cons c t => simp [List.takeWhile, List.dropWhile, hrest c t rfl]
  | cons a l ih =>
    have ha : isNumberChar a = true := hall a (List.mem_cons_self _ _)
    have ih1 := ih (fun c hc => hall c (List.mem_cons_of_mem _ hc))
    rw [List.cons_append, List.takeWhile_cons, List.dropWhile_cons]
    simp only [ha, if_true, ih1.1, ih1.2, and_self]

theorem JVal.renderValue_pos {N : Type} (codec : JsonCodec N) (hc : codec.Lawful) (v : JVal N)
    (h : v.finite codec = true) : 1 ≤ (v.render codec).length := by
  obtain ⟨c, t, hr, _⟩ := JVal.renderValue_head codec hc v h
  rw [hr]; simp

theorem JItems.renderItems_pos {N : Type} (codec : JsonCodec N) :
    ∀ (items : JItems N) (first : Bool), 1 ≤ (items.render codec first).length
  | .nil, _ => by simp [JItems.render]
  | .cons v rest, true => by
    have := JItems.renderItems_pos codec rest false
    rw [JItems.render, List.length_append]; omega
  | .cons v rest, false => by rw [JItems.render]; simp

theorem JFields.renderFields_pos {N : Type} (codec : JsonCodec N) :
    ∀ (fields : JFields N) (first : Bool), 1 ≤ (fields.render codec first).length
  | .nil, _ => by simp [JFields.render]
  | .cons k v rest, true => by rw [JFields.render, renderString]; simp
  | .cons k v rest, false => by rw [JFields.render]; simp

theorem not_number_of_head (rest t : List Char)
    (h : rest = ']' :: t ∨ rest = ',' :: t ∨ rest = '}' :: t) :
    ∀ c t1, rest = c :: t1 → isNumberChar c = false := by
  intro c t1 hc
  rcases h with h | h | h <;> rw [h] at hc <;> cases hc <;> decide

mutual
/-- The decoder reads the text of a value back to the value. -/
theorem parseValue_render {N : Type} (codec : JsonCodec N) (hc : codec.Lawful) :
    ∀ (v : JVal N), v.finite codec = true → v.Canonical →
      ∀ (fuel : Nat) (rest : List Char), (v.render codec).length ≤ fuel →
        (∀ c t, rest = c :: t → isNumberChar c = false) →
        parseValue codec fuel (v.render codec ++ rest) = some (v, rest)
  | .null, _, _, fuel, rest, hf, _ => by
    cases fuel with
    | zero => simp [JVal.render] at hf
    | succ f => exact parseValue_null codec f rest
  | .bool true, _, _, fuel, rest, hf, _ => by
    cases fuel with
    | zero => simp [JVal.render] at hf
    | succ f => exact parseValue_true codec f rest
  | .bool false, _, _, fuel, rest, hf, _ => by
    cases fuel with
    | zero => simp [JVal.render] at hf
    | succ f => exact parseValue_false codec f rest
  | .num x, hfin, _, fuel, rest, hf, hrest => by
    have hx : codec.finite x = true := by simpa [JVal.finite] using hfin
    cases fuel with
    | zero =>
      have := JVal.renderValue_pos codec hc (.num x) hfin
      omega
    | succ f =>
      obtain ⟨c, t, h1, h2⟩ := hc.format_head x hx
      have htd := takeWhile_number codec hc x hx rest hrest
      have hr : (JVal.num x).render codec = codec.format x := by rw [JVal.render]
      rw [hr]
      have hstep : parseValue codec (f + 1) (codec.format x ++ rest) =
          match codec.parse ((codec.format x ++ rest).takeWhile isNumberChar) with
          | some y => some (.num y, (codec.format x ++ rest).dropWhile isNumberChar)
          | none => none := by
        rw [h1, List.cons_append]
        exact parseValue_number codec f c (t ++ rest) h2
      rw [hstep, htd.1, htd.2, hc.parse_format x hx]
  | .str s, _, _, fuel, rest, hf, _ => by
    cases fuel with
    | zero => simp [JVal.render, renderString] at hf
    | succ f =>
      rw [JVal.render, renderString_eq, parseValue_string, parseStringBody_render]
  | .arr items, hfin, hcan, fuel, rest, hf, _ => by
    cases fuel with
    | zero => simp [JVal.render] at hf
    | succ f =>
      rw [JVal.render] at hf ⊢
      rw [List.cons_append, parseValue_array,
        parseItems_render codec hc items true (by simpa [JVal.finite] using hfin)
          (by simpa [JVal.Canonical] using hcan) f rest (by simpa using hf)]
  | .obj fields, hfin, hcan, fuel, rest, hf, _ => by
    cases fuel with
    | zero => simp [JVal.render] at hf
    | succ f =>
      have hcan1 : fields.keys.Pairwise KeyLt ∧ fields.Canonical := by
        simpa [JVal.Canonical] using hcan
      rw [JVal.render] at hf ⊢
      rw [List.cons_append, parseValue_object,
        parseFields_render codec hc fields true (by simpa [JVal.finite] using hfin)
          hcan1.2 f rest (by simpa using hf)]
      simp only
      rw [JFields.build_sorted fields .nil (by simpa [JFields.append] using hcan1.1)]
      rfl
/-- The decoder reads the text of the elements of an array back to them. -/
theorem parseItems_render {N : Type} (codec : JsonCodec N) (hc : codec.Lawful) :
    ∀ (items : JItems N) (first : Bool), items.finite codec = true → items.Canonical →
      ∀ (fuel : Nat) (rest : List Char), (items.render codec first).length ≤ fuel →
        parseItems codec fuel first (items.render codec first ++ rest) = some (items, rest)
  | .nil, first, _, _, fuel, rest, hf => by
    cases fuel with
    | zero => simp [JItems.render] at hf
    | succ f =>
      apply parseItems_close
      rw [JItems.render]
      exact skipSpace_cons _ (by decide)
  | .cons v tail, true, hfin, hcan, fuel, rest, hf => by
    have hfin1 : v.finite codec = true ∧ tail.finite codec = true := by
      simpa [JItems.finite] using hfin
    have hcan1 : v.Canonical ∧ tail.Canonical := by simpa [JItems.Canonical] using hcan
    obtain ⟨c, t, hr, hstart⟩ := JVal.renderValue_head codec hc v hfin1.1
    have hpos := JItems.renderItems_pos codec tail false
    have hvpos := JVal.renderValue_pos codec hc v hfin1.1
    cases fuel with
    | zero =>
      rw [JItems.render, List.length_append] at hf
      omega
    | succ f =>
      rw [JItems.render, List.length_append] at hf
      rw [JItems.render, List.append_assoc]
      have hs : skipSpace (v.render codec ++ (tail.render codec false ++ rest))
          = c :: (t ++ (tail.render codec false ++ rest)) := by
        rw [hr, List.cons_append]
        exact skipSpace_cons _ hstart.not_space
      obtain ⟨t1, ht1⟩ := JItems.renderItems_head codec tail
      apply parseItems_first codec f _ c _ (tail.render codec false ++ rest) rest v tail hs
        hstart.not_close.1
      · rw [← List.cons_append, ← hr]
        apply parseValue_render codec hc v hfin1.1 hcan1.1 f _ (by omega)
        apply not_number_of_head _ (t1 ++ rest)
        rcases ht1 with h | h
        · left; rw [h]; rfl
        · right; left; rw [h]; rfl
      · exact parseItems_render codec hc tail false hfin1.2 hcan1.2 f rest (by omega)
  | .cons v tail, false, hfin, hcan, fuel, rest, hf => by
    have hfin1 : v.finite codec = true ∧ tail.finite codec = true := by
      simpa [JItems.finite] using hfin
    have hcan1 : v.Canonical ∧ tail.Canonical := by simpa [JItems.Canonical] using hcan
    obtain ⟨c, t, hr, hstart⟩ := JVal.renderValue_head codec hc v hfin1.1
    have hpos := JItems.renderItems_pos codec tail false
    cases fuel with
    | zero => simp [JItems.render] at hf
    | succ f =>
      rw [JItems.render, List.length_cons, List.length_append] at hf
      rw [JItems.render, List.cons_append, List.append_assoc]
      obtain ⟨t1, ht1⟩ := JItems.renderItems_head codec tail
      apply parseItems_next codec f _ (v.render codec ++ (tail.render codec false ++ rest))
        (tail.render codec false ++ rest) rest v tail (skipSpace_cons _ (by decide))
      · have hs : skipSpace (v.render codec ++ (tail.render codec false ++ rest))
            = v.render codec ++ (tail.render codec false ++ rest) := by
          rw [hr, List.cons_append]
          exact skipSpace_cons _ hstart.not_space
        rw [hs]
        apply parseValue_render codec hc v hfin1.1 hcan1.1 f _ (by omega)
        apply not_number_of_head _ (t1 ++ rest)
        rcases ht1 with h | h
        · left; rw [h]; rfl
        · right; left; rw [h]; rfl
      · exact parseItems_render codec hc tail false hfin1.2 hcan1.2 f rest (by omega)
/-- The decoder reads the text of the entries of a map back to them. -/
theorem parseFields_render {N : Type} (codec : JsonCodec N) (hc : codec.Lawful) :
    ∀ (fields : JFields N) (first : Bool), fields.finite codec = true → fields.Canonical →
      ∀ (fuel : Nat) (rest : List Char), (fields.render codec first).length ≤ fuel →
        parseFields codec fuel first (fields.render codec first ++ rest) = some (fields, rest)
  | .nil, first, _, _, fuel, rest, hf => by
    cases fuel with
    | zero => simp [JFields.render] at hf
    | succ f =>
      apply parseFields_close
      rw [JFields.render]
      exact skipSpace_cons _ (by decide)
  | .cons k v tail, true, hfin, hcan, fuel, rest, hf => by
    have hfin1 : v.finite codec = true ∧ tail.finite codec = true := by
      simpa [JFields.finite] using hfin
    have hcan1 : v.Canonical ∧ tail.Canonical := by simpa [JFields.Canonical] using hcan
    obtain ⟨c, t, hr, hstart⟩ := JVal.renderValue_head codec hc v hfin1.1
    have hpos := JFields.renderFields_pos codec tail false
    cases fuel with
    | zero => simp [JFields.render, renderString] at hf
    | succ f =>
      rw [JFields.render, List.length_append, List.length_cons, List.length_append] at hf
      rw [JFields.render, List.append_assoc, renderString_eq, List.cons_append,
        List.append_assoc]
      obtain ⟨t1, ht1⟩ := JFields.renderFields_head codec tail
      have hs : skipSpace (v.render codec ++ (tail.render codec false ++ rest))
          = v.render codec ++ (tail.render codec false ++ rest) := by
        rw [hr, List.cons_append]
        exact skipSpace_cons _ hstart.not_space
      apply parseFields_first codec f _ _ _ _ (tail.render codec false ++ rest) rest k.data v
        tail (skipSpace_cons _ (by decide)) (parseStringBody_render _ _ _)
        (skipSpace_cons _ (by decide))
      · rw [hs]
        apply parseValue_render codec hc v hfin1.1 hcan1.1 f _ (by omega)
        apply not_number_of_head _ (t1 ++ rest)
        rcases ht1 with h | h
        · right; right; rw [h]; rfl
        · right; left; rw [h]; rfl
      · exact parseFields_render codec hc tail false hfin1.2 hcan1.2 f rest (by omega)
  | .cons k v tail, false, hfin, hcan, fuel, rest, hf => by
    have hfin1 : v.finite codec = true ∧ tail.finite codec = true := by
      simpa [JFields.finite] using hfin
    have hcan1 : v.Canonical ∧ tail.Canonical := by simpa [JFields.Canonical] using hcan
    obtain ⟨c, t, hr, hstart⟩ := JVal.renderValue_head codec hc v hfin1.1
    have hpos := JFields.renderFields_pos codec tail false
    cases fuel with
    | zero => simp [JFields.render] at hf
    | succ f =>
      rw [JFields.render, List.length_cons, List.length_append, List.length_cons,
        List.length_append] at hf
      rw [JFields.render, List.cons_append, List.append_assoc, renderString_eq,
        List.cons_append, List.append_assoc]
      obtain ⟨t1, ht1⟩ := JFields.renderFields_head codec tail
      have hs : skipSpace (v.render codec ++ (tail.render codec false ++ rest))
          = v.render codec ++ (tail.render codec false ++ rest) := by
        rw [hr, List.cons_append]
        exact skipSpace_cons _ hstart.not_space
      apply parseFields_next codec f _ _ _ _ _ (tail.render codec false ++ rest) rest k.data v
        tail (skipSpace_cons _ (by decide)) (skipSpace_cons _ (by decide))
        (parseStringBody_render _ _ _) (skipSpace_cons _ (by decide))
      · rw [hs]
        apply parseValue_render codec hc v hfin1.1 hcan1.1 f _ (by omega)
        apply not_number_of_head _ (t1 ++ rest)
        rcases ht1 with h | h
        · right; right; rw [h]; rfl
        · right; left; rw [h]; rfl
      · exact parseFields_render codec hc tail false hfin1.2 hcan1.2 f rest (by omega)
end

/-! ## What the decoder returns -/

theorem parseValue_zero {N : Type} (codec : JsonCodec N) (s : List Char) :
    parseValue codec 0 s = none := by
  rw [parseValue.eq_def]

theorem parseItems_zero {N : Type} (codec : JsonCodec N) (first : Bool) (s : List Char) :
    parseItems codec 0 first s = none := by
  rw [parseItems.eq_def]

theorem parseFields_zero {N : Type} (codec : JsonCodec N) (first : Bool) (s : List Char) :
    parseFields codec 0 first s = none := by
  rw [parseFields.eq_def]

/-- Every value that the decoder returns has finite floats only and its maps in
canonical form. -/
theorem parse_sound {N : Type} (codec : JsonCodec N) (hc : codec.Lawful) : ∀ fuel : Nat,
    (∀ s v r, parseValue codec fuel s = some (v, r) → v.finite codec = true ∧ v.Canonical) ∧
    (∀ first s items r, parseItems codec fuel first s = some (items, r) →
      items.finite codec = true ∧ items.Canonical) ∧
    (∀ first s fields r, parseFields codec fuel first s = some (fields, r) →
      fields.finite codec = true ∧ fields.Canonical) := by
  intro fuel
  induction fuel with
  | zero =>
    refine ⟨?_, ?_, ?_⟩
    · intro s v r h; rw [parseValue_zero] at h; cases h
    · intro first s items r h; rw [parseItems_zero] at h; cases h
    · intro first s fields r h; rw [parseFields_zero] at h; cases h
  | succ f ih =>
    obtain ⟨ihv, ihi, ihf⟩ := ih
    refine ⟨?_, ?_, ?_⟩
    · intro s v r h
      rw [parseValue.eq_def] at h
      simp only at h
      split at h
      · cases h
      · split at h
        · split at h
          · cases h; exact ⟨rfl, trivial⟩
          · cases h
        · split at h
          · split at h
            · cases h; exact ⟨rfl, trivial⟩
            · cases h
          · split at h
            · split at h
              · cases h; exact ⟨rfl, trivial⟩
              · cases h
            · split at h
              · split at h
                · cases h; exact ⟨rfl, trivial⟩
                · cases h
              · split at h
                · split at h
                  · rename_i items r1 heq
                    cases h
                    have := ihi _ _ _ _ heq
                    exact ⟨by simpa [JVal.finite] using this.1,
                      by simpa [JVal.Canonical] using this.2⟩
                  · cases h
                · split at h
                  · split at h
                    · rename_i raw r1 heq
                      cases h
                      have := ihf _ _ _ _ heq
                      refine ⟨?_, ?_⟩
                      · rw [JVal.finite]
                        exact JFields.build_finite codec raw .nil this.1 rfl
                      · rw [JVal.Canonical]
                        exact ⟨JFields.build_pairwise raw .nil (by simp [JFields.keys]),
                          JFields.build_canonical raw .nil this.2 trivial⟩
                    · cases h
                  · split at h
                    · split at h
                      · rename_i x heq
                        cases h
                        exact ⟨by simpa [JVal.finite] using hc.parse_finite _ _ heq, trivial⟩
                      · cases h
                    · cases h
    · intro first s items r h
      rw [parseItems.eq_def] at h
      simp only at h
      split at h
      · cases h
      · split at h
        · cases h; exact ⟨rfl, trivial⟩
        · split at h
          · split at h
            · split at h
              · cases h
                have h1 := ihv _ _ _ (by assumption)
                have h2 := ihi _ _ _ _ (by assumption)
                exact ⟨by simp [JItems.finite, h1.1, h2.1],
                  by simp only [JItems.Canonical]; exact ⟨h1.2, h2.2⟩⟩
              · cases h
            · cases h
          · cases h
    · intro first s fields r h
      rw [parseFields.eq_def] at h
      simp only at h
      split at h
      · cases h
      · split at h
        · cases h; exact ⟨rfl, trivial⟩
        · split at h
          · split at h
            · split at h
              · split at h
                · split at h
                  · cases h
                    have h1 := ihv _ _ _ (by assumption)
                    have h2 := ihf _ _ _ _ (by assumption)
                    exact ⟨by simp [JFields.finite, h1.1, h2.1],
                      by simp only [JFields.Canonical]; exact ⟨h1.2, h2.2⟩⟩
                  · cases h
                · cases h
              · cases h
            · cases h
          · cases h

/-! ## A codec for examples: the natural numbers in decimal -/

theorem decimalDigit_facts : ∀ d, d < 10 →
    (decimalDigit d).isDigit = true ∧ (decimalDigit d).toNat - 48 = d ∧
    isNumberChar (decimalDigit d) = true ∧ (decimalDigit d = '0' → d = 0) := by
  decide

theorem decimalValue_digits : ∀ (fuel n : Nat) (acc : List Char), n < fuel →
    decimalValue 0 (decimalDigits fuel n acc) = decimalValue n acc
  | 0, _, _, h => by omega
  | fuel + 1, n, acc, h => by
    rw [decimalDigits]
    split
    · rename_i hn
      simp only [decimalValue, List.foldl_cons, (decimalDigit_facts n hn).2.1]
      simp
    · rename_i hn
      rw [decimalValue_digits fuel (n / 10) _ (by omega)]
      simp only [decimalValue, List.foldl_cons,
        (decimalDigit_facts (n % 10) (Nat.mod_lt _ (by decide))).2.1]
      congr 1
      omega

theorem decimalDigits_all : ∀ (fuel n : Nat) (acc : List Char),
    (∀ c ∈ acc, c.isDigit = true) → ∀ c ∈ decimalDigits fuel n acc, c.isDigit = true
  | 0, _, _, h => h
  | fuel + 1, n, acc, h => by
    rw [decimalDigits]
    split
    · rename_i hn
      intro c hc
      rcases List.mem_cons.1 hc with hc | hc
      · rw [hc]; exact (decimalDigit_facts n hn).1
      · exact h c hc
    · apply decimalDigits_all fuel
      intro c hc
      rcases List.mem_cons.1 hc with hc | hc
      · rw [hc]; exact (decimalDigit_facts _ (Nat.mod_lt _ (by decide))).1
      · exact h c hc

theorem decimalDigits_head : ∀ (fuel n : Nat) (acc : List Char), n < fuel →
    ∃ d t, d < 10 ∧ decimalDigits fuel n acc = decimalDigit d :: t ∧
      (d = 0 → n = 0 ∧ t = acc)
  | 0, _, _, h => by omega
  | fuel + 1, n, acc, h => by
    rw [decimalDigits]
    split
    · rename_i hn
      exact ⟨n, acc, hn, rfl, fun h0 => ⟨h0, rfl⟩⟩
    · rename_i hn
      obtain ⟨d, t, hd, heq, h0⟩ := decimalDigits_head fuel (n / 10)
        (decimalDigit (n % 10) :: acc) (by omega)
      refine ⟨d, t, hd, heq, fun hz => ?_⟩
      have := (h0 hz).1
      omega

theorem parseNatural_format (n : Nat) : parseNatural (formatNatural n) = some n := by
  obtain ⟨d, t, hd, heq, h0⟩ := decimalDigits_head (n + 1) n [] (by omega)
  have hall := decimalDigits_all (n + 1) n [] (by simp)
  have hval := decimalValue_digits (n + 1) n [] (by omega)
  rw [formatNatural, heq] at *
  rw [parseNatural]
  have h1 : (decimalDigit d :: t).all Char.isDigit = true := by
    rw [List.all_eq_true]
    exact hall
  have h2 : (decimalDigit d != '0' || t.isEmpty) = true := by
    by_cases hz : decimalDigit d = '0'
    · have := (h0 ((decimalDigit_facts d hd).2.2.2 hz)).2
      rw [this]; simp
    · simp [hz]
  simp only [h1, h2, Bool.and_self, if_true, hval]
  rfl

/-- The codec of the decimal natural numbers keeps the laws of a codec. -/
theorem naturalCodec_lawful : naturalCodec.Lawful where
  parse_finite := fun _ _ _ => rfl
  parse_format := fun n _ => parseNatural_format n
  format_head := fun n _ => by
    obtain ⟨d, t, hd, heq, _⟩ := decimalDigits_head (n + 1) n [] (by omega)
    exact ⟨decimalDigit d, t, heq, Or.inr (decimalDigit_facts d hd).1⟩
  format_chars := fun n _ c hc => by
    have := decimalDigits_all (n + 1) n [] (by simp) c hc
    simp [isNumberChar, this]

/-! ## The round trip of `json.Unmarshal` and `json.Marshal` -/

theorem jsonUnmarshal_inv {N : Type} (codec : JsonCodec N) (hc : codec.Lawful)
    (content : String) (m : JVal N) (h : jsonUnmarshal codec content = .ok m) :
    m.finite codec = true ∧ m.Canonical ∧ (m = .null ∨ ∃ fields, m = .obj fields) := by
  unfold jsonUnmarshal at h
  split at h
  · cases h
  · rename_i v rest heq
    have hs := (parse_sound codec hc _).1 _ _ _ heq
    split at h
    · split at h
      · cases h; exact ⟨hs.1, hs.2, Or.inl rfl⟩
      · cases h; exact ⟨hs.1, hs.2, Or.inr ⟨_, rfl⟩⟩
      · cases h
    · cases h

theorem jsonUnmarshal_render {N : Type} (codec : JsonCodec N) (hc : codec.Lawful)
    (m : JVal N) (hfin : m.finite codec = true) (hcan : m.Canonical)
    (hmap : m = .null ∨ ∃ fields, m = .obj fields) :
    jsonUnmarshal codec ⟨m.render codec⟩ = .ok m := by
  obtain ⟨c, t, hr, hstart⟩ := JVal.renderValue_head codec hc m hfin
  have hskip : skipSpace (m.render codec) = m.render codec := by
    rw [hr]; exact skipSpace_cons _ hstart.not_space
  have hparse : parseValue codec ((m.render codec).length + 1) (m.render codec)
      = some (m, []) := by
    have := parseValue_render codec hc m hfin hcan ((m.render codec).length + 1) []
      (by omega) (fun c t h => by cases h)
    rwa [List.append_nil] at this
  unfold jsonUnmarshal
  simp only [String.length, hskip, hparse]
  have hnil : skipSpace ([] : List Char) = [] := rfl
  rw [if_pos hnil]
  rcases hmap with h | ⟨fields, h⟩ <;> rw [h]

/-- The value that `json.Unmarshal` returns for a text is encoded by
`json.Marshal` without error, and the text of the encoder decodes to the same
value. -/
theorem json_round_trip {N : Type} (codec : JsonCodec N) (hc : codec.Lawful)
    (content : String) (m : JVal N) (h : jsonUnmarshal codec content = .ok m) :
    jsonMarshal codec m = .ok ⟨m.render codec⟩ ∧
      jsonUnmarshal codec ⟨m.render codec⟩ = .ok m := by
  obtain ⟨hfin, hcan, hmap⟩ := jsonUnmarshal_inv codec hc content m h
  refine ⟨?_, jsonUnmarshal_render codec hc m hfin hcan hmap⟩
  simp only [jsonMarshal, hfin, if_true]

/-! ## The two forms of the language data agree -/

/-- C9: with `json.Unmarshal` and `json.Marshal` as `encoding/json` documents
them, over floats that keep the laws of `strconv`: every mapping `m` that
`parseLanguageFile` returns is encoded by `json.Marshal` without error and the
text decodes to `m`; and in every context that
`generateLanguageFileFromIndex` renders, `I18NJson` is the text of
`json.Marshal` for `I18N` and decodes to `I18N`. -/
theorem language_data_round_trip {T N : Type} (codec : JsonCodec N) (hc : codec.Lawful)
    (lib : Lib T (JVal N)) :
    (∀ (fs : FS) (filePath ext : String) (m : JVal N),
      parseLanguageFile (lib.withJson codec) fs filePath ext = .ok m →
      ∃ text, (lib.withJson codec).marshal m = .ok text ∧
        (lib.withJson codec).unmarshalData text = .ok m) ∧
    ∀ (outputPattern : String) (tmpl : T) (currentLang : Language)
      (langLinks : GoMap Language) (langDir outputDir : String) (manifest : Manifest)
      (st : Run (JVal N)) (ctx : TemplateData (JVal N)),
      (generateLanguageFileFromIndex (lib.withJson codec) outputPattern tmpl currentLang
        langLinks langDir outputDir manifest st).1.rendered = st.rendered ++ [ctx] →
      jsonMarshal codec ctx.I18N = .ok ctx.I18NJson ∧
        jsonUnmarshal codec ctx.I18NJson = .ok ctx.I18N := by
  have hfile : ∀ (fs : FS) (filePath ext : String) (m : JVal N),
      parseLanguageFile (lib.withJson codec) fs filePath ext = .ok m →
      ∃ text, jsonMarshal codec m = .ok text ∧ jsonUnmarshal codec text = .ok m := by
    intro fs filePath ext m h
    unfold parseLanguageFile at h
    split at h
    · cases h
    · rename_i content _
      split at h
      · split at h
        · cases h
        · rename_i result hres
          cases h
          exact ⟨_, json_round_trip codec hc content _ hres⟩
      · cases h
  refine ⟨hfile, ?_⟩
  intro outputPattern tmpl currentLang langLinks langDir outputDir manifest st ctx hctx
  obtain ⟨hload, hm⟩ := context_json_of_data (lib.withJson codec) outputPattern tmpl
    currentLang langLinks langDir outputDir manifest st ctx hctx
  obtain ⟨text, h1, h2⟩ := hfile _ _ _ _ hload
  have hm1 : jsonMarshal codec ctx.I18N = .ok ctx.I18NJson := hm
  rw [hm1] at h1
  cases h1
  exact ⟨hm1, h2⟩

/-- C9, witness: the language file of the example, with a repeated key, keys
out of order, white space, an escape and a character that the encoder
escapes, decodes to a mapping whose text decodes to the same mapping. -/
theorem language_data_round_trip_witness :
    parseLanguageFile ((demoJsonLib demoLanguages).withJson naturalCodec) jsonProject
      "proj/langs/en.json" ".json" = .ok jsonDemoData ∧
    jsonMarshal naturalCodec jsonDemoData
      = .ok "\x7b\"n\":[1,20,true,null],\"t\":\"Hi\\n\"\x7d" ∧
    (∃ text, ((demoJsonLib demoLanguages).withJson naturalCodec).marshal jsonDemoData = .ok text ∧
      ((demoJsonLib demoLanguages).withJson naturalCodec).unmarshalData text
        = .ok jsonDemoData) ∧
    jsonMarshal naturalCodec jsonDemoContext.I18N = .ok jsonDemoContext.I18NJson ∧
    jsonUnmarshal naturalCodec jsonDemoContext.I18NJson = .ok jsonDemoContext.I18N :=
  ⟨by rfl, by rfl,
    (language_data_round_trip naturalCodec naturalCodec_lawful (demoJsonLib demoLanguages)).1
      jsonProject "proj/langs/en.json" ".json" jsonDemoData (by rfl),
    (language_data_round_trip naturalCodec naturalCodec_lawful (demoJsonLib demoLanguages)).2
      "\x7blang\x7d.html" "T" (mkLang "en" "en.json")
      (generateLanguageLinksFromIndex [mkLang "en" "en.json"]) "proj/langs" "proj/outputs"
      defaultManifest { fs := jsonProject, created := [], rendered := [] } jsonDemoContext
      (by rfl)⟩

end MultilangGen
